import Mathlib

/-!
# gotelemetry_agent: aggregation store sweep and expression builtins

A shallow embedding of

* `agent/aggregations/manager.go` (`Init`, `DatabaseCleanup`) over a model of
  the bolt key/value store (buckets of byte-string keys kept in
  byte-lexicographic order, cursors with `Seek`, `Prev`, `Delete`);
* `agent/parser/command_output.go`, `expression_global.go` and
  `expression_string.go` (the output command, the builtin handlers and
  property extraction);
* `agent/lua/library_oauth.go` (the two entries of the OAuth library).

Conventions.  Byte strings are lists of naturals (one per byte).  Go `int64`
seconds, `time.Time` and `time.Duration` are integers (nanoseconds for the last
two).  A Go `float64` is a finite value (the rational it denotes), an infinity
or NaN; the product in `random` and the three operations of `Duration.Seconds`
are modelled with their rounding to the nearest `float64`.  The mean and the
deviation of `anomaly`, which are not among the sources, are computed on exact
arithmetic.
-/

namespace Agent

/-! ## Byte strings -/

/-- A Go byte slice, one natural below 256 per byte. -/
abbrev Bytes := List Nat

/-- The bytes of an ASCII string literal. -/
def ascii (s : String) : Bytes := s.toList.map Char.toNat

/-- The Go test `bytes.Compare(a, b) < 0`: byte-lexicographic order, a proper
prefix sorting first.  This is the order bolt keeps keys in. -/
def bytesLt : Bytes → Bytes → Bool
  | [], [] => false
  | [], _ :: _ => true
  | _ :: _, [] => false
  | a :: as, b :: bs => if a < b then true else if b < a then false else bytesLt as bs

/-! ## Decimal formatting (`strconv.FormatInt(i, 10)`) -/

/-- The decimal digits of `n`, most significant first, as ASCII bytes; the
first argument bounds the number of digits produced. -/
def fmtDigits : Nat → Nat → Bytes
  | 0, _ => []
  | fuel + 1, n => if n < 10 then [48 + n] else fmtDigits fuel (n / 10) ++ [48 + n % 10]

/-- The decimal form of a natural number (`"0"` for zero). -/
def formatNat (n : Nat) : Bytes := fmtDigits (n + 1) n

/-- The Go call `strconv.FormatInt(i, 10)`: a minus sign (byte 45) followed by
the digits of the absolute value when `i` is negative. -/
def FormatInt (i : Int) : Bytes :=
  if i < 0 then 45 :: formatNat i.natAbs else formatNat i.natAbs

/-! ## Time -/

/-- A `time.Time`, as nanoseconds since the Unix epoch. -/
abbrev Time := Int

/-- A `time.Duration`: an `int64` number of nanoseconds. -/
abbrev Duration := Int

/-- Go unary minus on an `int64`: the most negative value negates to itself. -/
def negDuration (d : Duration) : Duration :=
  if d = -(2 ^ 63) then d else -d

/-- The method `Time.Add`. -/
def Time.Add (t : Time) (d : Duration) : Time := t + d

/-- The method `Time.Unix`: whole seconds since the epoch, rounded down. -/
def Time.Unix (t : Time) : Int := t / 1000000000

/-! ## The bolt store -/

/-- A bolt bucket as the agent uses it: plain key/value entries, kept by bolt
in strictly ascending key order. -/
abbrev Bucket := List (Bytes × Bytes)

/-- The top level of a bolt database: named buckets in ascending name order. -/
abbrev Store := List (Bytes × Bucket)

/-- Keys strictly ascending in byte order (bolt's B+tree invariant). -/
def ascending : List Bytes → Bool
  | [] => true
  | [_] => true
  | a :: b :: rest => bytesLt a b && ascending (b :: rest)

/-- A well-formed bucket: keys non-empty (bolt rejects empty keys) and
strictly ascending. -/
def Bucket.WF (b : Bucket) : Bool :=
  b.all (fun e => e.1 ≠ []) && ascending (b.map Prod.fst)

/-- A well-formed store: bucket names non-empty (bolt rejects empty names) and
strictly ascending, every bucket well-formed. -/
def Store.WF (s : Store) : Bool :=
  s.all (fun nb => nb.1 ≠ [] && nb.2.WF) && ascending (s.map Prod.fst)

/-- The bucket stored under `name`, if any (`tx.Bucket(name)`). -/
def Store.bucket (s : Store) (name : Bytes) : Option Bucket :=
  (s.find? (fun nb => nb.1 = name)).map Prod.snd

/-- The call `tx.CreateBucketIfNotExists(name)`: insert an empty bucket at its
place in name order unless the name is already present. -/
def CreateBucketIfNotExists (name : Bytes) : Store → Store
  | [] => [(name, [])]
  | nb :: rest =>
    if nb.1 = name then nb :: rest
    else if bytesLt name nb.1 then (name, []) :: nb :: rest
    else nb :: CreateBucketIfNotExists name rest

/-- A bolt cursor over one bucket.  The bucket's entries are viewed as one
sorted sequence; `stack` is the index of the cursor in it (`some n` with `n`
the length of the bucket when a seek ran past the last key), or `none` once
`Prev` has walked off the front and emptied the cursor stack. -/
structure Cursor where
  stack : Option Nat
deriving DecidableEq, Repr

/-- The index `Cursor.Seek` lands on: the number of leading keys that sort
below `seek`, which in an ascending bucket is the index of the first key at or
after `seek` (the length of the bucket when there is none). -/
def seekIndex : Bucket → Bytes → Nat
  | [], _ => 0
  | e :: es, seek => if bytesLt e.1 seek then seekIndex es seek + 1 else 0

/-- The key under index `i`, `none` (Go `nil`) when out of range. -/
def keyAt (b : Bucket) (i : Nat) : Option Bytes := (b.get? i).map Prod.fst

/-- The method `Cursor.Seek`: move to the first key at or after `seek` and
return it, or `nil` when no key follows. -/
def Cursor.Seek (b : Bucket) (seek : Bytes) : Cursor × Option Bytes :=
  (⟨some (seekIndex b seek)⟩, keyAt b (seekIndex b seek))

/-- The method `Cursor.Prev`: step back one entry and return its key; at the
first entry the stack is emptied and `nil` is returned. -/
def Cursor.Prev (b : Bucket) (c : Cursor) : Cursor × Option Bytes :=
  match c.stack with
  | some (i + 1) => (⟨some i⟩, keyAt b i)
  | _ => (⟨none⟩, none)

/-- The method `Cursor.Delete`: remove the entry under the cursor, leaving the
cursor index where it was.  On plain key/value entries in a writable
transaction it returns no error.  The sweep never calls it on an emptied
stack. -/
def Cursor.Delete (b : Bucket) (c : Cursor) : Bucket :=
  match c.stack with
  | some i => b.eraseIdx i
  | none => b

/-! ## `agent/aggregations/manager.go` -/

/-- The fields of `Manager` that `Init` and `DatabaseCleanup` use: the
retention and the contents of the open database. -/
structure Manager where
  ttl : Duration
  conn : Store
deriving DecidableEq, Repr

/-- The loop `for k != nil { cursor.Delete(); k, _ = cursor.Prev() }` of
`DatabaseCleanup`.  The first argument bounds the number of iterations; `none`
means the bound was reached with `k` still non-nil. -/
def deleteLoop : Nat → Bucket → Cursor → Option Bytes → Option Bucket
  | _, b, _, none => some b
  | 0, _, _, some _ => none
  | fuel + 1, b, c, some _ =>
    let b1 := c.Delete b
    let r := c.Prev b1
    deleteLoop fuel b1 r.1 r.2

/-- The body run by `DatabaseCleanup` on one non-reserved bucket: seek to
`max`, step back once, then delete backwards until the cursor runs out. -/
def sweepBucket (b : Bucket) (max : Bytes) : Option Bucket :=
  let c0 := (Cursor.Seek b max).1
  let r := c0.Prev b
  deleteLoop b.length b r.1 r.2

/-- The callback `DatabaseCleanup` passes to `tx.ForEach`.  The index
expression `string(name)[0]` has no value on an empty name (`none`). -/
def cleanupBucket (max : Bytes) (name : Bytes) (b : Bucket) : Option Bucket :=
  match name with
  | [] => none
  | c :: _ => if c ≠ 95 then sweepBucket b max else some b

/-- The method `tx.ForEach`: apply the callback to every bucket in name
order. -/
def forEachBucket (fn : Bytes → Bucket → Option Bucket) : Store → Option Store
  | [] => some []
  | nb :: rest =>
    match fn nb.1 nb.2 with
    | none => none
    | some b1 =>
      match forEachBucket fn rest with
      | none => none
      | some rest1 => some ((nb.1, b1) :: rest1)

/-- The function `DatabaseCleanup`, run at time `now` on the package-level
`manager`: the manager with the swept store, `none` when the run does not
complete. -/
def DatabaseCleanup (manager : Manager) (now : Time) : Option Manager :=
  let since := now.Add (negDuration manager.ttl)
  let max := FormatInt since.Unix
  match forEachBucket (cleanupBucket max) manager.conn with
  | none => none
  | some s => some { manager with conn := s }

/-- The function `Init` for a non-nil `location` whose database opened with
contents `opened`: the retention is parsed from `ttlString` with
`config.ParseTimeInterval` (passed in as `parseTimeInterval`), or is 0 when the
string is nil or empty, and the two default buckets are created.  On a parse
error the manager built so far (zero `ttl`, store as opened) and the error are
returned. -/
def Init (parseTimeInterval : String → Except String Duration)
    (ttlString : Option String) (opened : Store) : Manager × Option String :=
  let manager : Manager := { ttl := 0, conn := opened }
  let parsed : Except String Manager :=
    match ttlString with
    | some s =>
      if s.length > 0 then
        match parseTimeInterval s with
        | .error err => .error err
        | .ok ttl => .ok { manager with ttl := ttl }
      else .ok { manager with ttl := 0 }
    | none => .ok { manager with ttl := 0 }
  match parsed with
  | .error err => (manager, some err)
  | .ok m =>
    let s1 := CreateBucketIfNotExists (ascii "_counters") m.conn
    let s2 := CreateBucketIfNotExists (ascii "_oauth") s1
    ({ m with conn := s2 }, none)

/-- The bucket of a series whose samples are `(timestamp, payload)` pairs: one
entry per sample, keyed by the decimal form of the Unix-second timestamp. -/
def seriesBucket (samples : List (Nat × Bytes)) : Bucket :=
  samples.map (fun s => (formatNat s.1, s.2))

/-- Whether a bucket name is reserved: its first byte is `_` (95). -/
def reserved (name : Bytes) : Bool := name.head? = some 95

/-- An example store: the two reserved buckets, the first holding an old
entry, and a series `cpu` with samples at 1699992800 and 1699998200. -/
def exampleStore : Store :=
  [(ascii "_counters", [(ascii "1000000000", [7])]),
   (ascii "_oauth", []),
   (ascii "cpu", seriesBucket [(1699992800, [1]), (1699998200, [2])])]

/-- The example store after a sweep that removes the older `cpu` sample. -/
def exampleStoreSwept : Store :=
  [(ascii "_counters", [(ascii "1000000000", [7])]),
   (ascii "_oauth", []),
   (ascii "cpu", seriesBucket [(1699998200, [2])])]

/-- The example store after a sweep that removes both `cpu` samples. -/
def exampleStoreEmptied : Store :=
  [(ascii "_counters", [(ascii "1000000000", [7])]),
   (ascii "_oauth", []),
   (ascii "cpu", [])]

/-! ## Values, maps and type assertions -/

/-- A Go `float64`: a finite value, an infinity or NaN.  A finite value is
carried as the rational number it denotes (negative zero is not told apart
from zero); the finite `float64` values are the rationals that `roundFloat64`
leaves as they are. -/
inductive GoFloat64 where
  | finite (x : ℚ)
  | inf (negative : Bool)
  | nan
deriving DecidableEq

/-- A Go `interface{}` value as the expression language handles it; `yamlMap`
is the decoder-native `map[interface{}]interface{}` of the YAML decoder.  The
elements of a `numericArray` are idealised as rationals. -/
inductive Value where
  | nil
  | string (s : String)
  | float64 (x : GoFloat64)
  | int (i : Int)
  | bool (b : Bool)
  | numericArray (xs : List ℚ)
  | slice (xs : List Value)
  | map (entries : List (String × Value))
  | yamlMap (entries : List (Value × Value))

/-- A Go `map[string]interface{}`, as an association list (first entry of a
key counts). -/
abbrev GoMap := List (String × Value)

/-- The two-result lookup `v, ok := m[k]`. -/
def GoMap.get (m : GoMap) (k : String) : Option Value := m.lookup k

/-- The plain index `m[k]`: the nil interface when `k` is absent. -/
def GoMap.index (m : GoMap) (k : String) : Value := (m.lookup k).getD Value.nil

/-- The assignment `m[k] = v`. -/
def GoMap.set : GoMap → String → Value → GoMap
  | [], k, v => [(k, v)]
  | (k0, v0) :: rest, k, v =>
    if k0 = k then (k, v) :: rest else (k0, v0) :: GoMap.set rest k v

/-- The unchecked assertion `x.(string)`; `none` is the run-time panic. -/
def assertString : Value → Option String
  | .string s => some s
  | _ => none

/-- The unchecked assertion `x.(float64)`; `none` is the run-time panic. -/
def assertFloat64 : Value → Option GoFloat64
  | .float64 x => some x
  | _ => none

/-- The unchecked assertion `x.(numericArray)`; `none` is the run-time panic. -/
def assertNumericArray : Value → Option (List ℚ)
  | .numericArray xs => some xs
  | _ => none

/-- The checked assertion `s, ok := x.(string)`: the zero value and `false`
when `x` is not a string. -/
def checkString : Value → String × Bool
  | .string s => (s, true)
  | _ => ("", false)

/-- The checked assertion `f, ok := x.(float64)`. -/
def checkFloat64 : Value → GoFloat64 × Bool
  | .float64 x => (x, true)
  | _ => (.finite 0, false)

/-- The checked assertion `m, ok := x.(map[string]interface{})`. -/
def checkMap : Value → GoMap × Bool
  | .map entries => (entries, true)
  | _ => ([], false)

/-! ## Binary floating point -/

/-- Worker of `natLog2`; the first argument bounds the number of halvings. -/
def log2Fuel : Nat → Nat → Nat
  | 0, _ => 0
  | fuel + 1, n => if n < 2 then 0 else log2Fuel fuel (n / 2) + 1

/-- The position of the highest set bit of `n` (0 for 0 and 1). -/
def natLog2 (n : Nat) : Nat := log2Fuel n n

/-- A finite `float64` value `m * 2^e`, far from overflow and from the
subnormal range. -/
structure Float64 where
  m : Int
  e : Int
deriving DecidableEq, Repr

/-- The quotient `num / den` rounded to the nearest integer, ties to even. -/
def roundHalfEven (num den : Nat) : Nat :=
  let f := num / den
  let r := num % den
  if 2 * r < den then f else if den < 2 * r then f + 1 else if f % 2 = 0 then f else f + 1

/-- The binary exponent `e` of the positive fraction `p / q`:
`2^e <= p / q < 2^(e+1)`. -/
def binaryExponent (p q : Nat) : Int :=
  let e0 : Int := (natLog2 p : Int) - (natLog2 q : Int)
  let below : Bool :=
    if 0 ≤ e0 then decide (2 ^ e0.toNat * q ≤ p) else decide (q ≤ p * 2 ^ (-e0).toNat)
  if below then e0 else e0 - 1

/-- The positive fraction `p / q` rounded to the nearest `float64` (53
significant bits, ties to even). -/
def roundFraction (p q : Nat) : Float64 :=
  let e := binaryExponent p q
  let s : Int := 52 - e
  let m : Nat :=
    if 0 ≤ s then roundHalfEven (p * 2 ^ s.toNat) q else roundHalfEven p (q * 2 ^ (-s).toNat)
  ⟨m, e - 52⟩

/-- The fraction `n / q` (with `q` positive) rounded to the nearest
`float64`. -/
def roundRat (n : Int) (q : Nat) : Float64 :=
  if n = 0 then ⟨0, 0⟩
  else if 0 < n then roundFraction n.natAbs q
  else ⟨-(roundFraction n.natAbs q).m, (roundFraction n.natAbs q).e⟩

/-- The negation of a `float64`. -/
def GoFloat64.neg : GoFloat64 → GoFloat64
  | .finite x => .finite (-x)
  | .inf n => .inf (!n)
  | .nan => .nan

/-- The exponent of the unit in the last place at which the positive fraction
`p / q` is rounded: 52 below its binary exponent in the normal range, and
-1074 for every fraction below 2^-1022 (gradual underflow). -/
def ulpExponent (p q : Nat) : Int := max (binaryExponent p q) (-1022) - 52

/-- The integer nearest to `p / q * 2^(-k)`, ties to even. -/
def scaledRound (p q : Nat) (k : Int) : Nat :=
  if k ≤ 0 then roundHalfEven (p * 2 ^ (-k).toNat) q else roundHalfEven p (q * 2 ^ k.toNat)

/-- The positive fraction `p / q` rounded to the nearest `float64`, ties to
even: a multiple of the unit in the last place, or +Inf when that multiple
reaches 2^1024. -/
def roundPositive (p q : Nat) : GoFloat64 :=
  let k := ulpExponent p q
  let y : ℚ := (scaledRound p q k : ℚ) * (2 : ℚ) ^ k
  if (2 : ℚ) ^ (1024 : ℤ) ≤ y then .inf false else .finite y

/-- The rational `x` rounded to the nearest `float64`, ties to even: what a
`float64` operation returns for the exact result `x`. -/
def roundFloat64 (x : ℚ) : GoFloat64 :=
  if x = 0 then .finite 0
  else if 0 < x then roundPositive x.num.natAbs x.den
  else (roundPositive x.num.natAbs x.den).neg

/-- The `float64` product `a * b`: the exact product rounded; zero times an
infinity is NaN. -/
def GoFloat64.mul : GoFloat64 → GoFloat64 → GoFloat64
  | .finite a, .finite b => roundFloat64 (a * b)
  | .finite a, .inf n => if a = 0 then .nan else .inf (if 0 < a then n else !n)
  | .inf n, .finite b => if b = 0 then .nan else .inf (if 0 < b then n else !n)
  | .inf n, .inf k => .inf (n != k)
  | .nan, _ => .nan
  | _, .nan => .nan

/-- The numerator of a `float64` value written as a fraction. -/
def Float64.num (a : Float64) : Int := if 0 ≤ a.e then a.m * 2 ^ a.e.toNat else a.m

/-- The denominator of a `float64` value written as a fraction. -/
def Float64.den (a : Float64) : Nat := if 0 ≤ a.e then 1 else 2 ^ (-a.e).toNat

/-- The Go conversion `float64(i)` of an integer. -/
def Float64.ofInt (i : Int) : Float64 := roundRat i 1

/-- The `float64` sum `a + b`. -/
def Float64.add (a b : Float64) : Float64 :=
  roundRat (a.num * b.den + b.num * a.den) (a.den * b.den)

/-- The `float64` quotient `a / b`, for `b` other than zero. -/
def Float64.div (a b : Float64) : Float64 :=
  roundRat (a.num * b.den * b.num.sign) (a.den * b.num.natAbs)

/-- The Go conversion `int(x)` of a `float64`: truncation toward zero. -/
def Float64.toInt (a : Float64) : Int := Int.tdiv a.num a.den

/-- The negation of a `float64`. -/
def Float64.neg (a : Float64) : Float64 := ⟨-a.m, a.e⟩

/-- The rational value of a `float64`. -/
def Float64.val (a : Float64) : ℚ := (a.num : ℚ) / (a.den : ℚ)

/-- The method `Duration.Seconds`:
`float64(d / Second) + float64(d % Second) / 1e9`. -/
def Duration.Seconds (d : Duration) : Float64 :=
  let sec := Int.tdiv d 1000000000
  let nsec := Int.tmod d 1000000000
  (Float64.ofInt sec).add ((Float64.ofInt nsec).div (Float64.ofInt 1000000000))

/-! ## Callable argument descriptors -/

/-- The kinds a callable argument descriptor can declare. -/
inductive Kind where
  | string
  | numeric
  | numericArray
  | map
deriving DecidableEq, Repr

/-- Modelled from the spec: the descriptor type `callableArgument` and its
values (`callableArgumentString`, ...) are declared outside the sources; a
descriptor declares a kind and whether the parameter is required. -/
structure callableArgument where
  kind : Kind
  required : Bool
deriving DecidableEq, Repr

def callableArgumentString : callableArgument := ⟨Kind.string, true⟩
def callableArgumentOptionalString : callableArgument := ⟨Kind.string, false⟩
def callableArgumentNumeric : callableArgument := ⟨Kind.numeric, true⟩
def callableArgumentOptionalNumeric : callableArgument := ⟨Kind.numeric, false⟩
def callableArgumentNumericArray : callableArgument := ⟨Kind.numericArray, true⟩
def callableArgumentOptionalMap : callableArgument := ⟨Kind.map, false⟩

/-- Whether a value has the declared kind. -/
def hasKind : Kind → Value → Bool
  | .string, .string _ => true
  | .numeric, .float64 _ => true
  | .numericArray, .numericArray _ => true
  | .map, .map _ => true
  | _, _ => false

/-- A validated argument map: every required key is present with the declared
kind, every optional key is absent or has the declared kind. -/
def validated (arguments : List (String × callableArgument)) (args : GoMap) : Bool :=
  arguments.all (fun d =>
    match args.get d.1 with
    | some v => hasKind d.2.kind v
    | none => !d.2.required)

/-! ## Execution context -/

/-- The notification built by `gotelemetry.NewNotification`. -/
structure Notification where
  title : String
  message : String
  icon : String
  duration : Int
  sound : String
deriving DecidableEq, Repr

/-- An externally visible effect of a handler. -/
inductive Effect where
  | logged (line : String)
  | notified (n : Notification) (channelTag flowTag : String)
  | spawned (flowTag plugin : String) (cfg : GoMap)

/-- Modelled from the spec: `aggregations.GetCounter` and
`aggregations.GetSeries` are not among the sources; each returns a value, a
found flag and an error for a name, bound to the context handle. -/
structure aggregationContext where
  GetCounter : String → Value × Bool × Option String
  GetSeries : String → Value × Bool × Option String

/-- The fields of `executionContext`.  The notification provider and the job
spawner are given by the result of their one method. -/
structure executionContext where
  output : GoMap
  arguments : GoMap
  aggregationContext : aggregationContext
  notificationProvider : Notification → String → String → Bool
  jobSpawner : String → String → GoMap → Option String

/-- The only field of `token` the output command reads. -/
structure token where
  source : String
deriving DecidableEq, Repr

/-! ## Expressions -/

/-- The struct `globalExpression`. -/
structure globalExpression where
  l : Int
  p : Int
deriving DecidableEq, Repr

/-- The struct `stringExpression`. -/
structure stringExpression where
  value : String
  err : Option String
  l : Int
  p : Int
deriving DecidableEq, Repr

/-- The implementations of the `expression` interface that the builtins
construct.  A callable carries its name, its handler closure, its argument
descriptors and its source position.  A handler returns
`(expression, error, effects)`, with `none` for a nil expression or error, or
`none` overall when it panics.  A numeric expression carries the interface
value it was built from (`now` builds one from an `int64`, `random` from a
`float64`). -/
inductive expression where
  | global (g : globalExpression)
  | string (s : stringExpression)
  | numeric (value : Value) (line position : Int)
  | boolean (value : Bool) (line position : Int)
  | array (value : List Value) (line position : Int)
  | excel (path : String) (line position : Int)
  | googleSpreadsheet (spreadsheetId : String) (line position : Int)
  | counter (name : String) (value : Value) (line position : Int)
  | series (name : String) (value : Value) (line position : Int)
  | callable (name : String)
      (handler : executionContext → GoMap →
        Option (Option expression × Option String × List Effect))
      (arguments : List (String × callableArgument)) (line position : Int)

/-- What a handler returns: expression, error, effects. -/
abbrev Returned := Option expression × Option String × List Effect

/-- The type of a callable's handler. -/
abbrev Handler := executionContext → GoMap → Option Returned

def newCallableExpression (name : String) (handler : Handler)
    (arguments : List (String × callableArgument)) (line position : Int) : expression :=
  .callable name handler arguments line position

def newNumericExpression (value : Value) (line position : Int) : expression :=
  .numeric value line position

def newBooleanExpression (value : Bool) (line position : Int) : expression :=
  .boolean value line position

def newArrayExpression (value : List Value) (line position : Int) : expression :=
  .array value line position

def newExcelExpression (path : String) (line position : Int) : expression :=
  .excel path line position

def newGoogleSpreadsheetExpression (spreadsheetId : String) (line position : Int) :
    expression :=
  .googleSpreadsheet spreadsheetId line position

def newCounterExpression (name : String) (value : Value) (line position : Int) : expression :=
  .counter name value line position

def newSeriesExpression (name : String) (value : Value) (line position : Int) : expression :=
  .series name value line position

/-- The handler of a callable expression (a handler that panics for any other
expression). -/
def expression.handler : expression → Handler
  | .callable _ h _ _ _ => h
  | _ => fun _ _ => none

/-- The argument descriptors of a callable expression. -/
def expression.arguments : expression → List (String × callableArgument)
  | .callable _ _ a _ _ => a
  | _ => []

/-- Whether the expression is a callable with the given name. -/
def expression.isCallable (name : String) : expression → Bool
  | .callable n _ _ _ _ => n = name
  | _ => false

/-- Everything outside the program that the builtins consult: the clock, the
random generator, the file system, the decoders, `time.ParseDuration`, and the
functions of the package that are not among the sources. -/
structure World where
  /-- The value of `time.Now().Unix()`. -/
  unixNow : Int
  /-- The next draw of `rand.Float64()`, a finite `float64`. -/
  randFloat64 : ℚ
  /-- The function `unicode.ToLower`. -/
  unicodeToLower : Char → Char
  /-- The result of the conversion `int(x)` for a `float64` that no `int`
  represents, which the language leaves to the implementation. -/
  intOutOfRange : GoFloat64 → Int
  /-- The function `ioutil.ReadFile`. -/
  readFile : String → Except String String
  /-- The decoders `json.Unmarshal`, `yaml.Unmarshal`, `toml.Decode`. -/
  jsonUnmarshal : String → Except String Value
  yamlUnmarshal : String → Except String Value
  tomlDecode : String → Except String Value
  /-- The function `time.ParseDuration`. -/
  parseDuration : String → Except String Duration
  /-- The function `expressionFromInterface`. -/
  expressionFromInterface : Value → Int → Int → Option expression × Option String
  /-- The handlers behind `g.get()` and `g.post()`. -/
  httpGet : Handler
  httpPost : Handler

/-! ## Library functions used by the builtins -/

/-- The Go function `strings.ToLower`: every character mapped through
`unicode.ToLower`. -/
def stringsToLower (w : World) (s : String) : String :=
  String.mk (s.data.map w.unicodeToLower)

/-- The Go conversion `int(x)` of a `float64` (`int` is 64 bits wide):
truncation toward zero when the truncated value is an `int`; for every other
finite value, an infinity or NaN the result is implementation-dependent. -/
def truncate (w : World) (x : GoFloat64) : Int :=
  match x with
  | .finite q =>
    let i := Int.tdiv q.num q.den
    if -9223372036854775808 ≤ i ∧ i ≤ 9223372036854775807 then i else w.intOutOfRange x
  | _ => w.intOutOfRange x

/-- Worker of `stringsSplit` for a non-empty separator: scan left to right,
cutting at each occurrence of `sep` and skipping over it (`skip` counts the
characters of a matched separator still to pass). -/
def splitGo (sep : List Char) : Nat → List Char → List Char → List (List Char)
  | _, [], cur => [cur.reverse]
  | skip + 1, _ :: rest, cur => splitGo sep skip rest cur
  | 0, c :: rest, cur =>
    if sep.isPrefixOf (c :: rest) then cur.reverse :: splitGo sep (sep.length - 1) rest []
    else splitGo sep 0 rest (c :: cur)

/-- The Go function `strings.Split`: the substrings between the
non-overlapping occurrences of `sep`, found left to right; with an empty
separator, the characters of `s` one by one. -/
def stringsSplit (s sep : String) : List String :=
  if sep.data = [] then s.data.map (fun c => String.mk [c])
  else (splitGo sep.data 0 s.data []).map String.mk

/-- Modelled from the spec: `numericArray.avg` is not among the sources; it is
the arithmetic mean of the array. -/
def numericArray.avg (data : List ℚ) : ℚ := data.sum / data.length

/-- A non-negative real number given by its square: the exact value that a
`math.Sqrt` result idealises. -/
structure Root where
  square : ℚ
deriving DecidableEq, Repr

/-- Modelled from the spec: `numericArray.stddev` is not among the sources; it
is the sample standard deviation of the array, the square root of the sum of
squared deviations from the mean divided by one less than the length. -/
def numericArray.stddev (data : List ℚ) : Root :=
  ⟨(data.map (fun x => (x - numericArray.avg data) ^ 2)).sum / (data.length - 1)⟩

/-- The comparison `a > 3 * r` for a root `r`: `a` is positive and its square
exceeds nine times the square of `r`. -/
def Root.threeTimesLt (r : Root) (a : ℚ) : Bool := decide (0 < a ∧ 9 * r.square < a * a)

/-- The comparison `math.Abs(value - mean) > 3 * stddev` for a mean and a
deviation computed from the array: on exact arithmetic for a finite value; an
infinite value lies above every deviation and NaN above none. -/
def exceedsThreeDeviations (value : GoFloat64) (mean : ℚ) (stddev : Root) : Bool :=
  match value with
  | .finite v => stddev.threeTimesLt |v - mean|
  | .inf _ => true
  | .nan => false

mutual
/-- The function `mapFromYaml`: decoder-native maps become string-keyed maps,
slices are normalised element by element, everything else is returned as it
is.  `none` is the panic of the unchecked `index.(string)` on a key that is
not a string. -/
def mapFromYaml : Value → Option Value
  | .yamlMap entries => (mapFromYamlEntries entries).map Value.map
  | .slice xs => (mapFromYamlSlice xs).map Value.slice
  | v => some v
/-- The loop of `mapFromYaml` over the entries of a decoder-native map. -/
def mapFromYamlEntries : List (Value × Value) → Option (List (String × Value))
  | [] => some []
  | (index, value) :: rest =>
    match assertString index with
    | none => none
    | some k =>
      match mapFromYaml value with
      | none => none
      | some v =>
        match mapFromYamlEntries rest with
        | none => none
        | some rest1 => some ((k, v) :: rest1)
/-- The loop of `mapFromYaml` over the elements of a slice. -/
def mapFromYamlSlice : List Value → Option (List Value)
  | [] => some []
  | value :: rest =>
    match mapFromYaml value with
    | none => none
    | some v =>
      match mapFromYamlSlice rest with
      | none => none
      | some rest1 => some (v :: rest1)
end

/-! ## `agent/parser/command_output.go` -/

/-- The struct `outputCommand`.  The expression is given by its `evaluate`
method, the only one `execute` calls: from a context to a value and an
error. -/
structure outputCommand where
  property : token
  expr : executionContext → Value × Option String

/-- The method `outputCommand.execute`: the context afterwards and the error
returned. -/
def outputCommand.execute (o : outputCommand) (c : executionContext) :
    executionContext × Option String :=
  match o.expr c with
  | (val, none) => ({ c with output := c.output.set o.property.source val }, none)
  | (_, some err) => (c, some err)

/-! ## `agent/parser/expression_string.go` -/

/-- The method `stringExpression.evaluate`. -/
def stringExpression.evaluate (s : stringExpression) (_c : executionContext) :
    Value × Option String :=
  (Value.string s.value, s.err)

/-- The method `stringExpression.split`. -/
def stringExpression.split (s : stringExpression) : expression :=
  newCallableExpression "split"
    (fun _ args => do
      let separator ← assertString (args.index "separator")
      let split := stringsSplit s.value separator
      pure (some (newArrayExpression (split.map Value.string) s.l s.p), none, []))
    [("separator", callableArgumentString)]
    s.l s.p

/-- The table `stringProperties`. -/
def stringProperties : List (String × (stringExpression → expression)) :=
  [("split", fun s => s.split)]

/-- The method `stringExpression.String` (named `toString` here, where
`String` is the type). -/
def stringExpression.toString (s : stringExpression) : String :=
  "String(" ++ s.value ++ ")"

/-- The method `stringExpression.extract`. -/
def stringExpression.extract (s : stringExpression) (_c : executionContext)
    (property : String) : Option expression × Option String :=
  match stringProperties.lookup property with
  | some f => (some (f s), none)
  | none =>
    (none, some (s.toString ++ " does not contain a property with the key `" ++ property ++ "`"))

/-! ## `agent/parser/expression_global.go` -/

/-- The method `globalExpression.now`. -/
def globalExpression.now (w : World) (g : globalExpression) : expression :=
  newCallableExpression "now"
    (fun _ _ => some (some (newNumericExpression (Value.int w.unixNow) g.l g.p), none, []))
    []
    g.l g.p

/-- The method `globalExpression.emitError`. -/
def globalExpression.emitError (g : globalExpression) : expression :=
  newCallableExpression "error"
    (fun _ args => do
      let message ← assertString (args.index "message")
      pure (none, some message, []))
    [("message", callableArgumentString)]
    g.l g.p

/-- The method `globalExpression.log`. -/
def globalExpression.log (g : globalExpression) : expression :=
  newCallableExpression "log"
    (fun _ args => do
      let message ← assertString (args.index "message")
      pure (none, none, [Effect.logged message]))
    [("message", callableArgumentString)]
    g.l g.p

/-- The method `globalExpression.random`. -/
def globalExpression.random (w : World) (g : globalExpression) : expression :=
  newCallableExpression "random"
    (fun _ args =>
      let r := checkFloat64 (args.index "max")
      let max := if !r.2 then .finite 1 else r.1
      some (some (newNumericExpression
        (Value.float64 ((GoFloat64.finite w.randFloat64).mul max)) g.l g.p), none, []))
    [("max", callableArgumentOptionalNumeric)]
    g.l g.p

/-- The method `globalExpression.excel`. -/
def globalExpression.excel (g : globalExpression) : expression :=
  newCallableExpression "excel"
    (fun _ args => do
      let path ← assertString (args.index "path")
      pure (some (newExcelExpression path g.l g.p), none, []))
    [("path", callableArgumentString)]
    g.l g.p

/-- The method `globalExpression.googleSpreadsheet`. -/
def globalExpression.googleSpreadsheet (g : globalExpression) : expression :=
  newCallableExpression "googleSpreadsheet"
    (fun _ args => do
      let spreadsheetId ← assertString (args.index "spreadsheetId")
      pure (some (newGoogleSpreadsheetExpression spreadsheetId g.l g.p), none, []))
    [("spreadsheetId", callableArgumentString)]
    g.l g.p

/-- The method `globalExpression.counter`. -/
def globalExpression.counter (g : globalExpression) : expression :=
  newCallableExpression "counter"
    (fun c args => do
      let n ← assertString (args.index "name")
      let r := c.aggregationContext.GetCounter n
      match r.2.2 with
      | some err => pure (none, some err, [])
      | none => pure (some (newCounterExpression n r.1 g.p g.p), none, []))
    [("name", callableArgumentString)]
    g.l g.p

/-- The method `globalExpression.arg`. -/
def globalExpression.arg (w : World) (g : globalExpression) : expression :=
  newCallableExpression "arg"
    (fun c args => do
      let n ← assertString (args.index "name")
      match c.arguments.get n with
      | some res =>
        let r := w.expressionFromInterface res g.l g.p
        pure (r.1, r.2, [])
      | none => pure (none, some ("Unknown argument " ++ n), []))
    [("name", callableArgumentString)]
    g.l g.p

/-- The method `globalExpression.series`. -/
def globalExpression.series (g : globalExpression) : expression :=
  newCallableExpression "series"
    (fun c args => do
      let n ← assertString (args.index "name")
      let r := c.aggregationContext.GetSeries n
      match r.2.2 with
      | some err => pure (none, some err, [])
      | none => pure (some (newSeriesExpression n r.1 g.p g.p), none, []))
    [("name", callableArgumentString)]
    g.l g.p

/-- The method `globalExpression.notify`. -/
def globalExpression.notify (w : World) (g : globalExpression) : expression :=
  newCallableExpression "notify"
    (fun c args => do
      let title ← assertString (args.index "title")
      let message ← assertString (args.index "message")
      let dString0 := (checkString (args.index "duration")).1
      let dString := if dString0.length = 0 then "1s" else dString0
      match w.parseDuration dString with
      | .error err => pure (none, some err, [])
      | .ok d =>
        let duration0 := (Duration.Seconds d).toInt
        let duration := if duration0 < 1 then 1 else duration0
        let icon := (checkString (args.index "icon")).1
        let s := checkString (args.index "sound")
        let sound := if !s.2 then "default" else s.1
        let channelTag := (checkString (args.index "channel")).1
        let flowTag := (checkString (args.index "flow")).1
        let notification : Notification := ⟨title, message, icon, duration, sound⟩
        let result := c.notificationProvider notification channelTag flowTag
        pure (some (newBooleanExpression result g.l g.p), none,
          [Effect.notified notification channelTag flowTag]))
    [("channel", callableArgumentOptionalString),
     ("flow", callableArgumentOptionalString),
     ("title", callableArgumentString),
     ("message", callableArgumentString),
     ("duration", callableArgumentOptionalString),
     ("icon", callableArgumentOptionalString),
     ("sound", callableArgumentOptionalString)]
    g.l g.p

/-- The method `globalExpression.anomaly`. -/
def globalExpression.anomaly (g : globalExpression) : expression :=
  newCallableExpression "anomaly"
    (fun _ args => do
      let data ← assertNumericArray (args.index "data")
      let value ← assertFloat64 (args.index "value")
      let mean := numericArray.avg data
      let stddev := numericArray.stddev data
      pure (some (newBooleanExpression (exceedsThreeDeviations value mean stddev) g.l g.p),
        none, []))
    [("data", callableArgumentNumericArray),
     ("value", callableArgumentNumeric)]
    g.l g.p

/-- The method `globalExpression.load`. -/
def globalExpression.load (w : World) (g : globalExpression) : expression :=
  newCallableExpression "load"
    (fun _ args => do
      let format0 ← assertString (args.index "format")
      let format := stringsToLower w format0
      let path ← assertString (args.index "path")
      match w.readFile path with
      | .error err => pure (none, some err, [])
      | .ok data =>
        let decoded : Option (Except String Value) :=
          if format = "json" then some (w.jsonUnmarshal data)
          else if format = "yaml" then some (w.yamlUnmarshal data)
          else if format = "toml" then some (w.tomlDecode data)
          else none
        match decoded with
        | none => pure (none, some ("Unknown file format " ++ format), [])
        | some (.error err) => pure (none, some err, [])
        | some (.ok result) =>
          match mapFromYaml result with
          | none => none
          | some normal =>
            let r := w.expressionFromInterface normal g.l g.p
            pure (r.1, r.2, []))
    [("format", callableArgumentString),
     ("path", callableArgumentString)]
    g.l g.p

/-- The method `globalExpression.spawn`. -/
def globalExpression.spawn (w : World) (g : globalExpression) : expression :=
  newCallableExpression "spawn"
    (fun c args => do
      let flowTag ← assertString (args.index "tag")
      let refresh ← assertFloat64 (args.index "refresh")
      let cfg0 : GoMap := [("refresh", Value.int (truncate w refresh)),
        ("flow_tag", Value.string flowTag)]
      let script := checkString (args.index "script")
      let cfg1 := if script.2 then cfg0.set "script" (Value.string script.1) else cfg0
      let exec := checkString (args.index "exec")
      let cfg2 := if exec.2 then cfg1.set "exec" (Value.string exec.1) else cfg1
      let ar := checkMap (args.index "args")
      let cfg3 := if ar.2 then cfg2.set "args" (Value.map ar.1) else cfg2
      pure (none, c.jobSpawner flowTag "com.telemetryapp.process" cfg3,
        [Effect.spawned flowTag "com.telemetryapp.process" cfg3]))
    [("exec", callableArgumentOptionalString),
     ("script", callableArgumentOptionalString),
     ("refresh", callableArgumentNumeric),
     ("args", callableArgumentOptionalMap),
     ("tag", callableArgumentString)]
    g.l g.p

/-- Modelled from the spec: the method `globalExpression.get` is not among the
sources; it is the callable that performs an outbound HTTP GET through an
external helper. -/
def globalExpression.get (w : World) (g : globalExpression) : expression :=
  newCallableExpression "get" w.httpGet [] g.l g.p

/-- Modelled from the spec: the method `globalExpression.post` is not among
the sources; it is the callable that performs an outbound HTTP POST through an
external helper. -/
def globalExpression.post (w : World) (g : globalExpression) : expression :=
  newCallableExpression "post" w.httpPost [] g.l g.p

/-- The table `globalProperties`. -/
def globalProperties (w : World) : List (String × (globalExpression → expression)) :=
  [("counter", fun g => g.counter),
   ("now", fun g => g.now w),
   ("notify", fun g => g.notify w),
   ("series", fun g => g.series),
   ("anomaly", fun g => g.anomaly),
   ("arg", fun g => g.arg w),
   ("load", fun g => g.load w),
   ("spawn", fun g => g.spawn w),
   ("log", fun g => g.log),
   ("error", fun g => g.emitError),
   ("excel", fun g => g.excel),
   ("googleSpreadsheet", fun g => g.googleSpreadsheet),
   ("get", fun g => g.get w),
   ("post", fun g => g.post w),
   ("random", fun g => g.random w)]

/-- The method `globalExpression.String` (named `toString` here, where
`String` is the type). -/
def globalExpression.toString (_g : globalExpression) : String := "Global()"

/-- The method `globalExpression.extract`. -/
def globalExpression.extract (w : World) (g : globalExpression) (_c : executionContext)
    (property : String) : Option expression × Option String :=
  match (globalProperties w).lookup property with
  | some f => (some (f g), none)
  | none =>
    (none, some (g.toString ++ " does not contain a property with the key `" ++ property ++ "`"))

/-! ## `agent/lua/library_oauth.go` -/

/-- A value on the Lua stack.  A number is given by the text `ToString`
converts it to. -/
inductive LuaValue where
  | nil
  | boolean (b : Bool)
  | number (text : String)
  | string (s : String)
  | table
deriving DecidableEq, Repr

/-- A Lua error raised by a library function: a bad argument at a stack index,
or a message passed to `lua.Errorf`. -/
inductive LuaError where
  | badArgument (index : Nat)
  | message (text : String)
deriving DecidableEq, Repr

/-- The arguments of a library call, as the Lua stack from index 1. -/
abbrev LuaStack := List LuaValue

/-- The value at a stack index (indices start at 1), `none` past the top. -/
def LuaStack.at (l : LuaStack) (index : Nat) : Option LuaValue :=
  match index with
  | 0 => none
  | i + 1 => l.get? i

/-- The function `lua.CheckString`: the string at the index, a number being
converted, or a bad-argument error. -/
def CheckString (l : LuaStack) (index : Nat) : Except LuaError String :=
  match l.at index with
  | some (.string s) => .ok s
  | some (.number text) => .ok text
  | _ => .error (.badArgument index)

/-- The function `lua.OptString`: the default when the index is absent or
nil, otherwise `CheckString`. -/
def OptString (l : LuaStack) (index : Nat) (default : String) : Except LuaError String :=
  match l.at index with
  | none => .ok default
  | some .nil => .ok default
  | _ => CheckString l index

/-- The fields of `http.Request` that `oauthRequest` sets: method, URL, body
and, when a query was given, the parsed form. -/
structure Request where
  method : String
  url : String
  body : String
  form : Option (List (String × List String))
deriving DecidableEq, Repr

/-- What `oauthRequest` consults outside the sources: the error of
`http.NewRequest` for a method and a URL (`none` when the request is built),
`url.ParseQuery`, and `oauth.Do` followed by `ioutil.ReadAll` of the response
body (an error of either, or the data read). -/
structure OAuthWorld where
  newRequestError : String → String → Option String
  parseQuery : String → Except String (List (String × List String))
  doAndRead : String → Request → Except String String

/-- The function `oauthRequest`: the string pushed and the number of results
returned, or the Lua error raised. -/
def oauthRequest (w : OAuthWorld) (entryName method urlString body query : String) :
    Except LuaError (LuaValue × Int) :=
  match w.newRequestError method urlString with
  | some err => .error (.message err)
  | none =>
    let req : Request := ⟨method, urlString, body, none⟩
    let withForm : Except String Request :=
      if query ≠ "" then
        match w.parseQuery query with
        | .error err => .error err
        | .ok parsedQuery => .ok { req with form := some parsedQuery }
      else .ok req
    match withForm with
    | .error err => .error (.message err)
    | .ok req1 =>
      match w.doAndRead entryName req1 with
      | .error err => .error (.message err)
      | .ok data => .ok (LuaValue.string data, 1)

/-- The table `oauthLibrary`: the registered functions by name. -/
def oauthLibrary (w : OAuthWorld) :
    List (String × (LuaStack → Except LuaError (LuaValue × Int))) :=
  [("get", fun l =>
      match CheckString l 1 with
      | .error e => .error e
      | .ok a1 =>
        match CheckString l 2 with
        | .error e => .error e
        | .ok a2 =>
          match OptString l 4 "" with
          | .error e => .error e
          | .ok a4 => oauthRequest w a1 "GET" a2 "" a4),
   ("post", fun l =>
      match CheckString l 1 with
      | .error e => .error e
      | .ok a1 =>
        match CheckString l 2 with
        | .error e => .error e
        | .ok a2 =>
          match CheckString l 3 with
          | .error e => .error e
          | .ok a3 =>
            match OptString l 4 "" with
            | .error e => .error e
            | .ok a4 => oauthRequest w a1 "GET" a2 a3 a4)]

/-- The registered function of a name (a function that raises for an
unregistered name). -/
def oauthEntry (w : OAuthWorld) (name : String) : LuaStack → Except LuaError (LuaValue × Int) :=
  match (oauthLibrary w).lookup name with
  | some f => f
  | none => fun _ => .error (.message "no such entry")

/-- An example of the outside of `oauthRequest`: every request is built,
every query parses to an empty form, and the response echoes the method, the
URL and the body of the request sent. -/
def echoOAuth : OAuthWorld where
  newRequestError := fun _ _ => none
  parseQuery := fun _ => .ok []
  doAndRead := fun _ req => .ok (req.method ++ " " ++ req.url ++ " " ++ req.body)

/-- The source line of an expression. -/
def expression.line : expression → Int
  | .global g => g.l
  | .string s => s.l
  | .numeric _ l _ => l
  | .boolean _ l _ => l
  | .array _ l _ => l
  | .excel _ l _ => l
  | .googleSpreadsheet _ l _ => l
  | .counter _ _ l _ => l
  | .series _ _ l _ => l
  | .callable _ _ _ l _ => l

/-- The source position of an expression. -/
def expression.position : expression → Int
  | .global g => g.p
  | .string s => s.p
  | .numeric _ _ p => p
  | .boolean _ _ p => p
  | .array _ _ p => p
  | .excel _ _ p => p
  | .googleSpreadsheet _ _ p => p
  | .counter _ _ _ p => p
  | .series _ _ _ p => p
  | .callable _ _ _ _ p => p

/-- The line and position of the expression a handler returned, when it
returned one. -/
def returnedAt (r : Option Returned) : Option (Int × Int) :=
  match r with
  | some (some e, _, _) => some (e.line, e.position)
  | _ => none

/-! ## Example inputs -/

/-- The names registered in `globalProperties`. -/
def globalNames : List String :=
  ["counter", "now", "notify", "series", "anomaly", "arg", "load", "spawn", "log",
   "error", "excel", "googleSpreadsheet", "get", "post", "random"]

/-- An example world: the clock at 1700000000, a draw of one half, the
lower-casing of the ASCII letters (the examples hold no other letter), the
out-of-range conversion of amd64, a file `bad.yaml` that decodes to a map with
the integer key 1, no other file, and three durations that parse. -/
def exampleWorld : World where
  unixNow := 1700000000
  randFloat64 := 1 / 2
  unicodeToLower := Char.toLower
  intOutOfRange := fun _ => -9223372036854775808
  readFile := fun path => if path = "bad.yaml" then .ok "1: a" else .error "no such file"
  jsonUnmarshal := fun _ => .error "invalid character"
  yamlUnmarshal := fun data =>
    if data = "1: a" then .ok (Value.yamlMap [(Value.int 1, Value.string "a")])
    else .error "cannot unmarshal"
  tomlDecode := fun _ => .error "bare keys cannot contain"
  parseDuration := fun s =>
    if s = "1s" then .ok 1000000000
    else if s = "500ms" then .ok 500000000
    else if s = "16777216.999999999s" then .ok 16777216999999999
    else .error "time: invalid duration"
  expressionFromInterface := fun v line position =>
    match v with
    | .string x => (some (.string ⟨x, none, line, position⟩), none)
    | .float64 x => (some (.numeric (.float64 x) line position), none)
    | .bool x => (some (.boolean x line position), none)
    | _ => (none, some "cannot convert")
  httpGet := fun _ _ => some (none, some "no network", [])
  httpPost := fun _ _ => some (none, some "no network", [])

/-- The example world with another draw of the generator. -/
def exampleWorldWithDraw (r : ℚ) : World := { exampleWorld with randFloat64 := r }

/-- An example context: one output key already written, one caller argument,
an empty aggregation store, a notifier that accepts, a spawner that succeeds. -/
def exampleContext : executionContext where
  output := [("first", Value.int 1)]
  arguments := [("host", Value.string "example.org")]
  aggregationContext := ⟨fun _ => (Value.nil, false, none), fun _ => (Value.nil, false, none)⟩
  notificationProvider := fun _ _ _ => true
  jobSpawner := fun _ _ _ => none

/-- The `evaluate` method of the call `arg(name: n)` as far as its error goes:
the error of the `arg` handler on that one argument, with a nil value. -/
def evaluateArg (w : World) (g : globalExpression) (n : String) (c : executionContext) :
    Value × Option String :=
  match (g.arg w).handler c [("name", Value.string n)] with
  | some (_, some err, _) => (Value.nil, some err)
  | _ => (Value.nil, none)

/-- The builtin callables declared in the global and the string expression:
`now`, `error`, `log`, `random`, `excel`, `googleSpreadsheet`, `counter`,
`arg`, `series`, `notify`, `anomaly`, `load`, `spawn` and `split`. -/
def builtinCallables (w : World) (g : globalExpression) (s : stringExpression) :
    List expression :=
  [g.now w, g.emitError, g.log, g.random w, g.excel, g.googleSpreadsheet, g.counter,
   g.arg w, g.series, g.notify w, g.anomaly, g.load w, g.spawn w, s.split]

/-- The argument map of the call `load(format: "yaml", path: "bad.yaml")`. -/
def loadArgs : GoMap :=
  [("format", Value.string "yaml"), ("path", Value.string "bad.yaml")]

/-- The argument map of the call `anomaly(data=[10,10,10,10,100], value=v)`. -/
def anomalyArgs (v : ℚ) : GoMap :=
  [("data", Value.numericArray [10, 10, 10, 10, 100]), ("value", Value.float64 (.finite v))]

/-- The boolean carried by a boolean expression. -/
def expression.boolValue : expression → Option Bool
  | .boolean b _ _ => some b
  | _ => none

/-- The value carried by a numeric expression. -/
def expression.numValue : expression → Option Value
  | .numeric x _ _ => some x
  | _ => none

/-! ## Joining and counting, for the statement of the `split` property -/

/-- The Go function `strings.Join`: the elements in order with `sep` between
them. -/
def stringsJoin : List String → String → String
  | [], _ => ""
  | [a], _ => a
  | a :: b :: rest, sep => a ++ sep ++ stringsJoin (b :: rest) sep

/-- The function `stringsJoin` on character lists. -/
def joinChars : List (List Char) → List Char → List Char
  | [], _ => []
  | [a], _ => a
  | a :: b :: rest, sep => a ++ sep ++ joinChars (b :: rest) sep

/-- Worker of `stringsCount` for a non-empty separator: scan left to right,
counting each occurrence of `sep` and skipping over it. -/
def countGo (sep : List Char) : Nat → List Char → Nat
  | _, [] => 0
  | skip + 1, _ :: rest => countGo sep skip rest
  | 0, c :: rest =>
    if sep.isPrefixOf (c :: rest) then countGo sep (sep.length - 1) rest + 1
    else countGo sep 0 rest

/-- The Go function `strings.Count`: the number of non-overlapping occurrences
of `sep` in `s`, found left to right (one more than the number of characters
when `sep` is empty). -/
def stringsCount (s sep : String) : Nat :=
  if sep.data = [] then s.data.length + 1 else countGo sep.data 0 s.data

/-- The duration string the `notify` handler parses: the `duration` argument,
or `1s` when the argument is absent, not a string or empty. -/
def durationArgument (args : GoMap) : String :=
  if (checkString (args.index "duration")).1.length = 0 then "1s"
  else (checkString (args.index "duration")).1

/-- The argument map of the call
`notify(title: "t", message: "m", duration: d)`. -/
def notifyArgs (d : String) : GoMap :=
  [("title", Value.string "t"), ("message", Value.string "m"), ("duration", Value.string d)]

/-- The notification the `notify` handler builds from its arguments once the
duration string has parsed to `d`. -/
def notifyNotification (args : GoMap) (title message : String) (d : Duration) :
    Notification :=
  ⟨title, message, (checkString (args.index "icon")).1,
    if (Duration.Seconds d).toInt < 1 then 1 else (Duration.Seconds d).toInt,
    if !(checkString (args.index "sound")).2 then "default"
    else (checkString (args.index "sound")).1⟩

/-! ## Decoded trees and their normal form, for the statement on `mapFromYaml` -/

/-- Whether a value is a string. -/
def Value.isString : Value → Bool
  | .string _ => true
  | _ => false

/-- The string of a string value (empty for any other value). -/
def Value.stringOf : Value → String
  | .string s => s
  | _ => ""

mutual
/-- A decoded value tree: built from scalars (nil, strings, numbers,
booleans), slices and decoder-native maps whose keys are strings, nested to
any depth. -/
def Value.decoded : Value → Bool
  | .nil => true
  | .string _ => true
  | .float64 _ => true
  | .int _ => true
  | .bool _ => true
  | .numericArray _ => false
  | .slice xs => decodedSlice xs
  | .map _ => false
  | .yamlMap entries => decodedEntries entries
/-- All keys are strings and all values are decoded trees. -/
def decodedEntries : List (Value × Value) → Bool
  | [] => true
  | (k, v) :: rest => k.isString && v.decoded && decodedEntries rest
/-- All elements are decoded trees. -/
def decodedSlice : List Value → Bool
  | [] => true
  | v :: rest => v.decoded && decodedSlice rest
end

mutual
/-- The normal form of a decoded tree, as the specification words it: every
decoder-native map replaced by a string-keyed map with the same keys and the
normal forms of the values, every slice kept with the normal forms of its
elements in order, every scalar unchanged. -/
def normalForm : Value → Value
  | .yamlMap entries => .map (normalFormEntries entries)
  | .slice xs => .slice (normalFormSlice xs)
  | v => v
/-- The entries of a map with their values in normal form. -/
def normalFormEntries : List (Value × Value) → List (String × Value)
  | [] => []
  | (k, v) :: rest => (k.stringOf, normalForm v) :: normalFormEntries rest
/-- The elements of a slice in normal form. -/
def normalFormSlice : List Value → List Value
  | [] => []
  | v :: rest => normalForm v :: normalFormSlice rest
end

mutual
/-- Whether a decoder-native map occurs in the tree at any depth. -/
def Value.hasYamlMap : Value → Bool
  | .yamlMap _ => true
  | .slice xs => hasYamlMapSlice xs
  | .map entries => hasYamlMapEntries entries
  | _ => false
/-- Whether a decoder-native map occurs in a value of a string-keyed map. -/
def hasYamlMapEntries : List (String × Value) → Bool
  | [] => false
  | (_, v) :: rest => v.hasYamlMap || hasYamlMapEntries rest
/-- Whether a decoder-native map occurs in an element of a slice. -/
def hasYamlMapSlice : List Value → Bool
  | [] => false
  | v :: rest => v.hasYamlMap || hasYamlMapSlice rest
end

/-- An example decoded tree: a map with a list of two elements, the second a
nested map, under `a`, and a number under `b`. -/
def exampleTree : Value :=
  .yamlMap [(.string "a", .slice [.int 1, .yamlMap [(.string "c", .bool true)]]),
    (.string "b", .float64 (.finite 2))]

/-! ## Theorems: byte order -/

theorem bytesLt_irrefl (a : Bytes) : bytesLt a a = false := by
  induction a with
  | nil => rfl
  | cons x xs ih => simp [bytesLt, ih]

theorem bytesLt_trans : ∀ (a b c : Bytes), bytesLt a b = true → bytesLt b c = true →
    bytesLt a c = true
  | [], [], _, h, _ => by simp [bytesLt] at h
  | [], _ :: _, [], _, h => by simp [bytesLt] at h
  | [], _ :: _, _ :: _, _, _ => by simp [bytesLt]
  | _ :: _, [], _, h, _ => by simp [bytesLt] at h
  | _ :: _, _ :: _, [], _, h => by simp [bytesLt] at h
  | x :: xs, y :: ys, z :: zs, h1, h2 => by
    simp only [bytesLt] at h1 h2 ⊢
    by_cases hxy : x < y
    · by_cases hyz : y < z
      · have : x < z := by omega
        simp [this]
      · have hzy : ¬ z < y := by
          intro hz
          simp [hyz, hz] at h2
        have : x < z := by omega
        simp [this]
    · have hyx : ¬ y < x := by
        intro hy
        simp [hxy, hy] at h1
      have hxeq : x = y := by omega
      subst hxeq
      simp only [hxy, if_false] at h1
      by_cases hyz : x < z
      · simp [hyz]
      · have hzy : ¬ z < x := by
          intro hz
          simp [hyz, hz] at h2
        simp only [hyz, hzy, if_false] at h2 ⊢
        exact bytesLt_trans xs ys zs h1 h2

theorem ascending_tail (a : Bytes) (l : List Bytes) (h : ascending (a :: l) = true) :
    ascending l = true := by
  cases l with
  | nil => rfl
  | cons b rest =>
    simp only [ascending, Bool.and_eq_true] at h
    exact h.2

theorem ascending_head_lt (a : Bytes) (l : List Bytes) (h : ascending (a :: l) = true) :
    ∀ x ∈ l, bytesLt a x = true := by
  induction l generalizing a with
  | nil => intro x hx; cases hx
  | cons b rest ih =>
    simp only [ascending, Bool.and_eq_true] at h
    intro x hx
    rcases List.mem_cons.1 hx with rfl | hx
    · exact h.1
    · exact bytesLt_trans a b x h.1 (ih b h.2 x hx)

/-! ## Theorems: cursors and the sweep of one bucket -/

theorem seekIndex_le (b : Bucket) (max : Bytes) : seekIndex b max ≤ b.length := by
  induction b with
  | nil => simp [seekIndex]
  | cons e es ih =>
    simp only [seekIndex]
    split
    · simp only [List.length_cons]; omega
    · simp

theorem keyAt_lt (b : Bucket) (i : Nat) (h : i < b.length) : ∃ k, keyAt b i = some k := by
  unfold keyAt
  rw [List.get?_eq_get h]
  exact ⟨_, rfl⟩

theorem keyAt_eraseIdx_succ (b : Bucket) (i : Nat) :
    keyAt (b.eraseIdx (i + 1)) i = keyAt b i := by
  induction b generalizing i with
  | nil => simp [keyAt]
  | cons e es ih =>
    cases i with
    | zero => cases es <;> simp [keyAt, List.eraseIdx]
    | succ j =>
      have := ih j
      simp only [keyAt, List.eraseIdx, List.get?_cons_succ] at this ⊢
      exact this

theorem drop_eraseIdx_succ (b : Bucket) (i : Nat) :
    (b.eraseIdx (i + 1)).drop (i + 1) = b.drop (i + 2) := by
  induction b generalizing i with
  | nil => simp
  | cons e es ih =>
    cases i with
    | zero => cases es <;> simp [List.eraseIdx]
    | succ j =>
      have := ih j
      simp only [List.eraseIdx, List.drop_succ_cons] at this ⊢
      exact this

/-- Started on entry `i`, the delete loop removes entries `0..i` and stops. -/
theorem deleteLoop_drop (i : Nat) : ∀ (fuel : Nat) (b : Bucket), i < b.length → i < fuel →
    deleteLoop fuel b ⟨some i⟩ (keyAt b i) = some (b.drop (i + 1)) := by
  induction i with
  | zero =>
    intro fuel b hb hf
    obtain ⟨k, hk⟩ := keyAt_lt b 0 hb
    obtain ⟨f, rfl⟩ : ∃ f, fuel = f + 1 := ⟨fuel - 1, by omega⟩
    rw [hk]
    cases b with
    | nil => simp at hb
    | cons e es => simp [deleteLoop, Cursor.Delete, Cursor.Prev]
  | succ j ih =>
    intro fuel b hb hf
    obtain ⟨k, hk⟩ := keyAt_lt b (j + 1) hb
    obtain ⟨f, rfl⟩ : ∃ f, fuel = f + 1 := ⟨fuel - 1, by omega⟩
    rw [hk]
    have hlen : j < (b.eraseIdx (j + 1)).length := by
      rw [List.length_eraseIdx]
      split <;> omega
    have := ih f (b.eraseIdx (j + 1)) hlen (by omega)
    rw [keyAt_eraseIdx_succ, drop_eraseIdx_succ] at this
    simp only [deleteLoop, Cursor.Delete, Cursor.Prev, keyAt_eraseIdx_succ]
    exact this

/-- The sweep of one bucket always completes and removes exactly the leading
entries counted by `seekIndex`. -/
theorem sweepBucket_eq_drop (b : Bucket) (max : Bytes) :
    sweepBucket b max = some (b.drop (seekIndex b max)) := by
  unfold sweepBucket Cursor.Seek
  have hle := seekIndex_le b max
  cases hi : seekIndex b max with
  | zero => simp [Cursor.Prev, deleteLoop]
  | succ j =>
    rw [hi] at hle
    simp only [Cursor.Prev]
    exact deleteLoop_drop j b.length b (by omega) (by omega)

theorem seekIndex_drop (b : Bucket) (max : Bytes) :
    seekIndex (b.drop (seekIndex b max)) max = 0 := by
  induction b with
  | nil => simp [seekIndex]
  | cons e es ih =>
    by_cases h : bytesLt e.1 max = true
    · simp only [seekIndex, h, if_true, List.drop_succ_cons]
      exact ih
    · simp [seekIndex, h]

/-- In an ascending bucket the sweep keeps exactly the entries whose key does
not sort below `max`. -/
theorem drop_seekIndex_eq_filter (b : Bucket) (max : Bytes)
    (h : ascending (b.map Prod.fst) = true) :
    b.drop (seekIndex b max) = b.filter (fun e => !bytesLt e.1 max) := by
  induction b with
  | nil => simp [seekIndex]
  | cons e es ih =>
    have htail := ascending_tail e.1 (es.map Prod.fst) (by simpa using h)
    by_cases hlt : bytesLt e.1 max = true
    · simp only [seekIndex, hlt, if_true, List.drop_succ_cons]
      rw [ih htail, List.filter_cons]
      simp [hlt]
    · have hall : ∀ x ∈ es, (!bytesLt x.1 max) = true := by
        intro x hx
        have hex := ascending_head_lt e.1 (es.map Prod.fst) (by simpa using h) x.1
          (List.mem_map_of_mem Prod.fst hx)
        cases hxm : bytesLt x.1 max with
        | false => rfl
        | true => exact absurd (bytesLt_trans _ _ _ hex hxm) hlt
      have hfil : es.filter (fun e => !bytesLt e.1 max) = es :=
        List.filter_eq_self.2 hall
      simp only [seekIndex, hlt, List.drop_zero, List.filter_cons]
      simp [hlt, hfil]

/-! ## Theorems: decimal keys -/

theorem fmtDigits_fuel : ∀ (f1 f2 n : Nat), n < f1 → n < f2 →
    fmtDigits f1 n = fmtDigits f2 n
  | 0, _, _, h, _ => by omega
  | _ + 1, 0, _, _, h => by omega
  | f1 + 1, f2 + 1, n, h1, h2 => by
    simp only [fmtDigits]
    by_cases hn : n < 10
    · simp [hn]
    · simp only [hn, if_false]
      rw [fmtDigits_fuel f1 f2 (n / 10) (by omega) (by omega)]

theorem formatNat_small (n : Nat) (h : n < 10) : formatNat n = [48 + n] := by
  simp [formatNat, fmtDigits, h]

theorem formatNat_large (n : Nat) (h : 10 ≤ n) :
    formatNat n = formatNat (n / 10) ++ [48 + n % 10] := by
  have hn : ¬ n < 10 := by omega
  unfold formatNat
  rw [fmtDigits, if_neg hn, fmtDigits_fuel n (n / 10 + 1) (n / 10) (by omega) (by omega)]

/-- The decimal form starts with a digit byte. -/
theorem formatNat_head (n : Nat) : ∃ d rest, formatNat n = d :: rest ∧ 48 ≤ d := by
  induction n using Nat.strong_induction_on with
  | _ n ih =>
    by_cases hn : n < 10
    · exact ⟨48 + n, [], formatNat_small n hn, by omega⟩
    · obtain ⟨d, rest, hd, h48⟩ := ih (n / 10) (by omega)
      refine ⟨d, rest ++ [48 + n % 10], ?_, h48⟩
      rw [formatNat_large n (by omega), hd]
      rfl

theorem bytesLt_snoc : ∀ (a b : Bytes) (x y : Nat), a.length = b.length →
    bytesLt (a ++ [x]) (b ++ [y]) =
      (if bytesLt a b then true else if bytesLt b a then false else decide (x < y))
  | [], [], x, y, _ => by
    by_cases h : x < y
    · simp [bytesLt, h]
    · by_cases h2 : y < x <;> simp [bytesLt, h, h2]
  | [], _ :: _, _, _, h => by simp at h
  | _ :: _, [], _, _, h => by simp at h
  | a0 :: as, b0 :: bs, x, y, h => by
    have ih := bytesLt_snoc as bs x y (by simpa using h)
    simp only [List.cons_append, bytesLt]
    by_cases h1 : a0 < b0
    · simp [h1]
    · by_cases h2 : b0 < a0
      · simp [h1, h2]
      · simp only [h1, h2, if_false]
        exact ih

theorem bytesLt_single (x y : Nat) : (bytesLt [x] [y] = true) ↔ x < y := by
  by_cases h : x < y
  · simp [bytesLt, h]
  · by_cases h2 : y < x <;> simp [bytesLt, h, h2]

theorem bytesLt_formatNat_both (t : Nat) : ∀ (c : Nat),
    (formatNat t).length = (formatNat c).length →
    ((bytesLt (formatNat t) (formatNat c) = true ↔ t < c) ∧
     (bytesLt (formatNat c) (formatNat t) = true ↔ c < t)) := by
  induction t using Nat.strong_induction_on with
  | _ t ih =>
    intro c hlen
    by_cases ht : t < 10
    · by_cases hc : c < 10
      · rw [formatNat_small t ht, formatNat_small c hc, bytesLt_single, bytesLt_single]
        constructor <;> omega
      · obtain ⟨d, rest, hd, _⟩ := formatNat_head (c / 10)
        rw [formatNat_small t ht, formatNat_large c (by omega), hd] at hlen
        simp at hlen
    · by_cases hc : c < 10
      · obtain ⟨d, rest, hd, _⟩ := formatNat_head (t / 10)
        rw [formatNat_small c hc, formatNat_large t (by omega), hd] at hlen
        simp at hlen
      · rw [formatNat_large t (by omega), formatNat_large c (by omega)] at hlen ⊢
        have hl : (formatNat (t / 10)).length = (formatNat (c / 10)).length := by
          simpa using hlen
        obtain ⟨h1, h2⟩ := ih (t / 10) (by omega) (c / 10) hl
        rw [bytesLt_snoc _ _ _ _ hl, bytesLt_snoc _ _ _ _ hl.symm]
        by_cases hlt : t / 10 < c / 10
        · have hgt : ¬ c / 10 < t / 10 := by omega
          have e1 := h1.2 hlt
          have e2 : bytesLt (formatNat (c / 10)) (formatNat (t / 10)) = false := by
            cases hb : bytesLt (formatNat (c / 10)) (formatNat (t / 10)) with
            | false => rfl
            | true => exact absurd (h2.1 hb) hgt
          simp only [e1, e2, if_true, true_iff]
          constructor
          · omega
          · simp only [Bool.false_eq_true, if_false, false_iff]
            omega
        · have e1 : bytesLt (formatNat (t / 10)) (formatNat (c / 10)) = false := by
            cases hb : bytesLt (formatNat (t / 10)) (formatNat (c / 10)) with
            | false => rfl
            | true => exact absurd (h1.1 hb) hlt
          by_cases hgt : c / 10 < t / 10
          · have e2 := h2.2 hgt
            simp only [e1, e2, if_true, Bool.false_eq_true, if_false, false_iff, true_iff]
            constructor <;> omega
          · have e2 : bytesLt (formatNat (c / 10)) (formatNat (t / 10)) = false := by
              cases hb : bytesLt (formatNat (c / 10)) (formatNat (t / 10)) with
              | false => rfl
              | true => exact absurd (h2.1 hb) hgt
            simp only [e1, e2, Bool.false_eq_true, if_false, decide_eq_true_eq]
            constructor <;> omega

/-- On decimal forms of the same length, byte order is numeric order. -/
theorem bytesLt_formatNat (t c : Nat) (h : (formatNat t).length = (formatNat c).length) :
    bytesLt (formatNat t) (formatNat c) = true ↔ t < c :=
  (bytesLt_formatNat_both t c h).1

/-- A decimal form never sorts below the decimal form of a negative number. -/
theorem bytesLt_formatNat_neg (t : Nat) (i : Int) (h : i < 0) :
    bytesLt (formatNat t) (FormatInt i) = false := by
  obtain ⟨d, rest, hd, h48⟩ := formatNat_head t
  have h1 : ¬ d < 45 := by omega
  have h2 : 45 < d := by omega
  simp [FormatInt, h, hd, bytesLt, h1, h2]

/-! ## Theorems: the sweep of the whole store -/

/-- The cutoff key `max` that `DatabaseCleanup` computes. -/
theorem DatabaseCleanup_def (m : Manager) (now : Time) :
    DatabaseCleanup m now =
      match forEachBucket (cleanupBucket (FormatInt (Time.Unix (now + negDuration m.ttl)))) m.conn with
      | none => none
      | some s => some { m with conn := s } := rfl

theorem forEachBucket_bucket (fn : Bytes → Bucket → Option Bucket) :
    ∀ (s s1 : Store) (name : Bytes) (b : Bucket), forEachBucket fn s = some s1 →
      s.bucket name = some b → ∃ b1, fn name b = some b1 ∧ s1.bucket name = some b1 := by
  intro s
  induction s with
  | nil => intro s1 name b _ hb; simp [Store.bucket] at hb
  | cons nb rest ih =>
    intro s1 name b h hb
    simp only [forEachBucket] at h
    cases h1 : fn nb.1 nb.2 with
    | none => simp [h1] at h
    | some b1 =>
      cases h2 : forEachBucket fn rest with
      | none => simp [h1, h2] at h
      | some rest1 =>
        simp only [h1, h2, Option.some.injEq] at h
        subst h
        by_cases hn : nb.1 = name
        · have hbb : nb.2 = b := by
            simpa [Store.bucket, List.find?, hn] using hb
          refine ⟨b1, ?_, ?_⟩
          · rw [← hn, ← hbb]; exact h1
          · simp [Store.bucket, List.find?, hn]
        · have hb2 : Store.bucket rest name = some b := by
            simpa [Store.bucket, List.find?, hn] using hb
          obtain ⟨b2, hf, hr⟩ := ih rest1 name b h2 hb2
          refine ⟨b2, hf, ?_⟩
          simpa [Store.bucket, List.find?, hn] using hr

theorem forEachBucket_total (fn : Bytes → Bucket → Option Bucket) :
    ∀ (s : Store), (∀ nb ∈ s, ∃ b1, fn nb.1 nb.2 = some b1) →
      ∃ s1, forEachBucket fn s = some s1 := by
  intro s
  induction s with
  | nil => intro _; exact ⟨[], rfl⟩
  | cons nb rest ih =>
    intro h
    obtain ⟨b1, h1⟩ := h nb (List.mem_cons_self _ _)
    obtain ⟨rest1, h2⟩ := ih (fun x hx => h x (List.mem_cons_of_mem _ hx))
    exact ⟨(nb.1, b1) :: rest1, by simp [forEachBucket, h1, h2]⟩

theorem forEachBucket_again (fn : Bytes → Bucket → Option Bucket)
    (hfn : ∀ name b b1, fn name b = some b1 → fn name b1 = some b1) :
    ∀ (s s1 : Store), forEachBucket fn s = some s1 → forEachBucket fn s1 = some s1 := by
  intro s
  induction s with
  | nil =>
    intro s1 h
    simp only [forEachBucket, Option.some.injEq] at h
    subst h
    rfl
  | cons nb rest ih =>
    intro s1 h
    simp only [forEachBucket] at h
    cases h1 : fn nb.1 nb.2 with
    | none => simp [h1] at h
    | some b1 =>
      cases h2 : forEachBucket fn rest with
      | none => simp [h1, h2] at h
      | some rest1 =>
        simp only [h1, h2, Option.some.injEq] at h
        subst h
        simp [forEachBucket, hfn nb.1 nb.2 b1 h1, ih rest1 h2]

theorem cleanupBucket_eq (max name : Bytes) (b : Bucket) (h : name ≠ []) :
    cleanupBucket max name b =
      some (if reserved name = true then b else b.drop (seekIndex b max)) := by
  cases name with
  | nil => exact absurd rfl h
  | cons c rest =>
    by_cases hc : c = 95
    · simp [cleanupBucket, reserved, hc]
    · simp [cleanupBucket, reserved, hc, sweepBucket_eq_drop]

theorem cleanupBucket_again (max name : Bytes) (b b1 : Bucket)
    (h : cleanupBucket max name b = some b1) : cleanupBucket max name b1 = some b1 := by
  cases name with
  | nil => simp [cleanupBucket] at h
  | cons c rest =>
    by_cases hc : c = 95
    · simp [cleanupBucket, hc]
    · simp only [cleanupBucket, ne_eq, hc, not_false_eq_true, if_true, sweepBucket_eq_drop,
        Option.some.injEq] at h ⊢
      subst h
      rw [seekIndex_drop]
      rfl

theorem Store.WF_mem (s : Store) (h : s.WF = true) :
    ∀ nb ∈ s, nb.1 ≠ [] ∧ nb.2.WF = true := by
  intro nb hnb
  simp only [Store.WF, Bool.and_eq_true, List.all_eq_true] at h
  have := h.1 nb hnb
  simpa using this

theorem Store.bucket_mem (s : Store) (name : Bytes) (b : Bucket)
    (h : s.bucket name = some b) : (name, b) ∈ s := by
  unfold Store.bucket at h
  cases hf : s.find? (fun nb => nb.1 = name) with
  | none => simp [hf] at h
  | some nb =>
    simp only [hf, Option.map_some', Option.some.injEq] at h
    have hmem := List.mem_of_find?_eq_some hf
    have hp := List.find?_some hf
    simp only [decide_eq_true_eq] at hp
    cases nb with
    | mk n c =>
      simp only at hp h
      subst hp; subst h
      exact hmem

/-- On a well-formed store the sweep completes, and each bucket is either
untouched (reserved name) or loses its leading entries below the cutoff key. -/
theorem DatabaseCleanup_bucket (m : Manager) (now : Time) (hwf : m.conn.WF = true) :
    ∃ m1, DatabaseCleanup m now = some m1 ∧ m1.ttl = m.ttl ∧
      ∀ name b, m.conn.bucket name = some b →
        m1.conn.bucket name = some (if reserved name = true then b else
          b.drop (seekIndex b (FormatInt (Time.Unix (now + negDuration m.ttl))))) := by
  have hmem := Store.WF_mem m.conn hwf
  obtain ⟨s1, hs1⟩ := forEachBucket_total
    (cleanupBucket (FormatInt (Time.Unix (now + negDuration m.ttl)))) m.conn
    (fun nb hnb => ⟨_, cleanupBucket_eq _ nb.1 nb.2 (hmem nb hnb).1⟩)
  refine ⟨{ m with conn := s1 }, ?_, rfl, ?_⟩
  · rw [DatabaseCleanup_def, hs1]
  · intro name b hb
    obtain ⟨b1, hf, hr⟩ := forEachBucket_bucket _ m.conn s1 name b hs1 hb
    have hne := (hmem (name, b) (Store.bucket_mem _ _ _ hb)).1
    rw [cleanupBucket_eq _ name b hne] at hf
    simp only [Option.some.injEq] at hf
    rw [hf]
    exact hr

theorem negDuration_pos (d : Duration) (h : 0 < d) : negDuration d = -d := by
  unfold negDuration
  have : d ≠ -(2 ^ 63) := by
    intro hd
    rw [hd] at h
    norm_num at h
  rw [if_neg this]

theorem Bucket.WF_ascending (b : Bucket) (h : b.WF = true) :
    ascending (b.map Prod.fst) = true := by
  simp only [Bucket.WF, Bool.and_eq_true] at h
  exact h.2

/-- On a well-formed store every non-reserved bucket keeps exactly the entries
whose key does not sort below the cutoff key. -/
theorem DatabaseCleanup_filter (m : Manager) (now : Time) (hwf : m.conn.WF = true) :
    ∃ m1, DatabaseCleanup m now = some m1 ∧ m1.ttl = m.ttl ∧
      ∀ name b, m.conn.bucket name = some b →
        m1.conn.bucket name = some (if reserved name = true then b else
          b.filter (fun e => !bytesLt e.1 (FormatInt (Time.Unix (now + negDuration m.ttl))))) := by
  obtain ⟨m1, h1, h2, h3⟩ := DatabaseCleanup_bucket m now hwf
  refine ⟨m1, h1, h2, ?_⟩
  intro name b hb
  rw [h3 name b hb]
  have hbwf := (Store.WF_mem m.conn hwf (name, b) (Store.bucket_mem _ _ _ hb)).2
  rw [drop_seekIndex_eq_filter b _ (Bucket.WF_ascending b hbwf)]

theorem CreateBucketIfNotExists_self (name : Bytes) (s : Store) :
    ∃ b, (CreateBucketIfNotExists name s).bucket name = some b := by
  induction s with
  | nil => exact ⟨[], by simp [CreateBucketIfNotExists, Store.bucket, List.find?]⟩
  | cons nb rest ih =>
    unfold CreateBucketIfNotExists
    by_cases h1 : nb.1 = name
    · exact ⟨nb.2, by simp [Store.bucket, List.find?, h1]⟩
    · simp only [h1, if_false]
      by_cases h2 : bytesLt name nb.1 = true
      · exact ⟨[], by simp [Store.bucket, List.find?, h2]⟩
      · obtain ⟨b, hb⟩ := ih
        refine ⟨b, ?_⟩
        simp only [h2]
        simpa [Store.bucket, List.find?, h1] using hb

theorem CreateBucketIfNotExists_other (name n : Bytes) (s : Store) (h : n ≠ name) :
    (CreateBucketIfNotExists name s).bucket n = s.bucket n := by
  have h3 : ¬ name = n := fun e => h e.symm
  induction s with
  | nil => simp [CreateBucketIfNotExists, Store.bucket, List.find?, h3]
  | cons nb rest ih =>
    unfold CreateBucketIfNotExists
    by_cases h1 : nb.1 = name
    · simp [h1]
    · simp only [h1, if_false]
      by_cases h2 : bytesLt name nb.1 = true
      · simp [Store.bucket, List.find?, h2, h3]
      · simp only [h2]
        by_cases h4 : nb.1 = n
        · simp [Store.bucket, List.find?, h4]
        · simp only [Store.bucket, List.find?, h4, decide_False] at ih ⊢
          exact ih

theorem Init_conn (parse : String → Except String Duration) (ttlString : Option String)
    (opened : Store) (h : (Init parse ttlString opened).2 = none) :
    (Init parse ttlString opened).1.conn =
      CreateBucketIfNotExists (ascii "_oauth")
        (CreateBucketIfNotExists (ascii "_counters") opened) := by
  unfold Init at h ⊢
  cases ttlString with
  | none => rfl
  | some s =>
    by_cases hs : s.length > 0
    · cases hp : parse s with
      | error e => simp [hs, hp] at h
      | ok d => simp [hs, hp]
    · simp [hs]

/-! ## Theorems: the claims on the sweep -/

/-- C1. TTL correctness of the sweep.  For every well-formed store, every time
`now`, every retention `ttl > 0` and every non-reserved bucket holding a series
whose keys are decimal Unix-second timestamps with as many digits as the cutoff
key (the decimal form of the Unix seconds of `now - ttl`; the minus sign of a
negative cutoff is not a digit), `DatabaseCleanup` completes and leaves in that
bucket exactly the samples whose timestamp is not strictly older than the
cutoff, each with its value. -/
theorem DatabaseCleanup_ttl_correct (m : Manager) (now : Time) (name : Bytes)
    (samples : List (Nat × Bytes))
    (hwf : m.conn.WF = true) (httl : 0 < m.ttl) (hname : reserved name = false)
    (hb : m.conn.bucket name = some (seriesBucket samples))
    (hlen : ∀ s ∈ samples,
      (formatNat s.1).length = (formatNat (Time.Unix (now - m.ttl)).natAbs).length) :
    ∃ m1, DatabaseCleanup m now = some m1 ∧
      m1.conn.bucket name = some (seriesBucket
        (samples.filter (fun s => decide (Time.Unix (now - m.ttl) ≤ (s.1 : Int))))) := by
  obtain ⟨m1, h1, _, h3⟩ := DatabaseCleanup_filter m now hwf
  refine ⟨m1, h1, ?_⟩
  rw [h3 name _ hb, negDuration_pos m.ttl httl, ← Int.sub_eq_add_neg]
  simp only [hname, Bool.false_eq_true, if_false, Option.some.injEq]
  unfold seriesBucket
  rw [List.filter_map]
  congr 1
  apply List.filter_congr
  intro s hs
  have hl := hlen s hs
  simp only [Function.comp]
  by_cases hneg : Time.Unix (now - m.ttl) < 0
  · rw [bytesLt_formatNat_neg s.1 _ hneg]
    have : Time.Unix (now - m.ttl) ≤ (s.1 : Int) := by omega
    simp [this]
  · have hfmt : FormatInt (Time.Unix (now - m.ttl)) =
        formatNat (Time.Unix (now - m.ttl)).natAbs := by
      simp [FormatInt, hneg]
    rw [hfmt]
    have key := bytesLt_formatNat s.1 _ hl
    by_cases hlt : s.1 < (Time.Unix (now - m.ttl)).natAbs
    · have h1 : ¬ Time.Unix (now - m.ttl) ≤ (s.1 : Int) := by omega
      simp [key.2 hlt, h1]
    · have h1 : Time.Unix (now - m.ttl) ≤ (s.1 : Int) := by omega
      have h2 : bytesLt (formatNat s.1) (formatNat (Time.Unix (now - m.ttl)).natAbs) = false := by
        cases hb2 : bytesLt (formatNat s.1) (formatNat (Time.Unix (now - m.ttl)).natAbs) with
        | false => rfl
        | true => exact absurd (key.1 hb2) hlt
      simp [h2, h1]

/-- C3. Reserved-bucket exemption.  For every well-formed store, every time
`now` and every retention, `DatabaseCleanup` completes and every bucket whose
name starts with `_` has the same entries afterwards as before; and the
buckets `_counters` and `_oauth` that `Init` creates are such buckets. -/
theorem DatabaseCleanup_reserved_unchanged (m : Manager) (now : Time) (name : Bytes)
    (b : Bucket) (hwf : m.conn.WF = true) (hname : reserved name = true)
    (hb : m.conn.bucket name = some b) :
    (∃ m1, DatabaseCleanup m now = some m1 ∧ m1.conn.bucket name = some b) ∧
    (∀ (parse : String → Except String Duration) (ttlString : Option String) (opened : Store),
      (Init parse ttlString opened).2 = none →
      reserved (ascii "_counters") = true ∧ reserved (ascii "_oauth") = true ∧
      (∃ b1, (Init parse ttlString opened).1.conn.bucket (ascii "_counters") = some b1) ∧
      (∃ b2, (Init parse ttlString opened).1.conn.bucket (ascii "_oauth") = some b2)) := by
  constructor
  · obtain ⟨m1, h1, _, h3⟩ := DatabaseCleanup_bucket m now hwf
    refine ⟨m1, h1, ?_⟩
    rw [h3 name b hb]
    simp [hname]
  · intro parse ttlString opened hinit
    rw [Init_conn parse ttlString opened hinit]
    refine ⟨by decide, by decide, ?_, CreateBucketIfNotExists_self _ _⟩
    rw [CreateBucketIfNotExists_other _ _ _ (by decide)]
    exact CreateBucketIfNotExists_self _ _

/-- C4. The sweep is idempotent.  For every well-formed store, every time
`now` and every retention, `DatabaseCleanup` completes, and run again at the
same `now` on its own result it completes and returns that result unchanged. -/
theorem DatabaseCleanup_idempotent (m : Manager) (now : Time) (hwf : m.conn.WF = true) :
    ∃ m1, DatabaseCleanup m now = some m1 ∧ DatabaseCleanup m1 now = some m1 := by
  obtain ⟨m1, h1, h2, _⟩ := DatabaseCleanup_bucket m now hwf
  refine ⟨m1, h1, ?_⟩
  rw [DatabaseCleanup_def] at h1 ⊢
  cases hs : forEachBucket (cleanupBucket (FormatInt (Time.Unix (now + negDuration m.ttl))))
      m.conn with
  | none => simp [hs] at h1
  | some s1 =>
    simp only [hs, Option.some.injEq] at h1
    subst h1
    have := forEachBucket_again _ (cleanupBucket_again _) m.conn s1 hs
    simp only at this ⊢
    rw [this]

/-- Witness of C1: with `now` = 1700000000 s and `ttl` = 1 h, of the samples
at `now - 2h` and `now - 30m` only the one at `now - 30m` remains; and with
`now` = 100000000 s and `ttl` = 400000000 s (cutoff -300000000, nine digits) a
sample with the nine-digit timestamp 123456789 remains. -/
theorem DatabaseCleanup_ttl_correct_witness :
    (∃ m1, DatabaseCleanup ⟨3600000000000, exampleStore⟩ 1700000000000000000 = some m1 ∧
      m1.conn.bucket (ascii "cpu") = some (seriesBucket [(1699998200, [2])])) ∧
    (∃ m1, DatabaseCleanup
        ⟨400000000000000000, [(ascii "cpu", seriesBucket [(123456789, [1])])]⟩
        100000000000000000 = some m1 ∧
      m1.conn.bucket (ascii "cpu") = some (seriesBucket [(123456789, [1])])) :=
  ⟨DatabaseCleanup_ttl_correct ⟨3600000000000, exampleStore⟩ 1700000000000000000
    (ascii "cpu") [(1699992800, [1]), (1699998200, [2])]
    (by decide) (by decide) (by decide) (by decide) (by decide),
   DatabaseCleanup_ttl_correct
    ⟨400000000000000000, [(ascii "cpu", seriesBucket [(123456789, [1])])]⟩
    100000000000000000 (ascii "cpu") [(123456789, [1])]
    (by decide) (by decide) (by decide) (by decide) (by decide)⟩

/-- Witness of C3 on the example store: the old entry of `_counters` stays. -/
theorem DatabaseCleanup_reserved_unchanged_witness :
    ∃ m1, DatabaseCleanup ⟨3600000000000, exampleStore⟩ 1700000000000000000 = some m1 ∧
      m1.conn.bucket (ascii "_counters") = some [(ascii "1000000000", [7])] :=
  (DatabaseCleanup_reserved_unchanged ⟨3600000000000, exampleStore⟩ 1700000000000000000
    (ascii "_counters") [(ascii "1000000000", [7])] (by decide) (by decide) (by decide)).1

/-- Witness of C4 on the example store. -/
theorem DatabaseCleanup_idempotent_witness :
    ∃ m1, DatabaseCleanup ⟨3600000000000, exampleStore⟩ 1700000000000000000 = some m1 ∧
      DatabaseCleanup m1 1700000000000000000 = some m1 :=
  DatabaseCleanup_idempotent ⟨3600000000000, exampleStore⟩ 1700000000000000000 (by decide)

/-- C2, the code at the failing input.  The manager that `Init` builds for a
nil or an empty retention string has `ttl` 0, and its sweep at `now` =
1700000000 s is not a no-op: it empties the series `cpu`, whose samples are
100 and 10 minutes old. -/
theorem DatabaseCleanup_zero_ttl_deletes :
    (Init (fun _ => .ok 0) none exampleStore).1 = ⟨0, exampleStore⟩ ∧
    (Init (fun _ => .ok 0) (some "") exampleStore).1 = ⟨0, exampleStore⟩ ∧
    DatabaseCleanup (Init (fun _ => .ok 0) none exampleStore).1 1700000000000000000 =
      some ⟨0, exampleStoreEmptied⟩ ∧
    exampleStoreEmptied ≠ exampleStore := by
  decide

/-- C5, the code at two failing inputs.  A nine-digit key is kept although its
timestamp 999999999 is below the ten-digit cutoff 1000000000; and with a
nine-digit cutoff 700000000 (a retention of 1000000000 s) both ten-digit
samples are deleted although their timestamps are above the cutoff. -/
theorem DatabaseCleanup_digit_count :
    (DatabaseCleanup ⟨3600000000000, [(ascii "cpu", seriesBucket [(999999999, [1])])]⟩
        1000003600000000000 =
      some ⟨3600000000000, [(ascii "cpu", seriesBucket [(999999999, [1])])]⟩ ∧
     Time.Unix (1000003600000000000 - 3600000000000) = 1000000000 ∧
     (999999999 : Int) < 1000000000) ∧
    (DatabaseCleanup ⟨1000000000000000000, exampleStore⟩ 1700000000000000000 =
      some ⟨1000000000000000000, exampleStoreEmptied⟩ ∧
     Time.Unix (1700000000000000000 - 1000000000000000000) = 700000000 ∧
     (700000000 : Int) ≤ 1699992800) := by
  decide

/-! ## Theorems: the output command -/

theorem GoMap.get_set_same (m : GoMap) (k : String) (v : Value) :
    (m.set k v).get k = some v := by
  induction m with
  | nil => simp [GoMap.set, GoMap.get, List.lookup]
  | cons kv rest ih =>
    obtain ⟨k0, v0⟩ := kv
    by_cases h : k0 = k
    · simp [GoMap.set, GoMap.get, List.lookup, h]
    · have h2 : (k == k0) = false := by
        simp only [beq_eq_false_iff_ne, ne_eq]
        exact fun e => h e.symm
      simp only [GoMap.set, h, if_false, GoMap.get, List.lookup, h2]
      exact ih

theorem GoMap.get_set_other (m : GoMap) (k k1 : String) (v : Value) (hk : k1 ≠ k) :
    (m.set k v).get k1 = m.get k1 := by
  have hk2 : (k1 == k) = false := by simpa using hk
  induction m with
  | nil => simp [GoMap.set, GoMap.get, List.lookup, hk2]
  | cons kv rest ih =>
    obtain ⟨k0, v0⟩ := kv
    by_cases h : k0 = k
    · subst h
      simp [GoMap.set, GoMap.get, List.lookup, hk2]
    · simp only [GoMap.set, h, if_false, GoMap.get, List.lookup]
      cases hb : (k1 == k0) with
      | true => rfl
      | false => exact ih

/-- C6. Output command semantics.  For every context `c` and output command
`o` whose expression evaluates on `c` to value `v` and error `e`: when `e` is
nil, `execute` returns no error, the output mapping afterwards maps the
property to `v` and agrees with the earlier mapping at every other key; when
`e` is an error, `execute` returns that error and the context, output mapping
included, is as before.  The `arg` handler on a name absent from the caller's
arguments returns no expression and the error `Unknown argument <name>`. -/
theorem outputCommand_execute_spec (o : outputCommand) (c : executionContext) (v : Value)
    (e : Option String) (h : o.expr c = (v, e)) :
    (e = none →
      (o.execute c).2 = none ∧
      (o.execute c).1.output.get o.property.source = some v ∧
      (∀ k, k ≠ o.property.source → (o.execute c).1.output.get k = c.output.get k) ∧
      (o.execute c).1.arguments = c.arguments) ∧
    (∀ err, e = some err →
      (o.execute c).2 = some err ∧ (o.execute c).1.output = c.output ∧
      (o.execute c).1.arguments = c.arguments) ∧
    (∀ (w : World) (g : globalExpression) (n : String), c.arguments.get n = none →
      (g.arg w).handler c [("name", Value.string n)] =
        some (none, some ("Unknown argument " ++ n), [])) := by
  refine ⟨?_, ?_, ?_⟩
  · intro he
    subst he
    have hx : o.execute c = ({ c with output := c.output.set o.property.source v }, none) := by
      simp only [outputCommand.execute, h]
    rw [hx]
    exact ⟨rfl, GoMap.get_set_same _ _ _, fun k hk => GoMap.get_set_other _ _ _ _ hk, rfl⟩
  · intro err he
    subst he
    have hx : o.execute c = (c, some err) := by
      simp only [outputCommand.execute, h]
    rw [hx]
    exact ⟨rfl, rfl, rfl⟩
  · intro w g n hn
    simp [globalExpression.arg, newCallableExpression, expression.handler, GoMap.index,
      List.lookup, assertString, hn]

/-- Witness of C6: after a first output key is written, the command
`second: arg(name: "missing")` fails with `Unknown argument missing` and the
first key is still in the output mapping. -/
theorem outputCommand_execute_spec_witness :
    evaluateArg exampleWorld ⟨1, 2⟩ "missing" exampleContext =
      (Value.nil, some "Unknown argument missing") ∧
    ((⟨⟨"second"⟩, evaluateArg exampleWorld ⟨1, 2⟩ "missing"⟩ : outputCommand).execute
        exampleContext).2 = some "Unknown argument missing" ∧
    ((⟨⟨"second"⟩, evaluateArg exampleWorld ⟨1, 2⟩ "missing"⟩ : outputCommand).execute
        exampleContext).1.output = [("first", Value.int 1)] ∧
    ((⟨⟨"second"⟩, evaluateArg exampleWorld ⟨1, 2⟩ "missing"⟩ : outputCommand).execute
        exampleContext).1.arguments = [("host", Value.string "example.org")] :=
  ⟨rfl, (outputCommand_execute_spec ⟨⟨"second"⟩, evaluateArg exampleWorld ⟨1, 2⟩ "missing"⟩
    exampleContext Value.nil (some "Unknown argument missing") rfl).2.1
    "Unknown argument missing" rfl⟩

/-! ## Theorems: property extraction -/

theorem String.beq_false_of_ne (a b : String) (h : ¬ a = b) : (a == b) = false := by
  simpa using h

theorem lookup_globalProperties_none (w : World) (name : String)
    (h : name ∉ globalNames) : (globalProperties w).lookup name = none := by
  simp only [globalNames, List.mem_cons, List.mem_singleton, List.not_mem_nil, or_false,
    not_or] at h
  obtain ⟨h1, h2, h3, h4, h5, h6, h7, h8, h9, h10, h11, h12, h13, h14, h15⟩ := h
  simp only [globalProperties, List.lookup, String.beq_false_of_ne _ _ h1,
    String.beq_false_of_ne _ _ h2, String.beq_false_of_ne _ _ h3,
    String.beq_false_of_ne _ _ h4, String.beq_false_of_ne _ _ h5,
    String.beq_false_of_ne _ _ h6, String.beq_false_of_ne _ _ h7,
    String.beq_false_of_ne _ _ h8, String.beq_false_of_ne _ _ h9,
    String.beq_false_of_ne _ _ h10, String.beq_false_of_ne _ _ h11,
    String.beq_false_of_ne _ _ h12, String.beq_false_of_ne _ _ h13,
    String.beq_false_of_ne _ _ h14, String.beq_false_of_ne _ _ h15]

theorem lookup_globalProperties_some (w : World) (g : globalExpression) (name : String)
    (h : name ∈ globalNames) :
    ∃ f, (globalProperties w).lookup name = some f ∧ (f g).isCallable name = true := by
  simp only [globalNames, List.mem_cons, List.mem_singleton, List.not_mem_nil, or_false] at h
  rcases h with rfl | rfl | rfl | rfl | rfl | rfl | rfl | rfl | rfl | rfl | rfl | rfl | rfl |
    rfl | rfl <;> exact ⟨_, rfl, rfl⟩

/-- C10. Property extraction never returns a silent nil.  On the global
expression, `extract` returns a callable of the requested name and no error
when the name is one of the 15 registered builtins, and for every other name no
expression and the error `Global() does not contain a property with the key`
followed by the quoted name; on a string expression the same holds with the
single name `split` and the string form `String(<value>)`.  Each error message
contains the string form of the expression and the requested name. -/
theorem extract_never_nil (w : World) (g : globalExpression) (s : stringExpression)
    (c : executionContext) (name : String) :
    (if name ∈ globalNames then
      ∃ e, g.extract w c name = (some e, none) ∧ e.isCallable name = true
    else
      ∃ msg, g.extract w c name = (none, some msg) ∧
        msg = "Global() does not contain a property with the key `" ++ name ++ "`" ∧
        List.IsInfix g.toString.data msg.data ∧ List.IsInfix name.data msg.data) ∧
    (if name = "split" then
      ∃ e, s.extract c name = (some e, none) ∧ e.isCallable name = true
    else
      ∃ msg, s.extract c name = (none, some msg) ∧
        msg = "String(" ++ s.value ++ ") does not contain a property with the key `" ++
          name ++ "`" ∧
        List.IsInfix s.toString.data msg.data ∧ List.IsInfix name.data msg.data) := by
  constructor
  · by_cases h : name ∈ globalNames
    · rw [if_pos h]
      obtain ⟨f, hf, hc⟩ := lookup_globalProperties_some w g name h
      exact ⟨f g, by simp [globalExpression.extract, hf], hc⟩
    · rw [if_neg h]
      refine ⟨g.toString ++ " does not contain a property with the key `" ++ name ++ "`",
        by simp only [globalExpression.extract, lookup_globalProperties_none w name h],
        ?_, ?_, ?_⟩
      · simp [globalExpression.toString, String.ext_iff]
      · exact ⟨[], (" does not contain a property with the key `" ++ name ++ "`").data,
          by simp⟩
      · exact ⟨(g.toString ++ " does not contain a property with the key `").data,
          "`".data, by simp⟩
  · by_cases h : name = "split"
    · rw [if_pos h]
      subst h
      exact ⟨_, rfl, rfl⟩
    · rw [if_neg h]
      have hl : stringProperties.lookup name = none := by
        simp only [stringProperties, List.lookup, String.beq_false_of_ne _ _ h]
      refine ⟨s.toString ++ " does not contain a property with the key `" ++ name ++ "`",
        by simp only [stringExpression.extract, hl], ?_, ?_, ?_⟩
      · simp [stringExpression.toString, String.ext_iff]
      · exact ⟨[], (" does not contain a property with the key `" ++ name ++ "`").data,
          by simp⟩
      · exact ⟨(s.toString ++ " does not contain a property with the key `").data,
          "`".data, by simp⟩

/-! ## Theorems: `anomaly` -/

theorem anomaly_handler (g : globalExpression) (c : executionContext) (data : List ℚ)
    (value : ℚ) :
    g.anomaly.handler c
        [("data", Value.numericArray data), ("value", Value.float64 (.finite value))] =
      some (some (newBooleanExpression
        ((numericArray.stddev data).threeTimesLt |value - numericArray.avg data|) g.l g.p),
        none, []) := by
  simp [globalExpression.anomaly, newCallableExpression, expression.handler, GoMap.index,
    List.lookup, assertNumericArray, assertFloat64, exceedsThreeDeviations]

theorem avg_example : numericArray.avg [10, 10, 10, 10, 100] = 28 := by
  norm_num [numericArray.avg]

theorem stddev_example : numericArray.stddev [10, 10, 10, 10, 100] = ⟨1620⟩ := by
  rw [numericArray.stddev, avg_example]
  norm_num

/-- Counterexample to C8: for data = [10,10,10,10,100] and value = 100 the
handler does not return the boolean `true`: the mean is 28, the squared sample
standard deviation is 1620, and |100 - 28| = 72 is not above 3 * sqrt 1620
(72 * 72 = 5184 against 9 * 1620 = 14580). -/
theorem anomaly_outlier_not_true :
    numericArray.avg [10, 10, 10, 10, 100] = 28 ∧
    numericArray.stddev [10, 10, 10, 10, 100] = ⟨1620⟩ ∧
    (globalExpression.anomaly ⟨1, 2⟩).handler exampleContext (anomalyArgs 100) ≠
      some (some (newBooleanExpression true 1 2), none, []) := by
  refine ⟨avg_example, stddev_example, ?_⟩
  rw [anomalyArgs, anomaly_handler, avg_example, stddev_example]
  norm_num [Root.threeTimesLt, newBooleanExpression]

/-- C8, amended.  With the mean the arithmetic mean and the deviation the
sample standard deviation, the `anomaly` handler on data = [10,10,10,10,100]
returns the boolean `false` both for value = 100 and for value = 10, at every
source position and in every context. -/
theorem anomaly_examples (g : globalExpression) (c : executionContext) :
    g.anomaly.handler c (anomalyArgs 100) =
      some (some (newBooleanExpression false g.l g.p), none, []) ∧
    g.anomaly.handler c (anomalyArgs 10) =
      some (some (newBooleanExpression false g.l g.p), none, []) := by
  constructor
  · rw [anomalyArgs, anomaly_handler, avg_example, stddev_example]
    norm_num [Root.threeTimesLt]
  · rw [anomalyArgs, anomaly_handler, avg_example, stddev_example]
    norm_num [Root.threeTimesLt, abs_of_neg]

theorem random_handler (w : World) (g : globalExpression) (c : executionContext)
    (args : GoMap) :
    (g.random w).handler c args =
      some (some (newNumericExpression (Value.float64
        ((GoFloat64.finite w.randFloat64).mul
          (if !(checkFloat64 (args.index "max")).2 then .finite 1
            else (checkFloat64 (args.index "max")).1))) g.l g.p), none, []) := rfl

/-! ## Theorems: handlers on validated arguments -/

theorem validated_mem (arguments : List (String × callableArgument)) (args : GoMap)
    (h : validated arguments args = true) (k : String) (d : callableArgument)
    (hk : (k, d) ∈ arguments) :
    (match args.get k with
      | some v => hasKind d.kind v
      | none => !d.required) = true := by
  simp only [validated, List.all_eq_true] at h
  exact h (k, d) hk

theorem validated_string (arguments : List (String × callableArgument)) (args : GoMap)
    (h : validated arguments args = true) (k : String)
    (hk : (k, callableArgumentString) ∈ arguments) :
    ∃ x, args.index k = Value.string x := by
  have h1 := validated_mem arguments args h k _ hk
  unfold GoMap.get at h1
  unfold GoMap.index
  cases hl : List.lookup k args with
  | none => simp [hl, callableArgumentString] at h1
  | some v =>
    rw [hl] at h1
    cases v <;> simp [hasKind, callableArgumentString] at h1
    exact ⟨_, rfl⟩

theorem validated_numeric (arguments : List (String × callableArgument)) (args : GoMap)
    (h : validated arguments args = true) (k : String)
    (hk : (k, callableArgumentNumeric) ∈ arguments) :
    ∃ x, args.index k = Value.float64 x := by
  have h1 := validated_mem arguments args h k _ hk
  unfold GoMap.get at h1
  unfold GoMap.index
  cases hl : List.lookup k args with
  | none => simp [hl, callableArgumentNumeric] at h1
  | some v =>
    rw [hl] at h1
    cases v <;> simp [hasKind, callableArgumentNumeric] at h1
    exact ⟨_, rfl⟩

theorem validated_numericArray (arguments : List (String × callableArgument)) (args : GoMap)
    (h : validated arguments args = true) (k : String)
    (hk : (k, callableArgumentNumericArray) ∈ arguments) :
    ∃ x, args.index k = Value.numericArray x := by
  have h1 := validated_mem arguments args h k _ hk
  unfold GoMap.get at h1
  unfold GoMap.index
  cases hl : List.lookup k args with
  | none => simp [hl, callableArgumentNumericArray] at h1
  | some v =>
    rw [hl] at h1
    cases v <;> simp [hasKind, callableArgumentNumericArray] at h1
    exact ⟨_, rfl⟩

theorem emitError_total (g : globalExpression) (c : executionContext) (args : GoMap)
    (h : validated g.emitError.arguments args = true) : g.emitError.handler c args ≠ none := by
  obtain ⟨x, hx⟩ := validated_string _ args h "message" (by simp [globalExpression.emitError,
    newCallableExpression, expression.arguments])
  simp [globalExpression.emitError, newCallableExpression, expression.handler, hx, assertString]

theorem log_total (g : globalExpression) (c : executionContext) (args : GoMap)
    (h : validated g.log.arguments args = true) : g.log.handler c args ≠ none := by
  obtain ⟨x, hx⟩ := validated_string _ args h "message" (by simp [globalExpression.log,
    newCallableExpression, expression.arguments])
  simp [globalExpression.log, newCallableExpression, expression.handler, hx, assertString]

theorem excel_total (g : globalExpression) (c : executionContext) (args : GoMap)
    (h : validated g.excel.arguments args = true) : g.excel.handler c args ≠ none := by
  obtain ⟨x, hx⟩ := validated_string _ args h "path" (by simp [globalExpression.excel,
    newCallableExpression, expression.arguments])
  simp [globalExpression.excel, newCallableExpression, expression.handler, hx, assertString]

theorem googleSpreadsheet_total (g : globalExpression) (c : executionContext) (args : GoMap)
    (h : validated g.googleSpreadsheet.arguments args = true) :
    g.googleSpreadsheet.handler c args ≠ none := by
  obtain ⟨x, hx⟩ := validated_string _ args h "spreadsheetId"
    (by simp [globalExpression.googleSpreadsheet, newCallableExpression, expression.arguments])
  simp [globalExpression.googleSpreadsheet, newCallableExpression, expression.handler, hx,
    assertString]

theorem counter_total (g : globalExpression) (c : executionContext) (args : GoMap)
    (h : validated g.counter.arguments args = true) : g.counter.handler c args ≠ none := by
  obtain ⟨x, hx⟩ := validated_string _ args h "name" (by simp [globalExpression.counter,
    newCallableExpression, expression.arguments])
  simp only [globalExpression.counter, newCallableExpression, expression.handler, hx,
    assertString, Option.bind_eq_bind, Option.some_bind]
  split <;> simp

theorem series_total (g : globalExpression) (c : executionContext) (args : GoMap)
    (h : validated g.series.arguments args = true) : g.series.handler c args ≠ none := by
  obtain ⟨x, hx⟩ := validated_string _ args h "name" (by simp [globalExpression.series,
    newCallableExpression, expression.arguments])
  simp only [globalExpression.series, newCallableExpression, expression.handler, hx,
    assertString, Option.bind_eq_bind, Option.some_bind]
  split <;> simp

theorem arg_total (w : World) (g : globalExpression) (c : executionContext) (args : GoMap)
    (h : validated (g.arg w).arguments args = true) : (g.arg w).handler c args ≠ none := by
  obtain ⟨x, hx⟩ := validated_string _ args h "name" (by simp [globalExpression.arg,
    newCallableExpression, expression.arguments])
  simp only [globalExpression.arg, newCallableExpression, expression.handler, hx,
    assertString, Option.bind_eq_bind, Option.some_bind]
  split <;> simp

theorem notify_total (w : World) (g : globalExpression) (c : executionContext) (args : GoMap)
    (h : validated (g.notify w).arguments args = true) :
    (g.notify w).handler c args ≠ none := by
  obtain ⟨x, hx⟩ := validated_string _ args h "title" (by simp [globalExpression.notify,
    newCallableExpression, expression.arguments])
  obtain ⟨y, hy⟩ := validated_string _ args h "message" (by simp [globalExpression.notify,
    newCallableExpression, expression.arguments])
  simp only [globalExpression.notify, newCallableExpression, expression.handler, hx, hy,
    assertString, Option.bind_eq_bind, Option.some_bind]
  split <;> simp

theorem anomaly_total (g : globalExpression) (c : executionContext) (args : GoMap)
    (h : validated g.anomaly.arguments args = true) : g.anomaly.handler c args ≠ none := by
  obtain ⟨x, hx⟩ := validated_numericArray _ args h "data" (by simp [globalExpression.anomaly,
    newCallableExpression, expression.arguments])
  obtain ⟨y, hy⟩ := validated_numeric _ args h "value" (by simp [globalExpression.anomaly,
    newCallableExpression, expression.arguments])
  simp [globalExpression.anomaly, newCallableExpression, expression.handler, hx, hy,
    assertNumericArray, assertFloat64]

theorem spawn_total (w : World) (g : globalExpression) (c : executionContext) (args : GoMap)
    (h : validated (g.spawn w).arguments args = true) : (g.spawn w).handler c args ≠ none := by
  obtain ⟨x, hx⟩ := validated_string _ args h "tag" (by simp [globalExpression.spawn,
    newCallableExpression, expression.arguments])
  obtain ⟨y, hy⟩ := validated_numeric _ args h "refresh" (by simp [globalExpression.spawn,
    newCallableExpression, expression.arguments])
  simp [globalExpression.spawn, newCallableExpression, expression.handler, hx, hy,
    assertString, assertFloat64]

theorem split_total (s : stringExpression) (c : executionContext) (args : GoMap)
    (h : validated s.split.arguments args = true) : s.split.handler c args ≠ none := by
  obtain ⟨x, hx⟩ := validated_string _ args h "separator" (by simp [stringExpression.split,
    newCallableExpression, expression.arguments])
  simp [stringExpression.split, newCallableExpression, expression.handler, hx, assertString]

/-- The `load` handler panics on validated arguments only inside
`mapFromYaml`, on a decoded tree with a map key that is not a string. -/
theorem load_panic_only (w : World) (g : globalExpression) (c : executionContext)
    (args : GoMap) (h : validated (g.load w).arguments args = true)
    (hn : (g.load w).handler c args = none) :
    ∃ format path data result, args.index "format" = Value.string format ∧
      args.index "path" = Value.string path ∧ w.readFile path = .ok data ∧
      (w.jsonUnmarshal data = .ok result ∨ w.yamlUnmarshal data = .ok result ∨
        w.tomlDecode data = .ok result) ∧
      mapFromYaml result = none := by
  obtain ⟨x, hx⟩ := validated_string _ args h "format" (by simp [globalExpression.load,
    newCallableExpression, expression.arguments])
  obtain ⟨y, hy⟩ := validated_string _ args h "path" (by simp [globalExpression.load,
    newCallableExpression, expression.arguments])
  simp only [globalExpression.load, newCallableExpression, expression.handler, hx, hy,
    assertString, Option.bind_eq_bind, Option.some_bind] at hn
  cases hr : w.readFile y with
  | error err => simp [hr] at hn
  | ok data =>
    simp only [hr] at hn
    by_cases h1 : stringsToLower w x = "json"
    · simp only [h1, if_true] at hn
      cases hd : w.jsonUnmarshal data with
      | error err => simp [hd] at hn
      | ok result =>
        simp only [hd] at hn
        cases hm : mapFromYaml result with
        | none => exact ⟨x, y, data, result, hx, hy, hr, Or.inl hd, hm⟩
        | some v => simp [hm] at hn
    · by_cases h2 : stringsToLower w x = "yaml"
      · simp only [h2, if_true] at hn
        cases hd : w.yamlUnmarshal data with
        | error err => simp [hd] at hn
        | ok result =>
          simp [hd] at hn
          cases hm : mapFromYaml result with
          | none => exact ⟨x, y, data, result, hx, hy, hr, Or.inr (Or.inl hd), hm⟩
          | some v => simp [hm] at hn
      · by_cases h3 : stringsToLower w x = "toml"
        · simp only [h3, if_true] at hn
          cases hd : w.tomlDecode data with
          | error err => simp [hd] at hn
          | ok result =>
            simp [hd] at hn
            cases hm : mapFromYaml result with
            | none => exact ⟨x, y, data, result, hx, hy, hr, Or.inr (Or.inr hd), hm⟩
            | some v => simp [hm] at hn
        · simp [h1, h2, h3] at hn

theorem now_total (w : World) (g : globalExpression) (c : executionContext) (args : GoMap) :
    (g.now w).handler c args ≠ none := by
  simp [globalExpression.now, newCallableExpression, expression.handler]

theorem random_total (w : World) (g : globalExpression) (c : executionContext)
    (args : GoMap) : (g.random w).handler c args ≠ none := by
  rw [random_handler]
  simp

/-- For every builtin callable of the global and string expressions and every
argument map that satisfies its descriptors, every handler other than `load`
returns, and `load` fails to return only when a file was read and decoded and
`mapFromYaml` fails on the decoded tree. -/
theorem handlers_total_on_validated (w : World) (g : globalExpression)
    (s : stringExpression) (c : executionContext) (args : GoMap) (e : expression)
    (he : e ∈ builtinCallables w g s) (hv : validated e.arguments args = true) :
    (e.isCallable "load" = false → e.handler c args ≠ none) ∧
    (e.handler c args = none →
      ∃ format path data result, args.index "format" = Value.string format ∧
        args.index "path" = Value.string path ∧ w.readFile path = .ok data ∧
        (w.jsonUnmarshal data = .ok result ∨ w.yamlUnmarshal data = .ok result ∨
          w.tomlDecode data = .ok result) ∧
        mapFromYaml result = none) := by
  simp only [builtinCallables, List.mem_cons, List.mem_singleton, List.not_mem_nil,
    or_false] at he
  rcases he with rfl | rfl | rfl | rfl | rfl | rfl | rfl | rfl | rfl | rfl | rfl | rfl |
    rfl | rfl
  · exact ⟨fun _ => now_total w g c args, fun hn => absurd hn (now_total w g c args)⟩
  · exact ⟨fun _ => emitError_total g c args hv,
      fun hn => absurd hn (emitError_total g c args hv)⟩
  · exact ⟨fun _ => log_total g c args hv, fun hn => absurd hn (log_total g c args hv)⟩
  · exact ⟨fun _ => random_total w g c args, fun hn => absurd hn (random_total w g c args)⟩
  · exact ⟨fun _ => excel_total g c args hv, fun hn => absurd hn (excel_total g c args hv)⟩
  · exact ⟨fun _ => googleSpreadsheet_total g c args hv,
      fun hn => absurd hn (googleSpreadsheet_total g c args hv)⟩
  · exact ⟨fun _ => counter_total g c args hv,
      fun hn => absurd hn (counter_total g c args hv)⟩
  · exact ⟨fun _ => arg_total w g c args hv, fun hn => absurd hn (arg_total w g c args hv)⟩
  · exact ⟨fun _ => series_total g c args hv, fun hn => absurd hn (series_total g c args hv)⟩
  · exact ⟨fun _ => notify_total w g c args hv,
      fun hn => absurd hn (notify_total w g c args hv)⟩
  · exact ⟨fun _ => anomaly_total g c args hv,
      fun hn => absurd hn (anomaly_total g c args hv)⟩
  · refine ⟨fun hl => ?_, fun hn => load_panic_only w g c args hv hn⟩
    simp [globalExpression.load, newCallableExpression, expression.isCallable] at hl
  · exact ⟨fun _ => spawn_total w g c args hv,
      fun hn => absurd hn (spawn_total w g c args hv)⟩
  · exact ⟨fun _ => split_total s c args hv, fun hn => absurd hn (split_total s c args hv)⟩


/-- C7, the code at the failing input.  `load` is one of the builtin callables
and `load(format: "yaml", path: "bad.yaml")` has a validated argument map; on a
file that decodes to a map with the integer key 1 the handler does not return:
the unchecked assertion `index.(string)` of `mapFromYaml` panics.  The other
failures of the same handler come back as errors: a file that cannot be read,
a file that does not decode, and an unknown format. -/
theorem load_panics_on_integer_key :
    globalExpression.load exampleWorld ⟨1, 2⟩ ∈
      builtinCallables exampleWorld ⟨1, 2⟩ ⟨"a,b,c", none, 1, 2⟩ ∧
    validated (globalExpression.load exampleWorld ⟨1, 2⟩).arguments loadArgs = true ∧
    exampleWorld.readFile "bad.yaml" = .ok "1: a" ∧
    exampleWorld.yamlUnmarshal "1: a" =
      .ok (Value.yamlMap [(Value.int 1, Value.string "a")]) ∧
    mapFromYaml (Value.yamlMap [(Value.int 1, Value.string "a")]) = none ∧
    (globalExpression.load exampleWorld ⟨1, 2⟩).handler exampleContext loadArgs = none ∧
    (globalExpression.load exampleWorld ⟨1, 2⟩).handler exampleContext
        [("format", Value.string "yaml"), ("path", Value.string "missing.yaml")] =
      some (none, some "no such file", []) ∧
    (globalExpression.load exampleWorld ⟨1, 2⟩).handler exampleContext
        [("format", Value.string "json"), ("path", Value.string "bad.yaml")] =
      some (none, some "invalid character", []) ∧
    (globalExpression.load exampleWorld ⟨1, 2⟩).handler exampleContext
        [("format", Value.string "xml"), ("path", Value.string "bad.yaml")] =
      some (none, some "Unknown file format xml", []) := by
  refine ⟨by simp [builtinCallables], rfl, rfl, rfl, rfl, rfl, rfl, rfl, rfl⟩

/-! ## Theorems: `split` -/

theorem splitGo_ne_nil (sep : List Char) : ∀ (rest : List Char) (skip : Nat)
    (cur : List Char), splitGo sep skip rest cur ≠ [] := by
  intro rest
  induction rest with
  | nil => intro skip cur; simp [splitGo]
  | cons c r ih =>
    intro skip cur
    cases skip with
    | zero =>
      simp only [splitGo]
      split
      · simp
      · exact ih 0 (c :: cur)
    | succ k =>
      simp only [splitGo]
      exact ih k cur

theorem splitGo_skip (sep : List Char) : ∀ (skip : Nat) (rest cur : List Char),
    skip ≤ rest.length → splitGo sep skip rest cur = splitGo sep 0 (rest.drop skip) cur := by
  intro skip
  induction skip with
  | zero => intro rest cur _; rfl
  | succ k ih =>
    intro rest cur h
    cases rest with
    | nil => simp at h
    | cons c r =>
      simp only [splitGo, List.drop_succ_cons]
      exact ih r cur (by simpa using h)

theorem joinChars_cons (a : List Char) (l : List (List Char)) (sep : List Char)
    (h : l ≠ []) : joinChars (a :: l) sep = a ++ sep ++ joinChars l sep := by
  cases l with
  | nil => exact absurd rfl h
  | cons b rest => rfl

theorem prefix_drop (sep : List Char) (c : Char) (r : List Char)
    (h : sep.isPrefixOf (c :: r) = true) (hsep : sep ≠ []) :
    sep.length - 1 ≤ r.length ∧ sep ++ r.drop (sep.length - 1) = c :: r := by
  rw [List.isPrefixOf_iff_prefix] at h
  obtain ⟨t, ht⟩ := h
  cases sep with
  | nil => exact absurd rfl hsep
  | cons x xs =>
    simp only [List.cons_append, List.cons.injEq] at ht
    obtain ⟨hx, hr⟩ := ht
    subst hx
    subst hr
    simp

/-- Joining the pieces of a split with the separator gives back the text. -/
theorem splitGo_join (sep : List Char) (hsep : sep ≠ []) : ∀ (n : Nat) (rest cur : List Char),
    rest.length ≤ n → joinChars (splitGo sep 0 rest cur) sep = cur.reverse ++ rest := by
  intro n
  induction n with
  | zero =>
    intro rest cur h
    have : rest = [] := List.length_eq_zero.1 (by omega)
    subst this
    simp [splitGo, joinChars]
  | succ n ih =>
    intro rest cur h
    cases rest with
    | nil => simp [splitGo, joinChars]
    | cons c r =>
      simp only [splitGo]
      by_cases hp : sep.isPrefixOf (c :: r) = true
      · obtain ⟨hlen, heq⟩ := prefix_drop sep c r hp hsep
        simp only [hp, if_true]
        rw [splitGo_skip sep _ r [] hlen, joinChars_cons _ _ _ (splitGo_ne_nil _ _ _ _),
          ih (r.drop (sep.length - 1)) [] (by simp at h ⊢; omega)]
        simp only [List.reverse_nil, List.nil_append, List.append_assoc]
        rw [heq]
      · simp only [hp, Bool.false_eq_true, if_false]
        rw [ih r (c :: cur) (by simpa using h)]
        simp

/-- No piece of a split contains the separator, as long as no occurrence of
the separator starts inside the characters already collected. -/
theorem splitGo_no_sep (sep : List Char) (hsep : sep ≠ []) : ∀ (n : Nat)
    (rest cur : List Char), rest.length ≤ n →
    (∀ s t, s ++ sep ++ t = cur.reverse ++ rest → cur.length ≤ s.length) →
    ∀ e ∈ splitGo sep 0 rest cur, ¬ List.IsInfix sep e := by
  have hpos : 0 < sep.length := List.length_pos.2 hsep
  intro n
  induction n with
  | zero =>
    intro rest cur h hP e he
    have : rest = [] := List.length_eq_zero.1 (by omega)
    subst this
    simp only [splitGo, List.mem_singleton] at he
    subst he
    rintro ⟨s, t, hst⟩
    have h1 := hP s t (by simpa using hst)
    have h2 := congrArg List.length hst
    simp at h2
    omega
  | succ n ih =>
    intro rest cur h hP e he
    cases rest with
    | nil =>
      simp only [splitGo, List.mem_singleton] at he
      subst he
      rintro ⟨s, t, hst⟩
      have h1 := hP s t (by simpa using hst)
      have h2 := congrArg List.length hst
      simp at h2
      omega
    | cons c r =>
      simp only [splitGo] at he
      by_cases hp : sep.isPrefixOf (c :: r) = true
      · obtain ⟨hlen, _⟩ := prefix_drop sep c r hp hsep
        simp only [hp, if_true, List.mem_cons] at he
        rcases he with rfl | he
        · rintro ⟨s, t, hst⟩
          have h1 := hP s (t ++ c :: r) (by rw [← hst]; simp)
          have h2 := congrArg List.length hst
          simp at h2
          omega
        · rw [splitGo_skip sep _ r [] hlen] at he
          exact ih (r.drop (sep.length - 1)) [] (by simp at h ⊢; omega)
            (fun s t _ => by simp) e he
      · simp only [hp, Bool.false_eq_true, if_false] at he
        refine ih r (c :: cur) (by simpa using h) ?_ e he
        intro s t hst
        have hst2 : s ++ sep ++ t = cur.reverse ++ c :: r := by
          rw [hst]; simp
        have h1 := hP s t hst2
        by_contra hlt
        have hlen : s.length = cur.reverse.length := by
          simp only [List.length_cons] at hlt
          simp only [List.length_reverse]
          omega
        rw [List.append_assoc] at hst2
        have := List.append_inj hst2 hlen
        apply hp
        rw [List.isPrefixOf_iff_prefix]
        exact ⟨t, this.2⟩

theorem splitGo_length (sep : List Char) : ∀ (rest : List Char) (skip : Nat)
    (cur : List Char), (splitGo sep skip rest cur).length = countGo sep skip rest + 1 := by
  intro rest
  induction rest with
  | nil => intro skip cur; simp [splitGo, countGo]
  | cons c r ih =>
    intro skip cur
    cases skip with
    | zero =>
      simp only [splitGo, countGo]
      split
      · simp [ih]
      · exact ih 0 (c :: cur)
    | succ k =>
      simp only [splitGo, countGo]
      exact ih k cur

theorem stringsJoin_data : ∀ (parts : List String) (sep : String),
    (stringsJoin parts sep).data = joinChars (parts.map String.data) sep.data
  | [], _ => rfl
  | [_], _ => rfl
  | a :: b :: rest, sep => by
    simp only [stringsJoin, String.data_append, List.map_cons, joinChars]
    rw [stringsJoin_data (b :: rest) sep]
    simp

theorem joinChars_singletons : ∀ (l : List Char),
    joinChars (l.map (fun c => [c])) [] = l
  | [] => rfl
  | [_] => rfl
  | a :: b :: rest => by
    have := joinChars_singletons (b :: rest)
    simp only [List.map_cons, joinChars, List.append_nil, List.singleton_append] at this ⊢
    rw [this]

theorem String.data_ne_nil (sep : String) (h : sep ≠ "") : sep.data ≠ [] := by
  intro hd
  exact h (String.ext hd)

/-- C11. `split` preserves content and order.  For every string expression and
every separator, the `split` handler returns the array of the strings
`strings.Split` produces; joined in order with the separator between them they
give back the string exactly; and when the separator is non-empty no element
contains it and the array has one more element than the number of
non-overlapping left-to-right occurrences of the separator in the string. -/
theorem split_preserves_content (s : stringExpression) (c : executionContext)
    (sep : String) :
    s.split.handler c [("separator", Value.string sep)] =
      some (some (newArrayExpression ((stringsSplit s.value sep).map Value.string) s.l s.p),
        none, []) ∧
    stringsJoin (stringsSplit s.value sep) sep = s.value ∧
    (sep ≠ "" →
      (∀ e ∈ stringsSplit s.value sep, ¬ List.IsInfix sep.data e.data) ∧
      (stringsSplit s.value sep).length = stringsCount s.value sep + 1) := by
  refine ⟨?_, ?_, ?_⟩
  · simp [stringExpression.split, newCallableExpression, expression.handler, GoMap.index,
      List.lookup, assertString]
  · apply String.ext
    rw [stringsJoin_data]
    unfold stringsSplit
    by_cases hsep : sep.data = []
    · simp only [hsep, if_true, List.map_map]
      exact joinChars_singletons s.value.data
    · simp only [hsep, if_false, List.map_map]
      have : (String.data ∘ String.mk) = id := rfl
      rw [this, List.map_id]
      simpa using splitGo_join sep.data hsep s.value.data.length s.value.data [] (le_refl _)
  · intro hne
    have hsep := String.data_ne_nil sep hne
    unfold stringsSplit stringsCount
    simp only [hsep, if_false, List.length_map]
    refine ⟨?_, splitGo_length _ _ _ _⟩
    intro e he
    obtain ⟨l, hl, rfl⟩ := List.mem_map.1 he
    exact splitGo_no_sep sep.data hsep s.value.data.length s.value.data [] (le_refl _)
      (fun s t _ => by simp) l hl

/-- Witness of C11: `a,b,c` split on `,` yields `a`, `b`, `c` in that order. -/
theorem split_preserves_content_witness :
    stringsSplit "a,b,c" "," = ["a", "b", "c"] ∧
    (stringExpression.split ⟨"a,b,c", none, 1, 2⟩).handler exampleContext
        [("separator", Value.string ",")] =
      some (some (newArrayExpression ((stringsSplit "a,b,c" ",").map Value.string) 1 2),
        none, []) ∧
    stringsJoin (stringsSplit "a,b,c" ",") "," = "a,b,c" ∧
    (∀ e ∈ stringsSplit "a,b,c" ",", ¬ List.IsInfix ",".data e.data) ∧
    (stringsSplit "a,b,c" ",").length = stringsCount "a,b,c" "," + 1 :=
  ⟨by decide,
   (split_preserves_content ⟨"a,b,c", none, 1, 2⟩ exampleContext ",").1,
   (split_preserves_content ⟨"a,b,c", none, 1, 2⟩ exampleContext ",").2.1,
   (split_preserves_content ⟨"a,b,c", none, 1, 2⟩ exampleContext ",").2.2 (by decide)⟩

/-! ## Theorems: rounding in `Duration.Seconds` -/

theorem log2Fuel_spec : ∀ (fuel n : Nat), n ≤ fuel → 1 ≤ n →
    2 ^ log2Fuel fuel n ≤ n ∧ n < 2 ^ (log2Fuel fuel n + 1) := by
  intro fuel
  induction fuel with
  | zero => intro n h1 h2; omega
  | succ f ih =>
    intro n h1 h2
    simp only [log2Fuel]
    by_cases hn : n < 2
    · simp only [hn, if_true]
      constructor <;> omega
    · simp only [hn, if_false]
      obtain ⟨ha, hb⟩ := ih (n / 2) (by omega) (by omega)
      constructor
      · rw [pow_succ]
        omega
      · rw [pow_succ]
        omega

theorem natLog2_spec (n : Nat) (h : 1 ≤ n) :
    2 ^ natLog2 n ≤ n ∧ n < 2 ^ (natLog2 n + 1) :=
  log2Fuel_spec n n (le_refl _) h

theorem Float64.den_pos (a : Float64) : 0 < a.den := by
  unfold Float64.den
  split
  · exact Nat.one_pos
  · exact Nat.pos_pow_of_pos _ (by norm_num)

theorem Float64.val_eq (a : Float64) : a.val = (a.m : ℚ) * (2 : ℚ) ^ a.e := by
  unfold Float64.val Float64.num Float64.den
  by_cases h : 0 ≤ a.e
  · simp only [h, if_true]
    obtain ⟨k, hk⟩ := Int.eq_ofNat_of_zero_le h
    rw [hk]
    simp
  · simp only [h, if_false]
    have h2 : a.e = -((-a.e).toNat : Int) := by
      rw [Int.toNat_of_nonneg (by omega)]; ring
    conv_rhs => rw [h2]
    rw [zpow_neg, zpow_natCast]
    push_cast
    rw [div_eq_mul_inv]

theorem two_zpow_nonneg (k : Int) (h : 0 ≤ k) : (2 : ℚ) ^ k = ((2 ^ k.toNat : ℕ) : ℚ) := by
  obtain ⟨n, hn⟩ := Int.eq_ofNat_of_zero_le h
  rw [hn]
  simp

theorem two_zpow_neg (k : Int) (h : k < 0) :
    (2 : ℚ) ^ k = 1 / ((2 ^ (-k).toNat : ℕ) : ℚ) := by
  have h2 : k = -((-k).toNat : Int) := by
    rw [Int.toNat_of_nonneg (by omega)]; ring
  conv_lhs => rw [h2]
  rw [zpow_neg, zpow_natCast]
  push_cast
  rw [one_div]

theorem two_zpow_pos (k : Int) : (0 : ℚ) < (2 : ℚ) ^ k := zpow_pos (by norm_num) k

theorem roundHalfEven_spec (num den : Nat) (hden : 0 < den) :
    2 * num ≤ 2 * (roundHalfEven num den * den) + den ∧
    2 * (roundHalfEven num den * den) ≤ 2 * num + den ∧
    num / den ≤ roundHalfEven num den := by
  have h1 := Nat.div_add_mod num den
  have h2 := Nat.mod_lt num hden
  have h3 : num / den * den + num % den = num := by rw [Nat.mul_comm]; exact h1
  unfold roundHalfEven
  simp only
  split_ifs with c1 c2 c3
  · refine ⟨?_, ?_, le_refl _⟩ <;> omega
  · refine ⟨?_, ?_, by omega⟩
    · rw [Nat.add_mul]; omega
    · rw [Nat.add_mul]; omega
  · refine ⟨?_, ?_, le_refl _⟩ <;> omega
  · refine ⟨?_, ?_, by omega⟩
    · rw [Nat.add_mul]; omega
    · rw [Nat.add_mul]; omega

theorem binaryExponent_spec (p q : Nat) (hp : 1 ≤ p) (hq : 1 ≤ q) :
    (2 : ℚ) ^ binaryExponent p q ≤ (p : ℚ) / q ∧
    (p : ℚ) / q < (2 : ℚ) ^ (binaryExponent p q + 1) := by
  obtain ⟨ha1, ha2⟩ := natLog2_spec p hp
  obtain ⟨hb1, hb2⟩ := natLog2_spec q hq
  have hqpos : (0 : ℚ) < q := by exact_mod_cast hq
  have ha1' : (2 : ℚ) ^ (natLog2 p : ℤ) ≤ p := by
    rw [zpow_natCast]; exact_mod_cast ha1
  have ha2' : (p : ℚ) < (2 : ℚ) ^ ((natLog2 p : ℤ) + 1) := by
    rw [show ((natLog2 p : ℤ) + 1) = ((natLog2 p + 1 : ℕ) : ℤ) by push_cast; ring, zpow_natCast]
    exact_mod_cast ha2
  have hb1' : (2 : ℚ) ^ (natLog2 q : ℤ) ≤ q := by
    rw [zpow_natCast]; exact_mod_cast hb1
  have hb2' : (q : ℚ) < (2 : ℚ) ^ ((natLog2 q : ℤ) + 1) := by
    rw [show ((natLog2 q : ℤ) + 1) = ((natLog2 q + 1 : ℕ) : ℤ) by push_cast; ring, zpow_natCast]
    exact_mod_cast hb2
  have hbelow : ∀ e0 : Int,
      ((if 0 ≤ e0 then decide (2 ^ e0.toNat * q ≤ p) else decide (q ≤ p * 2 ^ (-e0).toNat))
        = true) ↔ (2 : ℚ) ^ e0 ≤ (p : ℚ) / q := by
    intro e0
    by_cases h : 0 ≤ e0
    · simp only [h, if_true, decide_eq_true_eq]
      rw [two_zpow_nonneg e0 h, le_div_iff₀ hqpos]
      constructor
      · intro hh; exact_mod_cast hh
      · intro hh; exact_mod_cast hh
    · simp only [h, if_false, decide_eq_true_eq]
      rw [two_zpow_neg e0 (by omega), div_le_div_iff (by positivity) hqpos, one_mul]
      constructor
      · intro hh; exact_mod_cast hh
      · intro hh; exact_mod_cast hh
  have hsplit : (2 : ℚ) ^ ((natLog2 p : ℤ) - (natLog2 q : ℤ)) =
      (2 : ℚ) ^ (natLog2 p : ℤ) / (2 : ℚ) ^ (natLog2 q : ℤ) :=
    zpow_sub₀ (by norm_num) _ _
  unfold binaryExponent
  simp only
  by_cases hb : (if 0 ≤ (natLog2 p : ℤ) - (natLog2 q : ℤ)
      then decide (2 ^ ((natLog2 p : ℤ) - (natLog2 q : ℤ)).toNat * q ≤ p)
      else decide (q ≤ p * 2 ^ (-((natLog2 p : ℤ) - (natLog2 q : ℤ))).toNat)) = true
  · rw [if_pos hb]
    refine ⟨(hbelow _).1 hb, ?_⟩
    have : (2 : ℚ) ^ ((natLog2 p : ℤ) - (natLog2 q : ℤ) + 1) =
        (2 : ℚ) ^ ((natLog2 p : ℤ) + 1) / (2 : ℚ) ^ (natLog2 q : ℤ) := by
      rw [show (natLog2 p : ℤ) - (natLog2 q : ℤ) + 1 = ((natLog2 p : ℤ) + 1) - (natLog2 q : ℤ)
        by ring]
      exact zpow_sub₀ (by norm_num) _ _
    rw [this, div_lt_div_iff hqpos (two_zpow_pos _)]
    calc (p : ℚ) * (2 : ℚ) ^ (natLog2 q : ℤ) ≤ p * q :=
          mul_le_mul_of_nonneg_left hb1' (by positivity)
      _ < (2 : ℚ) ^ ((natLog2 p : ℤ) + 1) * q := mul_lt_mul_of_pos_right ha2' hqpos
  · rw [if_neg hb]
    have hnb : ¬ (2 : ℚ) ^ ((natLog2 p : ℤ) - (natLog2 q : ℤ)) ≤ (p : ℚ) / q :=
      fun hh => hb ((hbelow _).2 hh)
    constructor
    · have : (2 : ℚ) ^ ((natLog2 p : ℤ) - (natLog2 q : ℤ) - 1) =
          (2 : ℚ) ^ (natLog2 p : ℤ) / (2 : ℚ) ^ ((natLog2 q : ℤ) + 1) := by
        rw [show (natLog2 p : ℤ) - (natLog2 q : ℤ) - 1 = (natLog2 p : ℤ) - ((natLog2 q : ℤ) + 1)
          by ring]
        exact zpow_sub₀ (by norm_num) _ _
      rw [this, div_le_div_iff (two_zpow_pos _) hqpos]
      calc (2 : ℚ) ^ (natLog2 p : ℤ) * q ≤ p * q :=
            mul_le_mul_of_nonneg_right ha1' (le_of_lt hqpos)
        _ ≤ p * (2 : ℚ) ^ ((natLog2 q : ℤ) + 1) :=
            mul_le_mul_of_nonneg_left (le_of_lt hb2') (by positivity)
    · rw [show (natLog2 p : ℤ) - (natLog2 q : ℤ) - 1 + 1 = (natLog2 p : ℤ) - (natLog2 q : ℤ)
        by ring]
      exact lt_of_not_le hnb

theorem roundFraction_scaled (p q : Nat) (hq : 1 ≤ q) :
    ∃ num den : Nat, 0 < den ∧
      (num : ℚ) / den = (p : ℚ) / q * (2 : ℚ) ^ (52 - binaryExponent p q) ∧
      roundFraction p q = ⟨(roundHalfEven num den : ℕ), binaryExponent p q - 52⟩ := by
  have hqpos : (0 : ℚ) < q := by exact_mod_cast hq
  by_cases hs : 0 ≤ 52 - binaryExponent p q
  · refine ⟨p * 2 ^ (52 - binaryExponent p q).toNat, q, hq, ?_, ?_⟩
    · rw [two_zpow_nonneg _ hs]
      push_cast
      ring
    · simp [roundFraction, hs]
  · refine ⟨p, q * 2 ^ (-(52 - binaryExponent p q)).toNat,
      Nat.mul_pos hq (Nat.pos_pow_of_pos _ (by norm_num)), ?_, ?_⟩
    · rw [two_zpow_neg _ (by omega)]
      push_cast
      field_simp
    · simp [roundFraction, hs]

theorem roundFraction_spec (p q : Nat) (hq : 1 ≤ q) :
    (roundFraction p q).val ≤ (p : ℚ) / q + (2 : ℚ) ^ (binaryExponent p q - 53) ∧
    (p : ℚ) / q - (2 : ℚ) ^ (binaryExponent p q - 53) ≤ (roundFraction p q).val ∧
    (∀ K : ℕ, (K : ℚ) ≤ (p : ℚ) / q * (2 : ℚ) ^ (52 - binaryExponent p q) →
      (K : ℚ) * (2 : ℚ) ^ (binaryExponent p q - 52) ≤ (roundFraction p q).val) := by
  obtain ⟨num, den, hden, hnd, hF⟩ := roundFraction_scaled p q hq
  obtain ⟨r1, r2, r3⟩ := roundHalfEven_spec num den hden
  have hdpos : (0 : ℚ) < den := by exact_mod_cast hden
  have hval : (roundFraction p q).val =
      (roundHalfEven num den : ℚ) * (2 : ℚ) ^ (binaryExponent p q - 52) := by
    rw [Float64.val_eq, hF]
    simp
  have hpow : (2 : ℚ) ^ (52 - binaryExponent p q) * (2 : ℚ) ^ (binaryExponent p q - 52) = 1 := by
    rw [← zpow_add₀ (by norm_num : (2 : ℚ) ≠ 0)]
    simp
  have hhalf : (2 : ℚ) ^ (binaryExponent p q - 53) =
      (1 / 2) * (2 : ℚ) ^ (binaryExponent p q - 52) := by
    rw [show binaryExponent p q - 53 = (binaryExponent p q - 52) + (-1) by ring,
      zpow_add₀ (by norm_num : (2 : ℚ) ≠ 0)]
    norm_num
    ring
  have hP := two_zpow_pos (binaryExponent p q - 52)
  have hpq : (p : ℚ) / q = (num : ℚ) / den * (2 : ℚ) ^ (binaryExponent p q - 52) := by
    rw [hnd, mul_assoc, hpow, mul_one]
  have q1 : (num : ℚ) / den ≤ (roundHalfEven num den : ℚ) + 1 / 2 := by
    rw [div_le_iff₀ hdpos]
    have : ((2 * num : ℕ) : ℚ) ≤ ((2 * (roundHalfEven num den * den) + den : ℕ) : ℚ) := by
      exact_mod_cast r1
    push_cast at this
    linarith
  have q2 : (roundHalfEven num den : ℚ) ≤ (num : ℚ) / den + 1 / 2 := by
    have : ((2 * (roundHalfEven num den * den) : ℕ) : ℚ) ≤ ((2 * num + den : ℕ) : ℚ) := by
      exact_mod_cast r2
    push_cast at this
    have h3 : (num : ℚ) / den + 1 / 2 = ((2 : ℚ) * num + den) / (2 * den) := by
      field_simp
      ring
    rw [h3, le_div_iff₀ (by positivity)]
    linarith
  refine ⟨?_, ?_, ?_⟩
  · rw [hval, hpq, hhalf]
    nlinarith
  · rw [hval, hpq, hhalf]
    nlinarith
  · intro K hK
    rw [hval]
    apply mul_le_mul_of_nonneg_right _ (le_of_lt hP)
    rw [← hnd, le_div_iff₀ hdpos] at hK
    have hK2 : K * den ≤ num := by exact_mod_cast hK
    have : K ≤ num / den := (Nat.le_div_iff_mul_le hden).2 hK2
    exact_mod_cast le_trans this r3

theorem two_zpow_mono (a b : Int) (h : a ≤ b) : (2 : ℚ) ^ a ≤ (2 : ℚ) ^ b :=
  zpow_le_of_le (by norm_num) h

theorem exponent_lt (E k : Int) (x : ℚ) (h1 : (2 : ℚ) ^ E ≤ x) (h2 : x < (2 : ℚ) ^ k) :
    E < k := by
  by_contra h
  have := two_zpow_mono k E (by omega)
  linarith

theorem roundHalfEven_one (n : Nat) : roundHalfEven n 1 = n := by
  simp [roundHalfEven, Nat.mod_one]

theorem natAbs_cast (n : Int) (h : 0 ≤ n) : ((n.natAbs : ℕ) : ℚ) = (n : ℚ) := by
  have : ((n.natAbs : ℕ) : ℤ) = n := Int.natAbs_of_nonneg h
  rw [← Int.cast_natCast, this]

theorem Float64.val_zero : (⟨0, 0⟩ : Float64).val = 0 := by
  simp [Float64.val, Float64.num]

/-- What rounding a positive fraction gives: the exponent brackets the
fraction, the result is within half a unit in the last place, and it is not
below any multiple of that unit that the fraction is not below. -/
theorem roundRat_pos (n : Int) (q : Nat) (hn : 0 < n) (hq : 1 ≤ q) :
    ∃ E : Int, (2 : ℚ) ^ E ≤ (n : ℚ) / q ∧ (n : ℚ) / q < (2 : ℚ) ^ (E + 1) ∧
      (roundRat n q).val ≤ (n : ℚ) / q + (2 : ℚ) ^ (E - 53) ∧
      (n : ℚ) / q - (2 : ℚ) ^ (E - 53) ≤ (roundRat n q).val ∧
      (∀ K : ℕ, (K : ℚ) ≤ (n : ℚ) / q * (2 : ℚ) ^ (52 - E) →
        (K : ℚ) * (2 : ℚ) ^ (E - 52) ≤ (roundRat n q).val) := by
  have hne : n ≠ 0 := by omega
  have hp : 1 ≤ n.natAbs := by omega
  have hcast : ((n.natAbs : ℕ) : ℚ) = (n : ℚ) := natAbs_cast n (le_of_lt hn)
  have hR : roundRat n q = roundFraction n.natAbs q := by
    simp [roundRat, hne, hn]
  obtain ⟨e1, e2⟩ := binaryExponent_spec n.natAbs q hp hq
  obtain ⟨s1, s2, s3⟩ := roundFraction_spec n.natAbs q hq
  rw [hcast] at e1 e2 s1 s2 s3
  exact ⟨binaryExponent n.natAbs q, e1, e2, by rw [hR]; exact s1, by rw [hR]; exact s2,
    by rw [hR]; exact s3⟩

theorem roundRat_zero (q : Nat) : roundRat 0 q = ⟨0, 0⟩ := by
  simp [roundRat]

/-- Integers below 2^53 convert to `float64` exactly. -/
theorem Float64.ofInt_val (n : Int) (h0 : 0 ≤ n) (h1 : n < 2 ^ 53) :
    (Float64.ofInt n).val = n := by
  unfold Float64.ofInt
  by_cases hz : n = 0
  · subst hz
    rw [roundRat_zero, Float64.val_zero]
    simp
  · have hn : 0 < n := by omega
    have hp : 1 ≤ n.natAbs := by omega
    have hcast : ((n.natAbs : ℕ) : ℚ) = (n : ℚ) := natAbs_cast n h0
    have hR : roundRat n 1 = roundFraction n.natAbs 1 := by
      simp [roundRat, hz, hn]
    obtain ⟨e1, e2⟩ := binaryExponent_spec n.natAbs 1 hp (le_refl _)
    simp only [Nat.cast_one, div_one] at e1 e2
    have hlt : (n.natAbs : ℚ) < (2 : ℚ) ^ (53 : ℤ) := by
      rw [hcast, show (2 : ℚ) ^ (53 : ℤ) = 9007199254740992 by norm_num]
      have h1' : n < 9007199254740992 := by norm_num at h1; exact h1
      exact_mod_cast h1'
    have hE := exponent_lt _ 53 _ e1 hlt
    have hs : 0 ≤ 52 - binaryExponent n.natAbs 1 := by omega
    have hm : (((n.natAbs * 2 ^ (52 - binaryExponent n.natAbs 1).toNat : ℕ) : ℤ) : ℚ) =
        (n : ℚ) * (2 : ℚ) ^ (52 - binaryExponent n.natAbs 1) := by
      rw [Int.cast_natCast, Nat.cast_mul, hcast, two_zpow_nonneg _ hs]
    rw [hR, Float64.val_eq]
    simp only [roundFraction, hs, if_true, roundHalfEven_one]
    rw [hm, mul_assoc, ← zpow_add₀ (by norm_num : (2 : ℚ) ≠ 0)]
    simp

theorem roundRat_upper (n : Int) (q : Nat) (hn : 0 ≤ n) (hq : 1 ≤ q) (k : Int)
    (hx : (n : ℚ) / q < (2 : ℚ) ^ k) :
    (roundRat n q).val ≤ (n : ℚ) / q + (2 : ℚ) ^ (k - 54) := by
  by_cases hz : n = 0
  · subst hz
    rw [roundRat_zero, Float64.val_zero]
    have := two_zpow_pos (k - 54)
    simp only [Int.cast_zero, zero_div, zero_add]
    exact le_of_lt this
  · obtain ⟨E, e1, _, s1, _, _⟩ := roundRat_pos n q (by omega) hq
    have hE := exponent_lt E k _ e1 hx
    have := two_zpow_mono (E - 53) (k - 54) (by omega)
    linarith

theorem roundRat_floor (n : Int) (q : Nat) (hn : 0 ≤ n) (hq : 1 ≤ q) (S : ℕ)
    (hS : (S : ℚ) ≤ (n : ℚ) / q) (hx : (n : ℚ) / q < (2 : ℚ) ^ (53 : ℤ)) :
    (S : ℚ) ≤ (roundRat n q).val := by
  by_cases hz : n = 0
  · subst hz
    rw [roundRat_zero, Float64.val_zero]
    simpa using hS
  · obtain ⟨E, e1, _, _, _, s3⟩ := roundRat_pos n q (by omega) hq
    have hE := exponent_lt E 53 _ e1 hx
    have hs : 0 ≤ 52 - E := by omega
    have hK := s3 (S * 2 ^ (52 - E).toNat) (by
      rw [Nat.cast_mul, ← two_zpow_nonneg _ hs]
      exact mul_le_mul_of_nonneg_right hS (le_of_lt (two_zpow_pos _)))
    rw [Nat.cast_mul, ← two_zpow_nonneg _ hs, mul_assoc,
      ← zpow_add₀ (by norm_num : (2 : ℚ) ≠ 0)] at hK
    simpa using hK

theorem Float64.add_exact (a b : Float64) :
    ((a.num * b.den + b.num * a.den : ℤ) : ℚ) / ((a.den * b.den : ℕ) : ℚ) = a.val + b.val := by
  have ha : (a.den : ℚ) ≠ 0 := by exact_mod_cast (Nat.pos_iff_ne_zero.1 a.den_pos)
  have hb : (b.den : ℚ) ≠ 0 := by exact_mod_cast (Nat.pos_iff_ne_zero.1 b.den_pos)
  unfold Float64.val
  push_cast
  field_simp

theorem Float64.num_pos (a : Float64) (h : 0 < a.val) : 0 < a.num := by
  unfold Float64.val at h
  have hd : (0 : ℚ) < a.den := by exact_mod_cast a.den_pos
  have := (div_pos_iff_of_pos_right hd).1 h
  exact_mod_cast this

theorem Float64.num_nonneg (a : Float64) (h : 0 ≤ a.val) : 0 ≤ a.num := by
  unfold Float64.val at h
  have hd : (0 : ℚ) < a.den := by exact_mod_cast a.den_pos
  have : (0 : ℚ) ≤ a.num := by
    by_contra hneg
    have := div_neg_of_neg_of_pos (lt_of_not_le hneg) hd
    linarith
  exact_mod_cast this

theorem Float64.div_exact (a b : Float64) (hb : 0 < b.num) :
    ((a.num * b.den * b.num.sign : ℤ) : ℚ) / ((a.den * b.num.natAbs : ℕ) : ℚ) =
      a.val / b.val := by
  have ha : (a.den : ℚ) ≠ 0 := by exact_mod_cast (Nat.pos_iff_ne_zero.1 a.den_pos)
  have hbd : (b.den : ℚ) ≠ 0 := by exact_mod_cast (Nat.pos_iff_ne_zero.1 b.den_pos)
  have hbn : (b.num : ℚ) ≠ 0 := by
    have : (0 : ℚ) < b.num := by exact_mod_cast hb
    exact ne_of_gt this
  rw [Int.sign_eq_one_of_pos hb, Nat.cast_mul, natAbs_cast b.num (le_of_lt hb)]
  unfold Float64.val
  push_cast
  field_simp

theorem int_nonneg_of_div (N : ℤ) (Q : ℕ) (hQ : 0 < Q) (h : (0 : ℚ) ≤ (N : ℚ) / Q) :
    0 ≤ N := by
  have hd : (0 : ℚ) < Q := by exact_mod_cast hQ
  have : (0 : ℚ) ≤ N := by
    by_contra hneg
    have := div_neg_of_neg_of_pos (lt_of_not_le hneg) hd
    linarith
  exact_mod_cast this

theorem Float64.toInt_of_bounds (y : Float64) (S : Int) (hS : 0 ≤ S)
    (h1 : (S : ℚ) ≤ y.val) (h2 : y.val < S + 1) : y.toInt = S := by
  have hS' : (0 : ℚ) ≤ S := by exact_mod_cast hS
  have hn := y.num_nonneg (le_trans hS' h1)
  have hd : (0 : ℚ) < y.den := by exact_mod_cast y.den_pos
  have hdi : (0 : ℤ) < (y.den : ℤ) := by exact_mod_cast y.den_pos
  unfold Float64.val at h1 h2
  rw [le_div_iff₀ hd] at h1
  rw [div_lt_iff₀ hd] at h2
  have h1' : S * (y.den : ℤ) ≤ y.num := by exact_mod_cast h1
  have h2' : y.num < (S + 1) * (y.den : ℤ) := by exact_mod_cast h2
  unfold Float64.toInt
  rw [Int.tdiv_eq_ediv hn (le_of_lt hdi)]
  have a1 := Int.le_ediv_of_mul_le hdi h1'
  have a2 := Int.ediv_lt_of_lt_mul hdi h2'
  omega

/-- For a non-negative interval below 2^24 seconds, `int(d.Seconds())` is the
whole number of seconds in `d`. -/
theorem Seconds_toInt_nonneg (d : Int) (h0 : 0 ≤ d) (h1 : d < 16777216000000000) :
    (Duration.Seconds d).toInt = Int.tdiv d 1000000000 := by
  have hsec : Int.tdiv d 1000000000 = d / 1000000000 := Int.tdiv_eq_ediv h0 (by norm_num)
  have hnsec : Int.tmod d 1000000000 = d % 1000000000 := Int.tmod_eq_emod h0 (by norm_num)
  unfold Duration.Seconds
  simp only
  rw [hsec, hnsec]
  have hb : 0 ≤ d / 1000000000 ∧ d / 1000000000 < 16777216 ∧ 0 ≤ d % 1000000000 ∧
      d % 1000000000 < 1000000000 := by omega
  obtain ⟨b1, b2, b3, b4⟩ := hb
  generalize d / 1000000000 = sec at b1 b2 ⊢
  generalize d % 1000000000 = nsec at b3 b4 ⊢
  have hA : (Float64.ofInt sec).val = sec := Float64.ofInt_val sec b1 (by omega)
  have hB : (Float64.ofInt nsec).val = nsec := Float64.ofInt_val nsec b3 (by omega)
  have hC : (Float64.ofInt 1000000000).val = 1000000000 := by
    have := Float64.ofInt_val 1000000000 (by norm_num) (by norm_num)
    simpa using this
  have hCnum : 0 < (Float64.ofInt 1000000000).num :=
    Float64.num_pos _ (by rw [hC]; norm_num)
  have hsecq : (0 : ℚ) ≤ sec := by exact_mod_cast b1
  have hsecq2 : (sec : ℚ) ≤ 16777215 := by
    have : sec ≤ 16777215 := by omega
    exact_mod_cast this
  have hnq : (0 : ℚ) ≤ nsec := by exact_mod_cast b3
  have hnq2 : (nsec : ℚ) ≤ 999999999 := by
    have : nsec ≤ 999999999 := by omega
    exact_mod_cast this
  -- the quotient
  have hfx := Float64.div_exact (Float64.ofInt nsec) (Float64.ofInt 1000000000) hCnum
  rw [hB, hC] at hfx
  have hfq : 1 ≤ (Float64.ofInt nsec).den * (Float64.ofInt 1000000000).num.natAbs :=
    Nat.mul_pos (Float64.den_pos _) (by omega)
  have hfn := int_nonneg_of_div _ _ hfq (by rw [hfx]; positivity)
  have hf0 : (0 : ℚ) ≤ ((Float64.ofInt nsec).div (Float64.ofInt 1000000000)).val := by
    have := roundRat_floor _ _ hfn hfq 0 (by rw [hfx]; simp; positivity)
      (by rw [hfx]; norm_num; linarith)
    simpa [Float64.div] using this
  have hf1 : ((Float64.ofInt nsec).div (Float64.ofInt 1000000000)).val ≤
      (nsec : ℚ) / 1000000000 + (2 : ℚ) ^ ((0 : ℤ) - 54) := by
    have := roundRat_upper _ _ hfn hfq 0 (by
      rw [hfx, zpow_zero, div_lt_one (by norm_num)]
      linarith)
    rw [hfx] at this
    exact this
  generalize (Float64.ofInt nsec).div (Float64.ofInt 1000000000) = f at hf0 hf1 ⊢
  -- the sum
  have hyx := Float64.add_exact (Float64.ofInt sec) f
  rw [hA] at hyx
  have hyq : 1 ≤ (Float64.ofInt sec).den * f.den :=
    Nat.mul_pos (Float64.den_pos _) (Float64.den_pos _)
  have hyn := int_nonneg_of_div _ _ hyq (by rw [hyx]; positivity)
  have hfle : f.val ≤ 999999999 / 1000000000 + (2 : ℚ) ^ ((0 : ℤ) - 54) := by
    have : (nsec : ℚ) / 1000000000 ≤ 999999999 / 1000000000 :=
      div_le_div_of_nonneg_right hnq2 (by norm_num)
    linarith
  have hp54 : (2 : ℚ) ^ ((0 : ℤ) - 54) = 1 / 18014398509481984 := by norm_num
  have hp30 : (2 : ℚ) ^ ((24 : ℤ) - 54) = 1 / 1073741824 := by norm_num
  have hp53 : (2 : ℚ) ^ (53 : ℤ) = 9007199254740992 := by norm_num
  have hp24 : (2 : ℚ) ^ (24 : ℤ) = 16777216 := by norm_num
  rw [hp54] at hfle
  have hc : ((sec.toNat : ℕ) : ℚ) = sec := by
    have : ((sec.toNat : ℕ) : ℤ) = sec := Int.toNat_of_nonneg b1
    rw [← Int.cast_natCast, this]
  have hlow : (sec : ℚ) ≤ ((Float64.ofInt sec).add f).val := by
    have := roundRat_floor _ _ hyn hyq sec.toNat (by rw [hyx, hc]; linarith)
      (by rw [hyx, hp53]; linarith)
    rw [hc] at this
    exact this
  have hup : ((Float64.ofInt sec).add f).val ≤ (sec : ℚ) + f.val + (2 : ℚ) ^ ((24 : ℤ) - 54) := by
    have := roundRat_upper _ _ hyn hyq 24 (by rw [hyx, hp24]; linarith)
    rw [hyx] at this
    exact this
  rw [hp30] at hup
  exact Float64.toInt_of_bounds _ sec b1 hlow (by linarith)

theorem roundRat_neg (n : Int) (q : Nat) : roundRat (-n) q = (roundRat n q).neg := by
  rcases lt_trichotomy n 0 with h | h | h
  · have h1 : ¬ -n = 0 := by omega
    have h2 : 0 < -n := by omega
    have h3 : ¬ n = 0 := by omega
    have h4 : ¬ 0 < n := by omega
    simp [roundRat, h1, h2, h3, h4, Float64.neg]
  · subst h
    simp [roundRat, Float64.neg]
  · have h1 : ¬ -n = 0 := by omega
    have h2 : ¬ 0 < -n := by omega
    have h3 : ¬ n = 0 := by omega
    simp [roundRat, h1, h2, h3, h, Float64.neg]

theorem Float64.neg_num (a : Float64) : a.neg.num = -a.num := by
  unfold Float64.neg Float64.num
  simp only
  split <;> simp

theorem Float64.neg_den (a : Float64) : a.neg.den = a.den := rfl

theorem Float64.ofInt_neg (n : Int) : Float64.ofInt (-n) = (Float64.ofInt n).neg :=
  roundRat_neg n 1

theorem Float64.neg_div (a b : Float64) : a.neg.div b = (a.div b).neg := by
  unfold Float64.div
  rw [Float64.neg_num, Float64.neg_den, ← roundRat_neg]
  congr 1
  ring

theorem Float64.neg_add_neg (a b : Float64) : a.neg.add b.neg = (a.add b).neg := by
  unfold Float64.add
  rw [Float64.neg_num, Float64.neg_num, Float64.neg_den, Float64.neg_den, ← roundRat_neg]
  congr 1
  ring

theorem Float64.neg_toInt (a : Float64) : a.neg.toInt = -a.toInt := by
  unfold Float64.toInt
  rw [Float64.neg_num, Float64.neg_den, Int.neg_tdiv]

theorem Seconds_neg (d : Int) : Duration.Seconds (-d) = (Duration.Seconds d).neg := by
  have h1 : Int.tdiv (-d) 1000000000 = -Int.tdiv d 1000000000 := Int.neg_tdiv _ _
  have h2 : Int.tmod (-d) 1000000000 = -Int.tmod d 1000000000 := by
    rw [Int.tmod_def, Int.tmod_def, h1]
    ring
  unfold Duration.Seconds
  simp only
  rw [h1, h2, Float64.ofInt_neg, Float64.ofInt_neg, Float64.neg_div, Float64.neg_add_neg]

/-- For an interval below 2^24 seconds in magnitude, `int(d.Seconds())` is the
whole number of seconds in `d`, truncated toward zero. -/
theorem Seconds_toInt (d : Int) (h0 : -16777216000000000 < d) (h1 : d < 16777216000000000) :
    (Duration.Seconds d).toInt = Int.tdiv d 1000000000 := by
  by_cases h : 0 ≤ d
  · exact Seconds_toInt_nonneg d h h1
  · have := Seconds_toInt_nonneg (-d) (by omega) (by omega)
    rw [Seconds_neg, Float64.neg_toInt, Int.neg_tdiv] at this
    omega

/-! ## Theorems: rounding to `float64` and `random` -/

theorem scaledRound_spec (p q : Nat) (hq : 1 ≤ q) (k : Int) :
    (scaledRound p q k : ℚ) ≤ (p : ℚ) / q * (2 : ℚ) ^ (-k) + 1 / 2 ∧
    (∀ N : ℕ, (p : ℚ) / q * (2 : ℚ) ^ (-k) ≤ N → scaledRound p q k ≤ N) := by
  have hqpos : (0 : ℚ) < q := by exact_mod_cast hq
  have key : ∀ num den : ℕ, 0 < den →
      ((roundHalfEven num den : ℕ) : ℚ) ≤ (num : ℚ) / den + 1 / 2 ∧
      (∀ N : ℕ, (num : ℚ) / den ≤ N → roundHalfEven num den ≤ N) := by
    intro num den hden
    obtain ⟨h1, h2, h3⟩ := roundHalfEven_spec num den hden
    have hd : (0 : ℚ) < den := by exact_mod_cast hden
    have h2' : (2 : ℚ) * (roundHalfEven num den * den) ≤ 2 * num + den := by exact_mod_cast h2
    constructor
    · rw [div_add_div _ _ (ne_of_gt hd) (by norm_num), le_div_iff (by positivity)]
      nlinarith
    · intro N hN
      rw [div_le_iff hd] at hN
      have hN' : num ≤ N * den := by exact_mod_cast hN
      by_contra hcon
      push_neg at hcon
      have : (N + 1) * den ≤ roundHalfEven num den * den := Nat.mul_le_mul_right _ hcon
      have h4 : (N + 1) * den = N * den + den := by ring
      omega
  unfold scaledRound
  split_ifs with hk
  · have hpow : (2 : ℚ) ^ (-k) = ((2 ^ (-k).toNat : ℕ) : ℚ) := two_zpow_nonneg (-k) (by omega)
    obtain ⟨k1, k2⟩ := key (p * 2 ^ (-k).toNat) q hq
    have e : ((p * 2 ^ (-k).toNat : ℕ) : ℚ) / q = (p : ℚ) / q * (2 : ℚ) ^ (-k) := by
      rw [hpow]; push_cast; ring
    rw [e] at k1 k2
    exact ⟨k1, k2⟩
  · have hpos : 0 < k := by omega
    have hpow : (2 : ℚ) ^ (-k) = 1 / ((2 ^ (- -k).toNat : ℕ) : ℚ) := two_zpow_neg (-k) (by omega)
    rw [neg_neg] at hpow
    have hden : 0 < q * 2 ^ k.toNat := Nat.mul_pos hq (by positivity)
    obtain ⟨k1, k2⟩ := key p (q * 2 ^ k.toNat) hden
    have e : (p : ℚ) / ((q * 2 ^ k.toNat : ℕ) : ℚ) = (p : ℚ) / q * (2 : ℚ) ^ (-k) := by
      rw [hpow]; push_cast; field_simp
    rw [e] at k1 k2
    exact ⟨k1, k2⟩

theorem GoFloat64.neg_neg (a : GoFloat64) : a.neg.neg = a := by
  cases a <;> simp [GoFloat64.neg]

theorem roundFloat64_neg (x : ℚ) : roundFloat64 (-x) = (roundFloat64 x).neg := by
  unfold roundFloat64
  rcases lt_trichotomy x 0 with h | h | h
  · have h1 : ¬ x = 0 := ne_of_lt h
    have h2 : ¬ (0 < x) := not_lt.mpr (le_of_lt h)
    have h3 : ¬ (-x = 0) := by simpa using h1
    have h4 : 0 < -x := by linarith
    simp only [h1, h2, h3, h4, if_true, if_false, Rat.neg_num, Rat.neg_den, Int.natAbs_neg,
      GoFloat64.neg_neg]
  · subst h
    simp [GoFloat64.neg]
  · have h1 : ¬ x = 0 := ne_of_gt h
    have h3 : ¬ (-x = 0) := by simpa using h1
    have h4 : ¬ (0 < -x) := by linarith
    simp only [h1, h, h3, h4, if_true, if_false, Rat.neg_num, Rat.neg_den, Int.natAbs_neg]

theorem roundFloat64_pos (x : ℚ) (hx : 0 < x) :
    ∃ (m : ℕ) (e : ℤ), (2 : ℚ) ^ e ≤ x ∧ x < (2 : ℚ) ^ (e + 1) ∧
      (m : ℚ) ≤ x * (2 : ℚ) ^ (52 - max e (-1022)) + 1 / 2 ∧
      (∀ N : ℕ, x * (2 : ℚ) ^ (52 - max e (-1022)) ≤ N → m ≤ N) ∧
      roundFloat64 x =
        if (2 : ℚ) ^ (1024 : ℤ) ≤ (m : ℚ) * (2 : ℚ) ^ (max e (-1022) - 52) then .inf false
        else .finite ((m : ℚ) * (2 : ℚ) ^ (max e (-1022) - 52)) := by
  have hnum : 0 < x.num := Rat.num_pos.mpr hx
  have hq : 1 ≤ x.den := x.den_pos
  have hp : 1 ≤ x.num.natAbs := by omega
  have hxe : ((x.num.natAbs : ℕ) : ℚ) / (x.den : ℚ) = x := by
    rw [natAbs_cast _ (le_of_lt hnum)]
    exact Rat.num_div_den x
  obtain ⟨b1, b2⟩ := binaryExponent_spec x.num.natAbs x.den hp hq
  obtain ⟨s1, s2⟩ := scaledRound_spec x.num.natAbs x.den hq (ulpExponent x.num.natAbs x.den)
  rw [hxe] at b1 b2 s1 s2
  have hk : -ulpExponent x.num.natAbs x.den =
      52 - max (binaryExponent x.num.natAbs x.den) (-1022) := by
    unfold ulpExponent; ring
  rw [hk] at s1 s2
  refine ⟨scaledRound x.num.natAbs x.den (ulpExponent x.num.natAbs x.den),
    binaryExponent x.num.natAbs x.den, b1, b2, s1, s2, ?_⟩
  unfold roundFloat64
  rw [if_neg (ne_of_gt hx), if_pos hx]
  rfl

theorem roundFloat64_zero : roundFloat64 0 = .finite 0 := by
  simp [roundFloat64]

theorem roundFloat64_lt (x B : ℚ) (hx : 0 < x) (hxB : x ≤ B * (1 - (2 : ℚ) ^ (-53 : ℤ)))
    (hBn : (2 : ℚ) ^ (-1022 : ℤ) < B) (hBf : B < (2 : ℚ) ^ (1024 : ℤ)) :
    ∃ y, roundFloat64 x = .finite y ∧ 0 ≤ y ∧ y < B := by
  obtain ⟨m, e, h1, h2, h3, _, h5⟩ := roundFloat64_pos x hx
  have hBpos : 0 < B := lt_trans (two_zpow_pos _) hBn
  have hxltB : x < B := by
    have : (0 : ℚ) < (2 : ℚ) ^ (-53 : ℤ) := two_zpow_pos _
    nlinarith
  have hE : (2 : ℚ) ^ (max e (-1022)) < B := by
    rcases max_cases e (-1022) with ⟨hm, _⟩ | ⟨hm, _⟩
    · rw [hm]; exact lt_of_le_of_lt h1 hxltB
    · rw [hm]; exact hBn
  have hs : (0 : ℚ) < (2 : ℚ) ^ (52 - max e (-1022)) := two_zpow_pos _
  have hT : (2 : ℚ) ^ (52 : ℤ) < B * (2 : ℚ) ^ (52 - max e (-1022)) := by
    have : (2 : ℚ) ^ (52 : ℤ) = (2 : ℚ) ^ (max e (-1022)) * (2 : ℚ) ^ (52 - max e (-1022)) := by
      rw [← zpow_add₀ (by norm_num : (2 : ℚ) ≠ 0)]; congr 1; ring
    rw [this]
    exact mul_lt_mul_of_pos_right hE hs
  have hm : (m : ℚ) < B * (2 : ℚ) ^ (52 - max e (-1022)) := by
    have hx2 : x * (2 : ℚ) ^ (52 - max e (-1022)) ≤
        B * (1 - (2 : ℚ) ^ (-53 : ℤ)) * (2 : ℚ) ^ (52 - max e (-1022)) :=
      mul_le_mul_of_nonneg_right hxB (le_of_lt hs)
    have h53 : (2 : ℚ) ^ (52 : ℤ) * (2 : ℚ) ^ (-53 : ℤ) = 1 / 2 := by norm_num
    have h53pos : (0 : ℚ) < (2 : ℚ) ^ (-53 : ℤ) := two_zpow_pos _
    have hTc := mul_lt_mul_of_pos_right hT h53pos
    rw [h53] at hTc
    have hexp : B * (1 - (2 : ℚ) ^ (-53 : ℤ)) * (2 : ℚ) ^ (52 - max e (-1022)) =
        B * (2 : ℚ) ^ (52 - max e (-1022)) -
          B * (2 : ℚ) ^ (52 - max e (-1022)) * (2 : ℚ) ^ (-53 : ℤ) := by ring
    rw [hexp] at hx2
    generalize B * (2 : ℚ) ^ (52 - max e (-1022)) * (2 : ℚ) ^ (-53 : ℤ) = c at hx2 hTc
    generalize B * (2 : ℚ) ^ (52 - max e (-1022)) = T at hx2 ⊢
    generalize x * (2 : ℚ) ^ (52 - max e (-1022)) = X at hx2 h3
    linarith
  have hy : (m : ℚ) * (2 : ℚ) ^ (max e (-1022) - 52) < B := by
    have hk : (0 : ℚ) < (2 : ℚ) ^ (max e (-1022) - 52) := two_zpow_pos _
    have : B = B * (2 : ℚ) ^ (52 - max e (-1022)) * (2 : ℚ) ^ (max e (-1022) - 52) := by
      rw [mul_assoc, ← zpow_add₀ (by norm_num : (2 : ℚ) ≠ 0)]
      rw [show (52 - max e (-1022) + (max e (-1022) - 52)) = 0 by ring]
      simp
    rw [this]
    exact mul_lt_mul_of_pos_right hm hk
  refine ⟨(m : ℚ) * (2 : ℚ) ^ (max e (-1022) - 52), ?_, ?_, hy⟩
  · rw [h5, if_neg]
    exact not_le.mpr (lt_trans hy hBf)
  · exact mul_nonneg (Nat.cast_nonneg m) (le_of_lt (two_zpow_pos _))

theorem roundFloat64_le (x B : ℚ) (hx : 0 < x) (hxB : x ≤ B)
    (hB : roundFloat64 B = .finite B) :
    ∃ y, roundFloat64 x = .finite y ∧ 0 ≤ y ∧ y ≤ B := by
  have hBpos : 0 < B := lt_of_lt_of_le hx hxB
  obtain ⟨m, e, h1, h2, _, h4, h5⟩ := roundFloat64_pos x hx
  obtain ⟨mB, eB, g1, g2, _, _, g5⟩ := roundFloat64_pos B hBpos
  rw [g5] at hB
  have hfin : ¬ (2 : ℚ) ^ (1024 : ℤ) ≤ (mB : ℚ) * (2 : ℚ) ^ (max eB (-1022) - 52) := by
    intro hc
    rw [if_pos hc] at hB
    exact GoFloat64.noConfusion hB
  rw [if_neg hfin] at hB
  have hBeq : (mB : ℚ) * (2 : ℚ) ^ (max eB (-1022) - 52) = B := GoFloat64.finite.inj hB
  have hee : e ≤ eB := by
    have := exponent_lt e (eB + 1) x h1 (lt_of_le_of_lt hxB g2)
    omega
  have hkk : max e (-1022) ≤ max eB (-1022) := max_le_max hee (le_refl _)
  have hpow : (2 : ℚ) ^ (max eB (-1022) - max e (-1022)) =
      ((2 ^ (max eB (-1022) - max e (-1022)).toNat : ℕ) : ℚ) :=
    two_zpow_nonneg _ (by omega)
  have hN : B * (2 : ℚ) ^ (52 - max e (-1022)) =
      ((mB * 2 ^ (max eB (-1022) - max e (-1022)).toNat : ℕ) : ℚ) := by
    rw [← hBeq, mul_assoc, ← zpow_add₀ (by norm_num : (2 : ℚ) ≠ 0)]
    rw [show (max eB (-1022) - 52 + (52 - max e (-1022))) =
      max eB (-1022) - max e (-1022) by ring, hpow]
    push_cast
    ring
  have hs : (0 : ℚ) < (2 : ℚ) ^ (52 - max e (-1022)) := two_zpow_pos _
  have hmN : m ≤ mB * 2 ^ (max eB (-1022) - max e (-1022)).toNat := by
    apply h4
    rw [← hN]
    exact mul_le_mul_of_nonneg_right hxB (le_of_lt hs)
  have hk : (0 : ℚ) < (2 : ℚ) ^ (max e (-1022) - 52) := two_zpow_pos _
  have hy : (m : ℚ) * (2 : ℚ) ^ (max e (-1022) - 52) ≤ B := by
    have hB2 : B = B * (2 : ℚ) ^ (52 - max e (-1022)) * (2 : ℚ) ^ (max e (-1022) - 52) := by
      rw [mul_assoc, ← zpow_add₀ (by norm_num : (2 : ℚ) ≠ 0)]
      rw [show (52 - max e (-1022) + (max e (-1022) - 52)) = 0 by ring]
      simp
    rw [hB2, hN]
    apply mul_le_mul_of_nonneg_right _ (le_of_lt hk)
    exact_mod_cast hmN
  refine ⟨(m : ℚ) * (2 : ℚ) ^ (max e (-1022) - 52), ?_, ?_, hy⟩
  · rw [h5, if_neg]
    intro hc
    apply hfin
    rw [hBeq]
    exact le_trans hc hy
  · exact mul_nonneg (Nat.cast_nonneg m) (le_of_lt hk)

theorem draw_le (r : ℚ) (hr : roundFloat64 r = .finite r) (h0 : 0 < r) (h1 : r < 1) :
    r ≤ 1 - (2 : ℚ) ^ (-53 : ℤ) := by
  obtain ⟨m, e, g1, g2, _, _, g5⟩ := roundFloat64_pos r h0
  have he : e < 0 := by
    have := exponent_lt e 0 r g1 (by simpa using h1)
    exact this
  by_cases hcase : e = -1
  · subst hcase
    rw [g5] at hr
    have hfin : ¬ (2 : ℚ) ^ (1024 : ℤ) ≤ (m : ℚ) * (2 : ℚ) ^ (max (-1 : ℤ) (-1022) - 52) := by
      intro hc
      rw [if_pos hc] at hr
      exact GoFloat64.noConfusion hr
    rw [if_neg hfin] at hr
    have hreq : (m : ℚ) * (2 : ℚ) ^ (max (-1 : ℤ) (-1022) - 52) = r := GoFloat64.finite.inj hr
    have hmax : max (-1 : ℤ) (-1022) - 52 = -53 := by decide
    rw [hmax] at hreq
    have hm : (m : ℚ) < (2 : ℚ) ^ (53 : ℕ) := by
      have h53 : (2 : ℚ) ^ (-53 : ℤ) * (2 : ℚ) ^ (53 : ℕ) = 1 := by norm_num
      have hpos : (0 : ℚ) < (2 : ℚ) ^ (53 : ℕ) := by positivity
      have := mul_lt_mul_of_pos_right h1 hpos
      rw [← hreq, mul_assoc, h53] at this
      linarith
    have hm' : m < 2 ^ 53 := by exact_mod_cast hm
    have hm'' : (m : ℚ) ≤ (2 : ℚ) ^ (53 : ℕ) - 1 := by
      have : m + 1 ≤ 2 ^ 53 := hm'
      have h2 : ((m + 1 : ℕ) : ℚ) ≤ ((2 ^ 53 : ℕ) : ℚ) := by exact_mod_cast this
      push_cast at h2
      linarith
    rw [← hreq]
    have hpos : (0 : ℚ) < (2 : ℚ) ^ (-53 : ℤ) := two_zpow_pos _
    have := mul_le_mul_of_nonneg_right hm'' (le_of_lt hpos)
    have h53 : ((2 : ℚ) ^ (53 : ℕ) - 1) * (2 : ℚ) ^ (-53 : ℤ) = 1 - (2 : ℚ) ^ (-53 : ℤ) := by
      norm_num
    rw [h53] at this
    exact this
  · have he2 : e + 1 ≤ -1 := by omega
    have := lt_of_lt_of_le g2 (two_zpow_mono _ _ he2)
    have h53 : (2 : ℚ) ^ (-1 : ℤ) ≤ 1 - (2 : ℚ) ^ (-53 : ℤ) := by norm_num
    linarith

theorem roundFloat64_fraction (x : ℚ) (p q : ℕ) (hp : 0 < p) (hq : 0 < q)
    (hc : Nat.Coprime p q) (hx : x = (p : ℚ) / q) : roundFloat64 x = roundPositive p q := by
  have hnum : x.num = (p : ℤ) := by
    rw [hx]
    have := Rat.num_div_eq_of_coprime (a := (p : ℤ)) (b := (q : ℤ)) (by exact_mod_cast hq)
      (by simpa using hc)
    simpa using this
  have hden : x.den = q := by
    rw [hx]
    have := Rat.den_div_eq_of_coprime (a := (p : ℤ)) (b := (q : ℤ)) (by exact_mod_cast hq)
      (by simpa using hc)
    have h2 : (((p : ℤ) : ℚ) / ((q : ℤ) : ℚ)).den = q := by exact_mod_cast this
    simpa using h2
  have hpos : 0 < x := by
    rw [hx]
    exact div_pos (by exact_mod_cast hp) (by exact_mod_cast hq)
  unfold roundFloat64
  rw [if_neg (ne_of_gt hpos), if_pos hpos, hnum, hden]
  rfl

theorem roundPositive_eval (p q : ℕ) (k : ℤ) (m : ℕ) (hk : ulpExponent p q = k)
    (hm : scaledRound p q k = m) :
    roundPositive p q =
      if (2 : ℚ) ^ (1024 : ℤ) ≤ (m : ℚ) * (2 : ℚ) ^ k then .inf false
      else .finite ((m : ℚ) * (2 : ℚ) ^ k) := by
  subst hk
  subst hm
  rfl

theorem float64_lt_top (B : ℚ) (hpos : 0 < B) (hB : roundFloat64 B = .finite B) :
    B < (2 : ℚ) ^ (1024 : ℤ) := by
  obtain ⟨m, e, _, _, _, _, g5⟩ := roundFloat64_pos B hpos
  rw [g5] at hB
  by_cases hc : (2 : ℚ) ^ (1024 : ℤ) ≤ (m : ℚ) * (2 : ℚ) ^ (max e (-1022) - 52)
  · rw [if_pos hc] at hB
    exact GoFloat64.noConfusion hB
  · rw [if_neg hc] at hB
    have hBeq : (m : ℚ) * (2 : ℚ) ^ (max e (-1022) - 52) = B := GoFloat64.finite.inj hB
    rw [hBeq] at hc
    exact not_le.mp hc

theorem random_product (r max : ℚ) (hr : roundFloat64 r = .finite r) (hr0 : 0 ≤ r)
    (hr1 : r < 1) (hmax : roundFloat64 max = .finite max) :
    ∃ y : ℚ, roundFloat64 (r * max) = .finite y ∧
      ((2 : ℚ) ^ (-1022 : ℤ) < max → 0 ≤ y ∧ y < max) ∧
      (0 < max → 0 ≤ y ∧ y ≤ max) ∧
      (max ≤ 0 → max ≤ y ∧ y ≤ 0) := by
  have h1022 : (0 : ℚ) < (2 : ℚ) ^ (-1022 : ℤ) := two_zpow_pos _
  rcases eq_or_lt_of_le hr0 with h0 | h0
  · refine ⟨0, ?_, ?_, ?_, ?_⟩
    · rw [← h0, zero_mul]; exact roundFloat64_zero
    · intro h; exact ⟨le_refl _, lt_trans h1022 h⟩
    · intro h; exact ⟨le_refl _, le_of_lt h⟩
    · intro h; exact ⟨h, le_refl _⟩
  · have hrle := draw_le r hr h0 hr1
    rcases lt_trichotomy max 0 with hm | hm | hm
    · have hmax2 : roundFloat64 (-max) = .finite (-max) := by
        rw [roundFloat64_neg, hmax]; rfl
      have hx : 0 < r * (-max) := mul_pos h0 (by linarith)
      have hxB : r * (-max) ≤ -max := by nlinarith
      obtain ⟨y, g1, g2, g3⟩ := roundFloat64_le (r * (-max)) (-max) hx hxB hmax2
      refine ⟨-y, ?_, ?_, ?_, ?_⟩
      · have : r * max = -(r * (-max)) := by ring
        rw [this, roundFloat64_neg, g1]; rfl
      · intro h; linarith
      · intro h; linarith
      · intro _; constructor <;> linarith
    · refine ⟨0, ?_, ?_, ?_, ?_⟩
      · rw [hm, mul_zero]; exact roundFloat64_zero
      · intro h; linarith
      · intro h; linarith
      · intro _; rw [hm]; exact ⟨le_refl _, le_refl _⟩
    · have hx : 0 < r * max := mul_pos h0 hm
      have hxB : r * max ≤ max := by nlinarith
      obtain ⟨y, g1, g2, g3⟩ := roundFloat64_le (r * max) max hx hxB hmax
      refine ⟨y, g1, ?_, ?_, ?_⟩
      · intro hn
        have hxB2 : r * max ≤ max * (1 - (2 : ℚ) ^ (-53 : ℤ)) := by
          rw [mul_comm r max]
          exact mul_le_mul_of_nonneg_left hrle (le_of_lt hm)
        obtain ⟨y2, k1, k2, k3⟩ := roundFloat64_lt (r * max) max hx hxB2 hn
          (float64_lt_top max hm hmax)
        rw [g1] at k1
        have : y = y2 := GoFloat64.finite.inj k1
        rw [this]
        exact ⟨k2, k3⟩
      · intro _; exact ⟨g2, g3⟩
      · intro h; linarith

theorem roundFloat64_half : roundFloat64 (1 / 2) = .finite (1 / 2) := by
  rw [roundFloat64_fraction (1 / 2) 1 2 (by decide) (by decide) (by decide) (by norm_num),
    roundPositive_eval 1 2 (-53) (2 ^ 52) (by decide) (by decide)]
  norm_num

theorem roundFloat64_ten : roundFloat64 10 = .finite 10 := by
  rw [roundFloat64_fraction 10 10 1 (by decide) (by decide) (by decide) (by norm_num),
    roundPositive_eval 10 1 (-49) (10 * 2 ^ 49) (by decide) (by decide)]
  norm_num

theorem roundFloat64_five : roundFloat64 5 = .finite 5 := by
  rw [roundFloat64_fraction 5 5 1 (by decide) (by decide) (by decide) (by norm_num),
    roundPositive_eval 5 1 (-50) (5 * 2 ^ 50) (by decide) (by decide)]
  norm_num

theorem roundFloat64_three_quarters : roundFloat64 (3 / 4) = .finite (3 / 4) := by
  rw [roundFloat64_fraction (3 / 4) 3 4 (by decide) (by decide) (by decide) (by norm_num),
    roundPositive_eval 3 4 (-53) (3 * 2 ^ 51) (by decide) (by decide)]
  norm_num

set_option maxRecDepth 100000 in
set_option exponentiation.threshold 2000 in
theorem roundFloat64_smallest : roundFloat64 (1 / 2 ^ 1074) = .finite (1 / 2 ^ 1074) := by
  rw [roundFloat64_fraction (1 / 2 ^ 1074) 1 (2 ^ 1074) (by decide) (by decide)
      (by decide) (by norm_num),
    roundPositive_eval 1 (2 ^ 1074) (-1074) 1 (by decide) (by decide)]
  norm_num

set_option maxRecDepth 100000 in
set_option exponentiation.threshold 2000 in
theorem roundFloat64_three_quarters_smallest :
    roundFloat64 (3 / 4 * (1 / 2 ^ 1074)) = .finite (1 / 2 ^ 1074) := by
  rw [roundFloat64_fraction (3 / 4 * (1 / 2 ^ 1074)) 3 (2 ^ 1076) (by decide) (by decide)
      (by decide) (by norm_num),
    roundPositive_eval 3 (2 ^ 1076) (-1074) 1 (by decide) (by decide)]
  norm_num

set_option maxRecDepth 100000 in
set_option exponentiation.threshold 2000 in
theorem roundFloat64_smallest_normal :
    roundFloat64 (1 / 2 ^ 1022) = .finite (1 / 2 ^ 1022) := by
  rw [roundFloat64_fraction (1 / 2 ^ 1022) 1 (2 ^ 1022) (by decide) (by decide)
      (by decide) (by norm_num),
    roundPositive_eval 1 (2 ^ 1022) (-1074) (2 ^ 52) (by decide) (by decide)]
  norm_num

theorem roundFloat64_largest_draw :
    roundFloat64 (1 - 1 / 2 ^ 53) = .finite (1 - 1 / 2 ^ 53) := by
  rw [roundFloat64_fraction (1 - 1 / 2 ^ 53) (2 ^ 53 - 1) (2 ^ 53) (by decide) (by decide)
      (by decide) (by norm_num),
    roundPositive_eval (2 ^ 53 - 1) (2 ^ 53) (-53) (2 ^ 53 - 1) (by decide) (by decide)]
  norm_num

set_option maxRecDepth 100000 in
set_option exponentiation.threshold 2000 in
theorem roundFloat64_largest_draw_smallest_normal :
    roundFloat64 ((1 - 1 / 2 ^ 53) * (1 / 2 ^ 1022)) = .finite (1 / 2 ^ 1022) := by
  rw [roundFloat64_fraction ((1 - 1 / 2 ^ 53) * (1 / 2 ^ 1022)) (2 ^ 53 - 1) (2 ^ 1075)
      (by decide) (by decide) (by decide) (by norm_num),
    roundPositive_eval (2 ^ 53 - 1) (2 ^ 1075) (-1074) (2 ^ 52) (by decide) (by decide)]
  norm_num

/-- Counterexample to C9.  With the draw 1/2 and max = -10 the handler returns
-5, which is not in [0, -10); with the draw 1/2 and max = +Inf it returns
+Inf.  With the draw 3/4 and max = 2^-1074 (the smallest positive `float64`)
the exact product 3/4 * 2^-1074 rounds to 2^-1074, and with the draw 1 - 2^-53
and max = 2^-1022 (the smallest normal `float64`) the exact product lies
halfway between two `float64` values and rounds to 2^-1022: in both cases the
handler returns max itself, which is not below max.  The three draws and the
two positive values of max are `float64` values, and the draws lie in
[0, 1). -/
theorem random_outside_range :
    roundFloat64 (1 / 2) = .finite (1 / 2) ∧ roundFloat64 (3 / 4) = .finite (3 / 4) ∧
    roundFloat64 (1 - 1 / 2 ^ 53) = .finite (1 - 1 / 2 ^ 53) ∧
    exampleWorld.randFloat64 = 1 / 2 ∧
    (globalExpression.random exampleWorld ⟨1, 2⟩).handler exampleContext
        [("max", Value.float64 (.finite (-10)))] =
      some (some (newNumericExpression (Value.float64 (.finite (-5))) 1 2), none, []) ∧
    ¬ ((0 : ℚ) ≤ -5 ∧ (-5 : ℚ) < -10) ∧
    (globalExpression.random exampleWorld ⟨1, 2⟩).handler exampleContext
        [("max", Value.float64 (.inf false))] =
      some (some (newNumericExpression (Value.float64 (.inf false)) 1 2), none, []) ∧
    roundFloat64 (1 / 2 ^ 1074) = .finite (1 / 2 ^ 1074) ∧
    (globalExpression.random (exampleWorldWithDraw (3 / 4)) ⟨1, 2⟩).handler
        exampleContext [("max", Value.float64 (.finite (1 / 2 ^ 1074)))] =
      some (some (newNumericExpression (Value.float64 (.finite (1 / 2 ^ 1074))) 1 2),
        none, []) ∧
    roundFloat64 (1 / 2 ^ 1022) = .finite (1 / 2 ^ 1022) ∧
    (globalExpression.random (exampleWorldWithDraw (1 - 1 / 2 ^ 53)) ⟨1, 2⟩).handler
        exampleContext [("max", Value.float64 (.finite (1 / 2 ^ 1022)))] =
      some (some (newNumericExpression (Value.float64 (.finite (1 / 2 ^ 1022))) 1 2),
        none, []) := by
  refine ⟨roundFloat64_half, roundFloat64_three_quarters, roundFloat64_largest_draw, rfl, ?_,
    by norm_num, ?_, roundFloat64_smallest, ?_, roundFloat64_smallest_normal, ?_⟩
  · have h : roundFloat64 ((1 / 2 : ℚ) * -10) = .finite (-5) := by
      rw [show ((1 / 2 : ℚ) * -10) = -5 by norm_num, roundFloat64_neg, roundFloat64_five]
      rfl
    have hh : (globalExpression.random exampleWorld ⟨1, 2⟩).handler exampleContext
        [("max", Value.float64 (.finite (-10)))] =
      some (some (newNumericExpression (Value.float64 (roundFloat64 ((1 / 2 : ℚ) * -10))) 1 2),
        none, []) := rfl
    rw [hh, h]
  · rw [random_handler]
    simp [GoMap.index, List.lookup, checkFloat64, exampleWorld, GoFloat64.mul]
  · have hh : (globalExpression.random (exampleWorldWithDraw (3 / 4)) ⟨1, 2⟩).handler
          exampleContext [("max", Value.float64 (.finite (1 / 2 ^ 1074)))] =
      some (some (newNumericExpression
        (Value.float64 (roundFloat64 ((3 / 4 : ℚ) * (1 / 2 ^ 1074)))) 1 2), none, []) := rfl
    rw [hh, roundFloat64_three_quarters_smallest]
  · have hh : (globalExpression.random (exampleWorldWithDraw (1 - 1 / 2 ^ 53))
          ⟨1, 2⟩).handler exampleContext [("max", Value.float64 (.finite (1 / 2 ^ 1022)))] =
      some (some (newNumericExpression
        (Value.float64 (roundFloat64 ((1 - 1 / 2 ^ 53 : ℚ) * (1 / 2 ^ 1022)))) 1 2),
        none, []) := rfl
    rw [hh, roundFloat64_largest_draw_smallest_normal]

/-- C9, amended.  For every generator draw `r`, a `float64` with 0 <= r < 1,
the `random` handler never fails and returns a numeric `float64`.  When `max`
is supplied and is a finite `float64`, the result is the `float64` product
`r * max`, that is the exact product rounded to the nearest `float64`; it lies
in [0, max) when `max` is above 2^-1022 (the smallest normal `float64`), in
[0, max] for every positive `max`, and in [max, 0] when `max` is zero or
negative.  When `max` is absent the handler uses 1 and the result is `r`, in
[0, 1).  When `max` is an infinity the result is that infinity, or NaN for the
draw 0, and when `max` is NaN the result is NaN. -/
theorem random_range (w : World) (g : globalExpression) (c : executionContext)
    (args : GoMap) (hr : roundFloat64 w.randFloat64 = .finite w.randFloat64)
    (hr0 : 0 ≤ w.randFloat64) (hr1 : w.randFloat64 < 1) :
    (∃ y, (g.random w).handler c args =
      some (some (newNumericExpression (Value.float64 y) g.l g.p), none, [])) ∧
    (∀ max : ℚ, args.get "max" = some (Value.float64 (.finite max)) →
      roundFloat64 max = .finite max →
      ∃ y : ℚ,
        (g.random w).handler c args =
          some (some (newNumericExpression (Value.float64 (.finite y)) g.l g.p), none, []) ∧
        roundFloat64 (w.randFloat64 * max) = .finite y ∧
        ((2 : ℚ) ^ (-1022 : ℤ) < max → 0 ≤ y ∧ y < max) ∧
        (0 < max → 0 ≤ y ∧ y ≤ max) ∧
        (max ≤ 0 → max ≤ y ∧ y ≤ 0)) ∧
    (args.get "max" = none →
      (g.random w).handler c args =
        some (some (newNumericExpression (Value.float64 (.finite w.randFloat64)) g.l g.p),
          none, []) ∧
      0 ≤ w.randFloat64 ∧ w.randFloat64 < 1) ∧
    (∀ n, args.get "max" = some (Value.float64 (.inf n)) →
      (g.random w).handler c args =
        some (some (newNumericExpression
          (Value.float64 (if w.randFloat64 = 0 then .nan else .inf n)) g.l g.p), none, [])) ∧
    (args.get "max" = some (Value.float64 .nan) →
      (g.random w).handler c args =
        some (some (newNumericExpression (Value.float64 .nan) g.l g.p), none, [])) := by
  refine ⟨⟨_, random_handler w g c args⟩, ?_, ?_, ?_, ?_⟩
  · intro max hmax hfl
    obtain ⟨y, h1, h2, h3, h4⟩ := random_product w.randFloat64 max hr hr0 hr1 hfl
    refine ⟨y, ?_, h1, h2, h3, h4⟩
    rw [random_handler]
    simp only [GoMap.get] at hmax
    simp only [GoMap.index, hmax, checkFloat64, GoFloat64.mul, Option.getD,
      Bool.not_true, Bool.false_eq_true, if_false]
    rw [h1]
  · intro hnone
    refine ⟨?_, hr0, hr1⟩
    rw [random_handler]
    simp only [GoMap.get] at hnone
    simp only [GoMap.index, hnone, checkFloat64, GoFloat64.mul, Option.getD,
      Bool.not_false, if_true, mul_one]
    rw [hr]
  · intro n hmax
    rw [random_handler]
    simp only [GoMap.get] at hmax
    simp only [GoMap.index, hmax, checkFloat64, GoFloat64.mul, Option.getD,
      Bool.not_true, Bool.false_eq_true, if_false]
    rcases eq_or_lt_of_le hr0 with h0 | h0
    · simp [← h0]
    · simp [ne_of_gt h0, h0]
  · intro hmax
    rw [random_handler]
    simp only [GoMap.get] at hmax
    simp [GoMap.index, hmax, checkFloat64, GoFloat64.mul]

/-- Witness of the amended C9: with the draw 1/2, `random(max=10)` returns the
rounded product of 1/2 and 10, which lies in [0, 10). -/
theorem random_range_witness :
    ∃ y : ℚ,
      (globalExpression.random exampleWorld ⟨1, 2⟩).handler exampleContext
          [("max", Value.float64 (.finite 10))] =
        some (some (newNumericExpression (Value.float64 (.finite y)) 1 2), none, []) ∧
      roundFloat64 (exampleWorld.randFloat64 * 10) = .finite y ∧ 0 ≤ y ∧ y < 10 := by
  obtain ⟨y, h1, h2, h3, _, _⟩ :=
    (random_range exampleWorld ⟨1, 2⟩ exampleContext [("max", Value.float64 (.finite 10))]
      roundFloat64_half (by norm_num [exampleWorld]) (by norm_num [exampleWorld])).2.1
      10 rfl roundFloat64_ten
  exact ⟨y, h1, h2, h3 (by norm_num)⟩

/-! ## Theorems: `notify` -/

theorem durationArgument_default (args : GoMap)
    (h : args.get "duration" = none ∨ args.get "duration" = some (Value.string "")) :
    durationArgument args = "1s" := by
  unfold durationArgument GoMap.index
  unfold GoMap.get at h
  rcases h with h | h <;> simp [h, checkString]

theorem notify_handler_parsed (w : World) (g : globalExpression) (c : executionContext)
    (args : GoMap) (title message : String) (d : Duration)
    (ht : args.index "title" = Value.string title)
    (hm : args.index "message" = Value.string message)
    (hd : w.parseDuration (durationArgument args) = .ok d) :
    (g.notify w).handler c args =
      some (some (newBooleanExpression (c.notificationProvider
          (notifyNotification args title message d) (checkString (args.index "channel")).1
          (checkString (args.index "flow")).1) g.l g.p), none,
        [Effect.notified (notifyNotification args title message d)
          (checkString (args.index "channel")).1 (checkString (args.index "flow")).1]) := by
  unfold durationArgument at hd
  simp only [globalExpression.notify, newCallableExpression, expression.handler, ht, hm,
    assertString, Option.bind_eq_bind, Option.some_bind, hd]
  rfl

theorem notify_handler_error (w : World) (g : globalExpression) (c : executionContext)
    (args : GoMap) (title message err : String)
    (ht : args.index "title" = Value.string title)
    (hm : args.index "message" = Value.string message)
    (hd : w.parseDuration (durationArgument args) = .error err) :
    (g.notify w).handler c args = some (none, some err, []) := by
  unfold durationArgument at hd
  simp only [globalExpression.notify, newCallableExpression, expression.handler, ht, hm,
    assertString, Option.bind_eq_bind, Option.some_bind, hd]
  rfl

/-- Counterexample to C12: the duration `16777216.999999999s` parses to
16777216999999999 ns, whose whole seconds are 16777216, but the `float64` sum
in `Duration.Seconds` rounds up to 16777217 and the notification is sent with
duration 16777217. -/
theorem notify_duration_rounds_up :
    validated (globalExpression.notify exampleWorld ⟨1, 2⟩).arguments
      (notifyArgs "16777216.999999999s") = true ∧
    exampleWorld.parseDuration "16777216.999999999s" = .ok 16777216999999999 ∧
    (globalExpression.notify exampleWorld ⟨1, 2⟩).handler exampleContext
        (notifyArgs "16777216.999999999s") =
      some (some (newBooleanExpression true 1 2), none,
        [Effect.notified ⟨"t", "m", "", 16777217, "default"⟩ "" ""]) ∧
    max 1 (Int.tdiv 16777216999999999 1000000000) = 16777216 := by
  refine ⟨rfl, rfl, ?_, by decide⟩
  have hn : notifyNotification (notifyArgs "16777216.999999999s") "t" "m" 16777216999999999 =
      ⟨"t", "m", "", 16777217, "default"⟩ := by
    set_option maxRecDepth 100000 in decide
  rw [notify_handler_parsed exampleWorld ⟨1, 2⟩ exampleContext
    (notifyArgs "16777216.999999999s") "t" "m" 16777216999999999 rfl rfl rfl, hn]
  rfl

/-- C12, amended.  For every validated argument map the `notify` handler
parses the `duration` argument, or `1s` when it is absent or empty.  If that
string does not parse, the handler returns the parse error, no expression, and
sends no notification.  If it parses to an interval `d`, exactly one
notification is sent, with duration `max(1, int(d.Seconds()))`, which is at
least 1; `d.Seconds()` is the `float64` sum of the whole seconds and the
nanosecond remainder over 1e9.  For `d` below 2^24 seconds in magnitude the
duration is `max(1, whole seconds of d truncated toward zero)`, and for `d` of
one second it is 1. -/
theorem notify_duration (w : World) (g : globalExpression) (c : executionContext)
    (args : GoMap) (hv : validated (g.notify w).arguments args = true) :
    ((args.get "duration" = none ∨ args.get "duration" = some (Value.string "")) →
      durationArgument args = "1s") ∧
    (∀ err, w.parseDuration (durationArgument args) = .error err →
      (g.notify w).handler c args = some (none, some err, [])) ∧
    (∀ d, w.parseDuration (durationArgument args) = .ok d →
      ∃ n channelTag flowTag,
        (g.notify w).handler c args =
          some (some (newBooleanExpression (c.notificationProvider n channelTag flowTag)
            g.l g.p), none, [Effect.notified n channelTag flowTag]) ∧
        n.duration = max 1 (Duration.Seconds d).toInt ∧ 1 ≤ n.duration ∧
        (-16777216000000000 < d → d < 16777216000000000 →
          n.duration = max 1 (Int.tdiv d 1000000000))) ∧
    max 1 (Duration.Seconds 1000000000).toInt = 1 := by
  obtain ⟨x, hx⟩ := validated_string _ args hv "title" (by simp [globalExpression.notify,
    newCallableExpression, expression.arguments])
  obtain ⟨y, hy⟩ := validated_string _ args hv "message" (by simp [globalExpression.notify,
    newCallableExpression, expression.arguments])
  refine ⟨durationArgument_default args, ?_, ?_, by decide⟩
  · intro err herr
    exact notify_handler_error w g c args x y err hx hy herr
  · intro d hd
    refine ⟨notifyNotification args x y d, _, _,
      notify_handler_parsed w g c args x y d hx hy hd, ?_, ?_, ?_⟩
    · simp only [notifyNotification]
      split <;> omega
    · simp only [notifyNotification]
      split <;> omega
    · intro hlo hhi
      simp only [notifyNotification]
      rw [Seconds_toInt d hlo hhi]
      split <;> omega

/-- Witness of the amended C12: without a `duration` argument the handler
parses `1s` and sends the notification with duration 1. -/
theorem notify_duration_witness :
    validated (globalExpression.notify exampleWorld ⟨1, 2⟩).arguments
      [("title", Value.string "t"), ("message", Value.string "m")] = true ∧
    durationArgument [("title", Value.string "t"), ("message", Value.string "m")] = "1s" ∧
    ∃ n channelTag flowTag,
      (globalExpression.notify exampleWorld ⟨1, 2⟩).handler exampleContext
          [("title", Value.string "t"), ("message", Value.string "m")] =
        some (some (newBooleanExpression
          (exampleContext.notificationProvider n channelTag flowTag) 1 2), none,
          [Effect.notified n channelTag flowTag]) ∧
      n.duration = max 1 (Duration.Seconds 1000000000).toInt ∧ 1 ≤ n.duration ∧
      (-16777216000000000 < (1000000000 : Int) → (1000000000 : Int) < 16777216000000000 →
        n.duration = max 1 (Int.tdiv 1000000000 1000000000)) :=
  ⟨rfl, rfl,
   (notify_duration exampleWorld ⟨1, 2⟩ exampleContext
     [("title", Value.string "t"), ("message", Value.string "m")] rfl).2.2.1 1000000000 rfl⟩

/-! ## Theorems: `mapFromYaml` -/

mutual
theorem mapFromYaml_normalForm : ∀ (v : Value), v.decoded = true →
    mapFromYaml v = some (normalForm v)
  | .nil, _ => rfl
  | .string _, _ => rfl
  | .float64 _, _ => rfl
  | .int _, _ => rfl
  | .bool _, _ => rfl
  | .numericArray _, h => by simp [Value.decoded] at h
  | .map _, h => by simp [Value.decoded] at h
  | .slice xs, h => by
    have := mapFromYamlSlice_normalForm xs (by simpa [Value.decoded] using h)
    simp [mapFromYaml, normalForm, this]
  | .yamlMap entries, h => by
    have := mapFromYamlEntries_normalForm entries (by simpa [Value.decoded] using h)
    simp [mapFromYaml, normalForm, this]
theorem mapFromYamlEntries_normalForm : ∀ (entries : List (Value × Value)),
    decodedEntries entries = true →
    mapFromYamlEntries entries = some (normalFormEntries entries)
  | [], _ => rfl
  | (k, v) :: rest, h => by
    simp only [decodedEntries, Bool.and_eq_true] at h
    obtain ⟨⟨hk, hv⟩, hr⟩ := h
    have h1 := mapFromYaml_normalForm v hv
    have h2 := mapFromYamlEntries_normalForm rest hr
    cases k <;> simp [Value.isString] at hk
    simp [mapFromYamlEntries, normalFormEntries, assertString, Value.stringOf, h1, h2]
theorem mapFromYamlSlice_normalForm : ∀ (xs : List Value), decodedSlice xs = true →
    mapFromYamlSlice xs = some (normalFormSlice xs)
  | [], _ => rfl
  | v :: rest, h => by
    simp only [decodedSlice, Bool.and_eq_true] at h
    have h1 := mapFromYaml_normalForm v h.1
    have h2 := mapFromYamlSlice_normalForm rest h.2
    simp [mapFromYamlSlice, normalFormSlice, h1, h2]
end

mutual
theorem normalForm_hasYamlMap : ∀ (v : Value), v.decoded = true →
    (normalForm v).hasYamlMap = false
  | .nil, _ => rfl
  | .string _, _ => rfl
  | .float64 _, _ => rfl
  | .int _, _ => rfl
  | .bool _, _ => rfl
  | .numericArray _, h => by simp [Value.decoded] at h
  | .map _, h => by simp [Value.decoded] at h
  | .slice xs, h => by
    have := normalFormSlice_hasYamlMap xs (by simpa [Value.decoded] using h)
    simp [normalForm, Value.hasYamlMap, this]
  | .yamlMap entries, h => by
    have := normalFormEntries_hasYamlMap entries (by simpa [Value.decoded] using h)
    simp [normalForm, Value.hasYamlMap, this]
theorem normalFormEntries_hasYamlMap : ∀ (entries : List (Value × Value)),
    decodedEntries entries = true → hasYamlMapEntries (normalFormEntries entries) = false
  | [], _ => rfl
  | (_, v) :: rest, h => by
    simp only [decodedEntries, Bool.and_eq_true] at h
    have h1 := normalForm_hasYamlMap v h.1.2
    have h2 := normalFormEntries_hasYamlMap rest h.2
    simp [normalFormEntries, hasYamlMapEntries, h1, h2]
theorem normalFormSlice_hasYamlMap : ∀ (xs : List Value), decodedSlice xs = true →
    hasYamlMapSlice (normalFormSlice xs) = false
  | [], _ => rfl
  | v :: rest, h => by
    simp only [decodedSlice, Bool.and_eq_true] at h
    have h1 := normalForm_hasYamlMap v h.1
    have h2 := normalFormSlice_hasYamlMap rest h.2
    simp [normalFormSlice, hasYamlMapSlice, h1, h2]
end

mutual
theorem mapFromYaml_normalForm_again : ∀ (v : Value), v.decoded = true →
    mapFromYaml (normalForm v) = some (normalForm v)
  | .nil, _ => rfl
  | .string _, _ => rfl
  | .float64 _, _ => rfl
  | .int _, _ => rfl
  | .bool _, _ => rfl
  | .numericArray _, h => by simp [Value.decoded] at h
  | .map _, h => by simp [Value.decoded] at h
  | .slice xs, h => by
    have := mapFromYamlSlice_normalForm_again xs (by simpa [Value.decoded] using h)
    simp [mapFromYaml, normalForm, this]
  | .yamlMap entries, _ => by simp [mapFromYaml, normalForm]
theorem mapFromYamlSlice_normalForm_again : ∀ (xs : List Value), decodedSlice xs = true →
    mapFromYamlSlice (normalFormSlice xs) = some (normalFormSlice xs)
  | [], _ => rfl
  | v :: rest, h => by
    simp only [decodedSlice, Bool.and_eq_true] at h
    have h1 := mapFromYaml_normalForm_again v h.1
    have h2 := mapFromYamlSlice_normalForm_again rest h.2
    simp [mapFromYamlSlice, normalFormSlice, h1, h2]
end

theorem normalFormSlice_length : ∀ (xs : List Value),
    (normalFormSlice xs).length = xs.length
  | [] => rfl
  | _ :: rest => by simp [normalFormSlice, normalFormSlice_length rest]

theorem normalFormEntries_keys : ∀ (entries : List (Value × Value)),
    (normalFormEntries entries).map Prod.fst = entries.map (fun kv => kv.1.stringOf)
  | [] => rfl
  | (_, _) :: rest => by simp [normalFormEntries, normalFormEntries_keys rest]

/-- C13. Normalisation of decoded trees.  For every decoded value tree
(scalars, slices and decoder-native maps whose keys are strings, nested to any
depth) `mapFromYaml` returns, without panicking, the normal form of the tree:
a decoder-native map becomes a string-keyed map with the same keys in the same
order and the normal forms of the values, a slice keeps its length with the
normal forms of its elements in order, a scalar is unchanged.  No
decoder-native map remains in the result at any depth, and `mapFromYaml` on
the result returns the result unchanged. -/
theorem mapFromYaml_normalises (v : Value) (h : v.decoded = true) :
    mapFromYaml v = some (normalForm v) ∧
    (∀ entries, v = Value.yamlMap entries →
      normalForm v = Value.map (normalFormEntries entries) ∧
      (normalFormEntries entries).map Prod.fst = entries.map (fun kv => kv.1.stringOf)) ∧
    (∀ xs, v = Value.slice xs →
      normalForm v = Value.slice (normalFormSlice xs) ∧
      (normalFormSlice xs).length = xs.length) ∧
    ((∀ entries, v ≠ Value.yamlMap entries) → (∀ xs, v ≠ Value.slice xs) →
      normalForm v = v) ∧
    (normalForm v).hasYamlMap = false ∧
    mapFromYaml (normalForm v) = some (normalForm v) := by
  refine ⟨mapFromYaml_normalForm v h, ?_, ?_, ?_, normalForm_hasYamlMap v h,
    mapFromYaml_normalForm_again v h⟩
  · intro entries hv
    subst hv
    exact ⟨by simp [normalForm], normalFormEntries_keys entries⟩
  · intro xs hv
    subst hv
    exact ⟨by simp [normalForm], normalFormSlice_length xs⟩
  · intro h1 h2
    cases v with
    | yamlMap entries => exact absurd rfl (h1 entries)
    | slice xs => exact absurd rfl (h2 xs)
    | _ => rfl

/-- Witness of C13 on the example tree. -/
theorem mapFromYaml_normalises_witness :
    exampleTree.decoded = true ∧
    mapFromYaml exampleTree =
      some (.map [("a", .slice [.int 1, .map [("c", .bool true)]]), ("b", .float64 (.finite 2))]) ∧
    (normalForm exampleTree).hasYamlMap = false ∧
    mapFromYaml (normalForm exampleTree) = some (normalForm exampleTree) :=
  ⟨rfl, (mapFromYaml_normalises exampleTree rfl).1,
   (mapFromYaml_normalises exampleTree rfl).2.2.2.2.1,
   (mapFromYaml_normalises exampleTree rfl).2.2.2.2.2⟩

/-! ## Theorems: the OAuth library -/

/-- C14, the code at the failing input.  The `get` entry calls `oauthRequest`
with method `GET` and an empty body, and the `post` entry calls it with its
third argument as the body but also with method `GET`; both pass argument 1 as
the entry name, argument 2 as the URL and argument 4 as the query.  With an
outside that echoes the request, `post("entry", "https://example.org", "a=1")`
returns `GET https://example.org a=1`. -/
theorem oauthLibrary_methods (w : OAuthWorld) (entryName urlString body query : String) :
    oauthEntry w "get" [.string entryName, .string urlString, .string body, .string query] =
      oauthRequest w entryName "GET" urlString "" query ∧
    oauthEntry w "post" [.string entryName, .string urlString, .string body, .string query] =
      oauthRequest w entryName "GET" urlString body query ∧
    oauthEntry w "post" [.string entryName, .string urlString, .string body] =
      oauthRequest w entryName "GET" urlString body "" ∧
    oauthEntry echoOAuth "post"
        [.string "entry", .string "https://example.org", .string "a=1"] =
      .ok (LuaValue.string "GET https://example.org a=1", 1) ∧
    oauthRequest echoOAuth "entry" "POST" "https://example.org" "a=1" "" =
      .ok (LuaValue.string "POST https://example.org a=1", 1) := by
  refine ⟨rfl, rfl, rfl, rfl, rfl⟩

/-! ## Theorems: source positions -/

/-- C15, the code at the failing input.  For the global expression at line 1,
position 2, the `counter` and `series` handlers return an expression at line 2,
position 2 (both are built with `g.p, g.p`), while `now`, `random`, `excel`,
`googleSpreadsheet`, `notify` and `anomaly` return one at line 1, position 2. -/
theorem builtin_positions :
    returnedAt ((globalExpression.counter ⟨1, 2⟩).handler exampleContext
      [("name", Value.string "hits")]) = some (2, 2) ∧
    returnedAt ((globalExpression.series ⟨1, 2⟩).handler exampleContext
      [("name", Value.string "cpu")]) = some (2, 2) ∧
    returnedAt ((globalExpression.now exampleWorld ⟨1, 2⟩).handler exampleContext []) =
      some (1, 2) ∧
    returnedAt ((globalExpression.random exampleWorld ⟨1, 2⟩).handler exampleContext []) =
      some (1, 2) ∧
    returnedAt ((globalExpression.excel ⟨1, 2⟩).handler exampleContext
      [("path", Value.string "book.xlsx")]) = some (1, 2) ∧
    returnedAt ((globalExpression.googleSpreadsheet ⟨1, 2⟩).handler exampleContext
      [("spreadsheetId", Value.string "sheet")]) = some (1, 2) ∧
    returnedAt ((globalExpression.notify exampleWorld ⟨1, 2⟩).handler exampleContext
      [("title", Value.string "t"), ("message", Value.string "m")]) = some (1, 2) ∧
    returnedAt ((globalExpression.anomaly ⟨1, 2⟩).handler exampleContext (anomalyArgs 10)) =
      some (1, 2) := by
  refine ⟨rfl, rfl, rfl, rfl, rfl, rfl, ?_, ?_⟩
  · rw [notify_handler_parsed exampleWorld ⟨1, 2⟩ exampleContext
      [("title", Value.string "t"), ("message", Value.string "m")] "t" "m" 1000000000
      rfl rfl rfl]
    rfl
  · rw [anomalyArgs, anomaly_handler]
    rfl

end Agent












